import Mathlib

/-!
lsf2lsx: the LSF reader and the LSX writer.

A shallow embedding of `src/lsf2lsx` (Go).  Byte slices are lists of bytes, Go strings are
byte strings, a `bytes.Reader` is a byte list with a position, Go maps are association lists
whose list order stands for one possible iteration order, and the nodes allocated by
`buildResource` live in an arena addressed by table index (a pointer is an index).
A result is `Except Fault _`: a `Fault` is either an `error` value returned by the Go code or
a run-time panic.  Standard-library and third-party behaviour the repository only calls
(`sort.Slice`, float formatting, `%v` formatting, the codecs) is taken as a parameter.
-/

namespace Lsf2lsx

/-! ## Bytes, strings, faults -/

/-- A Go `byte`. -/
abbrev Byte := Fin 256

/-- A Go `string`: an immutable sequence of bytes. -/
abbrev GoString := List Byte

/-- A string literal of the source, as its bytes (the literals used are ASCII). -/
def lit (s : String) : GoString := s.toList.map (fun c => Fin.ofNat c.toNat)

/-- Go's `<` on strings: byte-wise lexicographic, a proper prefix being smaller. -/
def strLess : GoString → GoString → Bool
  | [], [] => false
  | [], _ :: _ => true
  | _ :: _, [] => false
  | a :: s, b :: t => if a < b then true else if b < a then false else strLess s t

/-- Everything that makes a Go call not deliver its value: the `error` values the code
returns, the run-time panics it can raise, and (model only) an exhausted loop bound. -/
inductive Fault where
  | eof
  | unexpectedEOF
  | invalidSignature (expected got : Nat)
  | unsupportedVersion (version : Nat)
  | unsupportedCompression (method : Nat)
  | sizeMismatch (expected got : Nat)
  | codec (code : Nat)
  | indexOutOfRange
  | nilDereference
  | makeLenOutOfRange
  | typeAssertion
  | outOfFuel
  deriving DecidableEq, Repr

/-- The faults that are run-time panics rather than returned `error` values. -/
def Fault.isPanic : Fault → Bool
  | .indexOutOfRange => true
  | .nilDereference => true
  | .makeLenOutOfRange => true
  | .typeAssertion => true
  | _ => false

/-! ## Readers (`bytes.Reader`, `io.ReadFull`, `encoding/binary`) -/

/-- A `bytes.Reader` (also the input stream): the underlying bytes and the read position. -/
structure Reader where
  data : List Byte
  pos : Nat
  deriving DecidableEq, Repr

/-- Go `newBinaryReaderFromBytes`. -/
def newBinaryReaderFromBytes (data : List Byte) : Reader := ⟨data, 0⟩

/-- Go `binaryReader.Len`: the number of unread bytes. -/
def Reader.Len (r : Reader) : Nat := r.data.length - r.pos

/-- Go `Seek(offset, 0)` with a non-negative offset: the position becomes `offset`. -/
def Reader.Seek (r : Reader) (offset : Nat) : Reader := ⟨r.data, offset⟩

/-- Go `bytes.Reader.Read` into a fresh zeroed buffer of `n` bytes.  At the end of the data it
returns `io.EOF` (also for `n = 0`); otherwise it copies what is there, up to `n` bytes,
without error.  The result is the buffer afterwards, the error, and the advanced reader. -/
def Reader.Read (r : Reader) (n : Nat) : (List Byte × Option Fault) × Reader :=
  if r.data.length ≤ r.pos then ((List.replicate n 0, some .eof), r)
  else
    let got := (r.data.drop r.pos).take n
    ((got ++ List.replicate (n - got.length) 0, none), ⟨r.data, r.pos + got.length⟩)

/-- Go `io.ReadFull` into a buffer of `n` bytes: all `n` bytes, or `io.EOF` when nothing could be
read, or `io.ErrUnexpectedEOF` when the data ended early (what was there is consumed). -/
def readFull (r : Reader) (n : Nat) : Except Fault (List Byte) × Reader :=
  if n = 0 then (.ok [], r)
  else if r.data.length ≤ r.pos then (.error .eof, r)
  else
    let got := (r.data.drop r.pos).take n
    if got.length < n then (.error .unexpectedEOF, ⟨r.data, r.pos + got.length⟩)
    else (.ok got, ⟨r.data, r.pos + got.length⟩)

/-- Go `binary.LittleEndian`: the unsigned value of a little-endian byte sequence. -/
def le : List Byte → Nat
  | [] => 0
  | b :: bs => b.val + 256 * le bs

/-- Reinterpretation of an unsigned `w`-bit word as a two's-complement signed integer. -/
def toSigned (w : Nat) (x : Nat) : Int :=
  if x < 2 ^ (w - 1) then (x : Int) else (x : Int) - 2 ^ w

/-- Go `binary.Read` of an unsigned integer of `n` bytes; the value stays 0 on error. -/
def readUint (n : Nat) (r : Reader) : (Nat × Option Fault) × Reader :=
  match readFull r n with
  | (.ok bs, r1) => ((le bs, none), r1)
  | (.error e, r1) => ((0, some e), r1)

/-- Go `binary.Read` of a signed integer of `n` bytes; the value stays 0 on error. -/
def readInt (n : Nat) (r : Reader) : (Int × Option Fault) × Reader :=
  match readFull r n with
  | (.ok bs, r1) => ((toSigned (8 * n) (le bs), none), r1)
  | (.error e, r1) => ((0, some e), r1)

def readUint8 (r : Reader) : (Nat × Option Fault) × Reader := readUint 1 r
def readUint16 (r : Reader) : (Nat × Option Fault) × Reader := readUint 2 r
def readUint32 (r : Reader) : (Nat × Option Fault) × Reader := readUint 4 r
def readUint64 (r : Reader) : (Nat × Option Fault) × Reader := readUint 8 r
def readInt8 (r : Reader) : (Int × Option Fault) × Reader := readInt 1 r
def readInt16 (r : Reader) : (Int × Option Fault) × Reader := readInt 2 r
def readInt32 (r : Reader) : (Int × Option Fault) × Reader := readInt 4 r
def readInt64 (r : Reader) : (Int × Option Fault) × Reader := readInt 8 r

/-- Go `readFloat32`: the float is kept as its 32 raw bits. -/
def readFloat32 (r : Reader) : (Nat × Option Fault) × Reader := readUint 4 r

/-- Go `readFloat64`: the float is kept as its 64 raw bits. -/
def readFloat64 (r : Reader) : (Nat × Option Fault) × Reader := readUint 8 r

/-! ## Types (`types.go`) -/

structure PackedVersion where
  Major : Nat
  Minor : Nat
  Revision : Nat
  Build : Nat
  deriving DecidableEq, Repr

structure LSMetadata where
  Timestamp : Nat
  MajorVersion : Nat
  MinorVersion : Nat
  Revision : Nat
  BuildNumber : Nat
  deriving DecidableEq, Repr

def LSFMetadataNone : Nat := 0
def LSFMetadataKeysAndAdjacency : Nat := 1
def LSFMetadataNone2 : Nat := 2

def LSFVersionMinBG3 : Nat := 5
def LSFVersionMaxBG3 : Nat := 7

structure LSFMagic where
  Magic : Nat
  Version : Nat
  deriving DecidableEq, Repr

structure LSFHeader where
  EngineVersion : Int
  deriving DecidableEq, Repr

/-- The metadata record, in declaration order; `binary.Read` reads the fields packed. -/
structure LSFMetadataV6 where
  StringsUncompressedSize : Nat
  StringsSizeOnDisk : Nat
  KeysUncompressedSize : Nat
  KeysSizeOnDisk : Nat
  NodesUncompressedSize : Nat
  NodesSizeOnDisk : Nat
  AttributesUncompressedSize : Nat
  AttributesSizeOnDisk : Nat
  ValuesUncompressedSize : Nat
  ValuesSizeOnDisk : Nat
  CompressionFlags : Nat
  Unknown2 : Nat
  Unknown3 : Nat
  MetadataFormat : Nat
  deriving DecidableEq, Repr

structure LSFNodeEntryV3 where
  NameHashTableIndex : Nat
  ParentIndex : Int
  NextSiblingIndex : Int
  FirstAttributeIndex : Int
  deriving DecidableEq, Repr

structure LSFAttributeEntryV3 where
  NameHashTableIndex : Nat
  TypeAndLength : Nat
  NextAttributeIndex : Int
  Offset : Nat
  deriving DecidableEq, Repr

structure LSFKeyEntry where
  NodeIndex : Nat
  KeyName : Nat
  deriving DecidableEq, Repr

structure LSFNodeInfo where
  ParentIndex : Int
  NameIndex : Nat
  NameOffset : Nat
  FirstAttributeIndex : Int
  KeyAttribute : GoString
  deriving DecidableEq, Repr

structure LSFAttributeInfo where
  NameIndex : Nat
  NameOffset : Nat
  TypeId : Nat
  Length : Nat
  DataOffset : Nat
  NextAttributeIndex : Int
  deriving DecidableEq, Repr

def CompressionNone : Nat := 0
def CompressionZlib : Nat := 1
def CompressionLZ4 : Nat := 2
def CompressionZstd : Nat := 3

/-- Go `CompressionFlags.Method`: the low nibble. -/
def CompressionFlags.Method (f : Nat) : Nat := f &&& 0x0f

/-- Go `CompressionFlags.Level`: the high nibble. -/
def CompressionFlags.Level (f : Nat) : Nat := (f >>> 4) &&& 0x0f

/-! The attribute type tags (`AttributeType`). -/

def AttrNone : Nat := 0
def AttrByte : Nat := 1
def AttrShort : Nat := 2
def AttrUShort : Nat := 3
def AttrInt : Nat := 4
def AttrUInt : Nat := 5
def AttrFloat : Nat := 6
def AttrDouble : Nat := 7
def AttrIVec2 : Nat := 8
def AttrIVec3 : Nat := 9
def AttrIVec4 : Nat := 10
def AttrVec2 : Nat := 11
def AttrVec3 : Nat := 12
def AttrVec4 : Nat := 13
def AttrMat2 : Nat := 14
def AttrMat3 : Nat := 15
def AttrMat3x4 : Nat := 16
def AttrMat4x3 : Nat := 17
def AttrMat4 : Nat := 18
def AttrBool : Nat := 19
def AttrString : Nat := 20
def AttrPath : Nat := 21
def AttrFixedString : Nat := 22
def AttrLSString : Nat := 23
def AttrULongLong : Nat := 24
def AttrScratchBuffer : Nat := 25
def AttrLong : Nat := 26
def AttrInt8 : Nat := 27
def AttrTranslatedString : Nat := 28
def AttrWString : Nat := 29
def AttrLSWString : Nat := 30
def AttrUUID : Nat := 31
def AttrInt64 : Nat := 32
def AttrTranslatedFSString : Nat := 33

structure TranslatedString where
  Version : Nat
  Handle : GoString
  Value : GoString
  deriving DecidableEq, Repr

mutual
inductive TranslatedFSString where
  | mk (Version : Nat) (Handle : GoString) (Value : GoString)
      (Arguments : List TranslatedFSStringArgument)
inductive TranslatedFSStringArgument where
  | mk (Key : GoString) (Value : GoString) (String : TranslatedFSString)
end

/-- The dynamic value held in `NodeAttribute.Value` (an `interface{}`), one constructor per
dynamic type the reader stores; floats are kept as their raw bits. -/
inductive AttrValue where
  | nil
  | uint8 (v : Nat)
  | int16 (v : Int)
  | uint16 (v : Nat)
  | int32 (v : Int)
  | uint32 (v : Nat)
  | float32 (bits : Nat)
  | float64 (bits : Nat)
  | bool (v : Bool)
  | uint64 (v : Nat)
  | int64 (v : Int)
  | int8 (v : Int)
  | string (v : GoString)
  | bytes (v : List Byte)
  | ivec2 (x y : Int)
  | ivec3 (x y z : Int)
  | ivec4 (x y z w : Int)
  | vec2 (x y : Nat)
  | vec3 (x y z : Nat)
  | vec4 (x y z w : Nat)
  | floats (v : List Nat)
  | translatedString (v : TranslatedString)
  | translatedFSString (v : TranslatedFSString)

structure NodeAttribute where
  type : Nat
  Value : AttrValue

/-- A Go `map[string]V` as the list of its entries; the list order stands for one iteration
order, and a well-formed map holds each key once. -/
abbrev GoMap (V : Type) := List (GoString × V)

/-- Map lookup `m[k]`. -/
def GoMap.get {V : Type} (m : GoMap V) (k : GoString) : Option V :=
  match m with
  | [] => none
  | (k1, v) :: rest => if k1 = k then some v else GoMap.get rest k

/-- Map assignment `m[k] = v`: an existing entry is overwritten, a new one is added. -/
def GoMap.set {V : Type} (m : GoMap V) (k : GoString) (v : V) : GoMap V :=
  match m with
  | [] => [(k, v)]
  | (k1, v1) :: rest => if k1 = k then (k1, v) :: rest else (k1, v1) :: GoMap.set rest k v

/-- The keys in iteration order (`for k := range m`). -/
def GoMap.keys {V : Type} (m : GoMap V) : List GoString := m.map Prod.fst

/-! ## Arena representation of the tree built by the reader

`buildResource` allocates one `Node` per node record and links them by pointer.  The node
built from record `i` sits at index `i` of `nodeInstances`, so a pointer is such an index. -/

namespace Arena

/-- A `Node` as it sits in memory: parent and children are pointers. -/
structure Node where
  Name : GoString
  Parent : Option Nat
  Attributes : GoMap NodeAttribute
  Children : GoMap (List Nat)
  KeyAttribute : GoString

/-- A `Region`: the embedded `Node` (its address) and the region name. -/
structure Region where
  Node : Nat
  RegionName : GoString
  deriving DecidableEq, Repr

/-- The `Resource` together with the memory its pointers refer to. -/
structure Resource where
  Metadata : LSMetadata
  Regions : GoMap Region
  nodeInstances : List (Option Node)

/-- Go `Node.AppendChild`, the child given by its address and its name. -/
def Node.AppendChild (n : Node) (child : Nat) (childName : GoString) : Node :=
  let children1 : GoMap (List Nat) :=
    match GoMap.get n.Children childName with
    | none => GoMap.set n.Children childName []
    | some _ => n.Children
  { n with Children :=
      GoMap.set children1 childName ((GoMap.get children1 childName).getD [] ++ [child]) }

end Arena

/-- The state of an `LSFReader` (the input stream is passed along separately). -/
structure LSFReader where
  version : Nat
  gameVersion : PackedVersion
  metadata : Option LSFMetadataV6
  names : List (List GoString)
  nodes : List LSFNodeInfo
  attributes : List LSFAttributeInfo
  values : List Byte

/-- A fresh reader, all fields zero. -/
def LSFReader.new : LSFReader := ⟨0, ⟨0, 0, 0, 0⟩, none, [], [], [], []⟩

/-! ## Header and metadata (`lsf_reader.go`) -/

/-- The file signature: the bytes of "LSOF". -/
def LSFMagicSignature : List Byte := ['L', 'S', 'O', 'F'].map (fun c => Fin.ofNat c.toNat)

/-- Go `LSFReader.readMagic`. -/
def readMagic (reader : Reader) : Except Fault LSFMagic × Reader :=
  match readFull reader 8 with
  | (.error e, r1) => (.error e, r1)
  | (.ok bs, r1) =>
    let magic : LSFMagic := ⟨le (bs.take 4), le (bs.drop 4)⟩
    let expectedMagic := le LSFMagicSignature
    if magic.Magic ≠ expectedMagic then
      (.error (.invalidSignature expectedMagic magic.Magic), r1)
    else if magic.Version < LSFVersionMinBG3 ∨ magic.Version > LSFVersionMaxBG3 then
      (.error (.unsupportedVersion magic.Version), r1)
    else (.ok magic, r1)

/-- Go `unpackVersion64` on a signed 64-bit value: `>> k` is the floor division by `2^k` and
`& (2^m - 1)` the remainder modulo `2^m`. -/
def unpackVersion64 (packed : Int) : PackedVersion :=
  { Major := ((packed / 2 ^ 55) % 2 ^ 7).toNat
    Minor := ((packed / 2 ^ 47) % 2 ^ 8).toNat
    Revision := ((packed / 2 ^ 31) % 2 ^ 16).toNat
    Build := (packed % 2 ^ 31).toNat }

/-- Go `LSFReader.readHeader`. -/
def readHeader (r : LSFReader) (reader : Reader) : Except Fault LSFReader × Reader :=
  match readFull reader 8 with
  | (.error e, r1) => (.error e, r1)
  | (.ok bs, r1) =>
    let header : LSFHeader := ⟨toSigned 64 (le bs)⟩
    let gameVersion := unpackVersion64 header.EngineVersion
    if gameVersion.Major = 0 then
      (.ok { r with gameVersion := ⟨4, 0, 9, 0⟩ }, r1)
    else (.ok { r with gameVersion := gameVersion }, r1)

/-- The bytes `[i, i + n)` of a record, as a little-endian unsigned integer. -/
def field (bs : List Byte) (i n : Nat) : Nat := le ((bs.drop i).take n)

/-- Go `binary.Read` of an `LSFMetadataV6` from its packed bytes. -/
def decodeMetadata (bs : List Byte) : LSFMetadataV6 :=
  { StringsUncompressedSize := field bs 0 4
    StringsSizeOnDisk := field bs 4 4
    KeysUncompressedSize := field bs 8 4
    KeysSizeOnDisk := field bs 12 4
    NodesUncompressedSize := field bs 16 4
    NodesSizeOnDisk := field bs 20 4
    AttributesUncompressedSize := field bs 24 4
    AttributesSizeOnDisk := field bs 28 4
    ValuesUncompressedSize := field bs 32 4
    ValuesSizeOnDisk := field bs 36 4
    CompressionFlags := field bs 40 1
    Unknown2 := field bs 41 1
    Unknown3 := field bs 42 2
    MetadataFormat := field bs 44 4 }

/-- The size `binary.Read` computes for `LSFMetadataV6`: ten `uint32`, a `uint8`, a `uint8`,
a `uint16` and a `uint32`, without padding. -/
def metadataSize : Nat := 10 * 4 + 1 + 1 + 2 + 4

/-- Go `LSFReader.readMetadata`. -/
def readMetadata (r : LSFReader) (reader : Reader) : Except Fault LSFReader × Reader :=
  match readFull reader metadataSize with
  | (.error e, r1) => (.error e, r1)
  | (.ok bs, r1) => (.ok { r with metadata := some (decodeMetadata bs) }, r1)

/-! ## Decompression (`compression.go`) -/

/-- The external codecs.  A streaming decoder is given by the bytes it yields and the error
that ends the stream (`Fault.eof` for a clean end). -/
structure Codecs where
  zlibNewReader : List Byte → Except Fault (List Byte × Fault)
  lz4NewReader : List Byte → List Byte × Fault
  lz4UncompressBlock : List Byte → Nat → Except Fault (List Byte)
  zstdDecompress : List Byte → Except Fault (List Byte)

/-- Go `Read` on the input stream (an `*os.File` in `ReadLSF`): as `bytes.Reader.Read`, except
that a read into an empty buffer returns no error. -/
def Reader.ReadFile (r : Reader) (n : Nat) : (List Byte × Option Fault) × Reader :=
  if n = 0 then (([], none), r) else r.Read n

/-- Go `io.ReadFull` from a streaming decoder into a zeroed buffer of `n` bytes: the buffer
afterwards and the error. -/
def readFullStream (s : List Byte × Fault) (n : Nat) : List Byte × Option Fault :=
  if n = 0 then ([], none)
  else if n ≤ s.1.length then (s.1.take n, none)
  else
    (s.1 ++ List.replicate (n - s.1.length) 0,
      some (if 0 < s.1.length ∧ s.2 = .eof then .unexpectedEOF else s.2))

/-- Go `decompressData`. -/
def decompressData (c : Codecs) (compressed : List Byte) (decompressedSize : Nat)
    (flags : Nat) (chunked : Bool) : Except Fault (List Byte) :=
  let method := CompressionFlags.Method flags
  if method = CompressionNone then .ok compressed
  else if method = CompressionZlib then
    match c.zlibNewReader compressed with
    | .error e => .error e
    | .ok reader =>
      match readFullStream reader decompressedSize with
      | (decompressed, none) => .ok decompressed
      | (decompressed, some e) => if e = .eof then .ok decompressed else .error e
  else if method = CompressionLZ4 then
    if chunked then
      match readFullStream (c.lz4NewReader compressed) decompressedSize with
      | (decompressed, none) => .ok decompressed
      | (decompressed, some e) => if e = .eof then .ok decompressed else .error e
    else
      match c.lz4UncompressBlock compressed decompressedSize with
      | .error e => .error e
      | .ok written =>
        if written.length ≠ decompressedSize then
          .error (.sizeMismatch decompressedSize written.length)
        else .ok written
  else if method = CompressionZstd then
    match c.zstdDecompress compressed with
    | .error e => .error e
    | .ok decompressed =>
      if decompressed.length ≠ decompressedSize then
        .error (.sizeMismatch decompressedSize decompressed.length)
      else .ok decompressed
  else .error (.unsupportedCompression method)

/-- Go `LSFReader.decompress`.  `meta` is dereferenced on the last path only, where a nil
`metadata` is a nil dereference. -/
def decompress (c : Codecs) (r : LSFReader) (reader : Reader) (sizeOnDisk uncompressedSize : Nat)
    (allowChunked : Bool) : Except Fault (List Byte) × Reader :=
  if sizeOnDisk = 0 ∧ uncompressedSize ≠ 0 then
    match reader.ReadFile uncompressedSize with
    | ((buf, none), r1) => (.ok buf, r1)
    | ((_, some e), r1) => (.error e, r1)
  else if sizeOnDisk = 0 ∧ uncompressedSize = 0 then (.ok [], reader)
  else
    match r.metadata with
    | none => (.error .nilDereference, reader)
    | some md =>
      let chunked := allowChunked
      let isCompressed := CompressionFlags.Method md.CompressionFlags ≠ CompressionNone
      let compressedSize := if isCompressed then sizeOnDisk else uncompressedSize
      match reader.ReadFile compressedSize with
      | ((_, some e), r1) => (.error e, r1)
      | ((compressed, none), r1) =>
        (decompressData c compressed uncompressedSize md.CompressionFlags chunked, r1)

/-! ## Flat tables (`lsf_reader.go`) -/

/-- The name-table access `names[index][offset]`; out of range it panics. -/
def lookupName (names : List (List GoString)) (index offset : Nat) : Except Fault GoString :=
  match names[index]? with
  | none => .error .indexOutOfRange
  | some bucket =>
    match bucket[offset]? with
    | none => .error .indexOutOfRange
    | some name => .ok name

/-- Indexing a slice with a signed index, as `xs[i]` does for a Go `int`: `none` is the
index-out-of-range panic. -/
def indexInt {α : Type} (xs : List α) (i : Int) : Option α :=
  if i < 0 then none else xs[i.toNat]?

/-- The inner loop of `readNames`: `numStrings` length-prefixed strings of one bucket. -/
def readNameStrings : Nat → Reader → List GoString → Except Fault (List GoString) × Reader
  | 0, reader, hash => (.ok hash, reader)
  | j + 1, reader, hash =>
    match readUint16 reader with
    | ((_, some e), r1) => (.error e, r1)
    | ((nameLen, none), r1) =>
      match r1.Read nameLen with
      | ((_, some e), r2) => (.error e, r2)
      | ((nameBytes, none), r2) => readNameStrings j r2 (hash ++ [nameBytes])

/-- The outer loop of `readNames` from bucket `i` on, `count` buckets being left. -/
def readNameBuckets : Nat → Nat → Reader → List (List GoString) →
    Option Fault × List (List GoString)
  | 0, _, _, names => (none, names)
  | count + 1, i, reader, names =>
    match readUint16 reader with
    | ((_, some e), _) => (some e, names)
    | ((numStrings, none), r1) =>
      match readNameStrings numStrings r1 [] with
      | (.error e, _) => (some e, names)
      | (.ok hash, r2) => readNameBuckets count (i + 1) r2 (names.set i hash)

/-- Go `LSFReader.readNames`: the error it returns and the reader state it leaves. -/
def readNames (r : LSFReader) (data : List Byte) : Option Fault × LSFReader :=
  match readUint32 (newBinaryReaderFromBytes data) with
  | ((_, some e), _) => (some e, r)
  | ((numHashEntries, none), reader) =>
    let res := readNameBuckets numHashEntries 0 reader (List.replicate numHashEntries [])
    (res.1, { r with names := res.2 })

/-- Go `binary.Read` of an `LSFNodeEntryV3` from its 16 bytes. -/
def decodeNodeEntry (bs : List Byte) : LSFNodeEntryV3 :=
  { NameHashTableIndex := field bs 0 4
    ParentIndex := toSigned 32 (field bs 4 4)
    NextSiblingIndex := toSigned 32 (field bs 8 4)
    FirstAttributeIndex := toSigned 32 (field bs 12 4) }

/-- The loop of `readNodes`; every round consumes a record, so `fuel` bounds the rounds. -/
def readNodesLoop : Nat → Reader → List LSFNodeInfo → Option Fault × List LSFNodeInfo
  | 0, _, nodes => (some .outOfFuel, nodes)
  | fuel + 1, reader, nodes =>
    if reader.Len > 0 then
      match readFull reader 16 with
      | (.error e, _) => (some e, nodes)
      | (.ok bs, r1) =>
        let entry := decodeNodeEntry bs
        let nodeInfo : LSFNodeInfo :=
          { ParentIndex := entry.ParentIndex
            NameIndex := entry.NameHashTableIndex >>> 16
            NameOffset := entry.NameHashTableIndex &&& 0xffff
            FirstAttributeIndex := entry.FirstAttributeIndex
            KeyAttribute := [] }
        readNodesLoop fuel r1 (nodes ++ [nodeInfo])
    else (none, nodes)

/-- Go `LSFReader.readNodes`. -/
def readNodes (r : LSFReader) (data : List Byte) : Option Fault × LSFReader :=
  let res := readNodesLoop (data.length + 1) (newBinaryReaderFromBytes data) []
  (res.1, { r with nodes := res.2 })

/-- Go `binary.Read` of an `LSFAttributeEntryV3` from its 16 bytes. -/
def decodeAttributeEntry (bs : List Byte) : LSFAttributeEntryV3 :=
  { NameHashTableIndex := field bs 0 4
    TypeAndLength := field bs 4 4
    NextAttributeIndex := toSigned 32 (field bs 8 4)
    Offset := field bs 12 4 }

/-- The loop of `readAttributesV3`. -/
def readAttributesLoop : Nat → Reader → List LSFAttributeInfo →
    Option Fault × List LSFAttributeInfo
  | 0, _, attributes => (some .outOfFuel, attributes)
  | fuel + 1, reader, attributes =>
    if reader.Len > 0 then
      match readFull reader 16 with
      | (.error e, _) => (some e, attributes)
      | (.ok bs, r1) =>
        let entry := decodeAttributeEntry bs
        let attrInfo : LSFAttributeInfo :=
          { NameIndex := entry.NameHashTableIndex >>> 16
            NameOffset := entry.NameHashTableIndex &&& 0xffff
            TypeId := entry.TypeAndLength &&& 0x3f
            Length := entry.TypeAndLength >>> 6
            DataOffset := entry.Offset
            NextAttributeIndex := entry.NextAttributeIndex }
        readAttributesLoop fuel r1 (attributes ++ [attrInfo])
    else (none, attributes)

/-- Go `LSFReader.readAttributesV3`. -/
def readAttributesV3 (r : LSFReader) (data : List Byte) : Option Fault × LSFReader :=
  let res := readAttributesLoop (data.length + 1) (newBinaryReaderFromBytes data) []
  (res.1, { r with attributes := res.2 })

/-- Go `binary.Read` of an `LSFKeyEntry` from its 8 bytes. -/
def decodeKeyEntry (bs : List Byte) : LSFKeyEntry :=
  { NodeIndex := field bs 0 4
    KeyName := field bs 4 4 }

/-- The assignment `nodes[nodeIdx].KeyAttribute = keyAttribute` behind its bounds guard. -/
def setKeyAttribute (nodes : List LSFNodeInfo) (nodeIdx : Nat) (keyAttribute : GoString) :
    List LSFNodeInfo :=
  if nodeIdx < nodes.length then
    match nodes[nodeIdx]? with
    | some nodeInfo => nodes.set nodeIdx { nodeInfo with KeyAttribute := keyAttribute }
    | none => nodes
  else nodes

/-- The loop of `readKeys`: an outer error is a panic, the inner one the returned error. -/
def readKeysLoop (names : List (List GoString)) : Nat → Reader → List LSFNodeInfo →
    Except Fault (Option Fault × List LSFNodeInfo)
  | 0, _, _ => .error .outOfFuel
  | fuel + 1, reader, nodes =>
    if reader.Len > 0 then
      match readFull reader 8 with
      | (.error e, _) => .ok (some e, nodes)
      | (.ok bs, r1) =>
        let entry := decodeKeyEntry bs
        let keyNameIndex := entry.KeyName >>> 16
        let keyNameOffset := entry.KeyName &&& 0xffff
        match lookupName names keyNameIndex keyNameOffset with
        | .error e => .error e
        | .ok keyAttribute =>
          let nodeIdx := entry.NodeIndex
          readKeysLoop names fuel r1 (setKeyAttribute nodes nodeIdx keyAttribute)
    else .ok (none, nodes)

/-- Go `LSFReader.readKeys`. -/
def readKeys (r : LSFReader) (data : List Byte) : Except Fault (Option Fault × LSFReader) :=
  match readKeysLoop r.names (data.length + 1) (newBinaryReaderFromBytes data) r.nodes with
  | .error e => .error e
  | .ok res => .ok (res.1, { r with nodes := res.2 })

/-- Go `LSFReader.readSections`.  The errors returned by the table readers are dropped, as in
the source; a panic of `readKeys` is not. -/
def readSections (c : Codecs) (r : LSFReader) (reader : Reader) : Except Fault LSFReader × Reader :=
  match r.metadata with
  | none => (.error .nilDereference, reader)
  | some md =>
    match decompress c r reader md.StringsSizeOnDisk md.StringsUncompressedSize false with
    | (.error e, r1) => (.error e, r1)
    | (.ok namesData, r1) =>
      let s1 := (readNames r namesData).2
      match decompress c s1 r1 md.NodesSizeOnDisk md.NodesUncompressedSize true with
      | (.error e, r2) => (.error e, r2)
      | (.ok nodesData, r2) =>
        let s2 := (readNodes s1 nodesData).2
        match decompress c s2 r2 md.AttributesSizeOnDisk md.AttributesUncompressedSize true with
        | (.error e, r3) => (.error e, r3)
        | (.ok attrsData, r3) =>
          let s3 := (readAttributesV3 s2 attrsData).2
          match decompress c s3 r3 md.ValuesSizeOnDisk md.ValuesUncompressedSize true with
          | (.error e, r4) => (.error e, r4)
          | (.ok valuesData, r4) =>
            let s4 : LSFReader := { s3 with values := valuesData }
            if md.MetadataFormat = LSFMetadataKeysAndAdjacency ∧ md.KeysSizeOnDisk > 0 then
              match decompress c s4 r4 md.KeysSizeOnDisk md.KeysUncompressedSize true with
              | (.error e, r5) => (.error e, r5)
              | (.ok keysData, r5) =>
                match readKeys s4 keysData with
                | .error e => (.error e, r5)
                | .ok res => (.ok res.2, r5)
            else (.ok s4, r4)

/-! ## Attribute values (`binary_reader.go`, `lsf_reader.go`) -/

/-- The loop `for i := range vals { vals[i], _ = readFloat32(reader) }` over `n` slots. -/
def readFloats : Nat → Reader → List Nat → List Nat × Reader
  | 0, reader, vals => (vals, reader)
  | n + 1, reader, vals =>
    let res := readFloat32 reader
    readFloats n res.2 (vals ++ [res.1.1])

/-- Go `readAttributeValue`: the decoded value (`AttrValue.nil` in the default case) and the
reader afterwards.  Read errors are dropped, as in the source. -/
def readAttributeValue (attrType : Nat) (reader : Reader) : AttrValue × Reader :=
  if attrType = AttrByte then
    let v := readUint8 reader
    (.uint8 v.1.1, v.2)
  else if attrType = AttrShort then
    let v := readInt16 reader
    (.int16 v.1.1, v.2)
  else if attrType = AttrUShort then
    let v := readUint16 reader
    (.uint16 v.1.1, v.2)
  else if attrType = AttrInt then
    let v := readInt32 reader
    (.int32 v.1.1, v.2)
  else if attrType = AttrUInt then
    let v := readUint32 reader
    (.uint32 v.1.1, v.2)
  else if attrType = AttrFloat then
    let v := readFloat32 reader
    (.float32 v.1.1, v.2)
  else if attrType = AttrDouble then
    let v := readFloat64 reader
    (.float64 v.1.1, v.2)
  else if attrType = AttrBool then
    let v := readUint8 reader
    (.bool (decide (v.1.1 ≠ 0)), v.2)
  else if attrType = AttrULongLong then
    let v := readUint64 reader
    (.uint64 v.1.1, v.2)
  else if attrType = AttrInt64 then
    let v := readInt64 reader
    (.int64 v.1.1, v.2)
  else if attrType = AttrInt8 then
    let v := readInt8 reader
    (.int8 v.1.1, v.2)
  else if attrType = AttrIVec2 then
    let x := readInt32 reader
    let y := readInt32 x.2
    (.ivec2 x.1.1 y.1.1, y.2)
  else if attrType = AttrIVec3 then
    let x := readInt32 reader
    let y := readInt32 x.2
    let z := readInt32 y.2
    (.ivec3 x.1.1 y.1.1 z.1.1, z.2)
  else if attrType = AttrIVec4 then
    let x := readInt32 reader
    let y := readInt32 x.2
    let z := readInt32 y.2
    let w := readInt32 z.2
    (.ivec4 x.1.1 y.1.1 z.1.1 w.1.1, w.2)
  else if attrType = AttrVec2 then
    let x := readFloat32 reader
    let y := readFloat32 x.2
    (.vec2 x.1.1 y.1.1, y.2)
  else if attrType = AttrVec3 then
    let x := readFloat32 reader
    let y := readFloat32 x.2
    let z := readFloat32 y.2
    (.vec3 x.1.1 y.1.1 z.1.1, z.2)
  else if attrType = AttrVec4 then
    let x := readFloat32 reader
    let y := readFloat32 x.2
    let z := readFloat32 y.2
    let w := readFloat32 z.2
    (.vec4 x.1.1 y.1.1 z.1.1 w.1.1, w.2)
  else if attrType = AttrMat2 then
    let vals := readFloats (2 * 2) reader []
    (.floats vals.1, vals.2)
  else if attrType = AttrMat3 then
    let vals := readFloats (3 * 3) reader []
    (.floats vals.1, vals.2)
  else if attrType = AttrMat3x4 then
    let vals := readFloats (3 * 4) reader []
    (.floats vals.1, vals.2)
  else if attrType = AttrMat4x3 then
    let vals := readFloats (4 * 3) reader []
    (.floats vals.1, vals.2)
  else if attrType = AttrMat4 then
    let vals := readFloats (4 * 4) reader []
    (.floats vals.1, vals.2)
  else if attrType = AttrUUID then
    let uuid := reader.Read 16
    (.bytes uuid.1.1, uuid.2)
  else (.nil, reader)

/-- The loop `for lastNull > 0 && bytes[lastNull-1] == 0 { lastNull-- }` of `readString`,
started at `lastNull`. -/
def trimNulls (bytes : List Byte) : Nat → Nat
  | 0 => 0
  | k + 1 => if bytes[k]? = some 0 then trimNulls bytes k else k + 1

/-- Go `LSFReader.readString`.  `make([]byte, length-1)` panics for a negative size. -/
def readString (reader : Reader) (length : Int) : Except Fault (GoString × Reader) :=
  if length = 0 then .ok ([], reader)
  else if length - 1 < 0 then .error .makeLenOutOfRange
  else
    let bytes := reader.Read (length - 1).toNat
    let lastNull := trimNulls bytes.1.1 bytes.1.1.length
    let nullTerm := bytes.2.Read 1
    .ok (bytes.1.1.take lastNull, nullTerm.2)

/-- The argument loop of `readTranslatedFSString` for `count` remaining arguments, the
recursive call for the nested string being `nested`. -/
def readTranslatedFSStringArgs
    (nested : Reader → Except Fault (TranslatedFSString × Reader)) :
    Nat → Reader → List TranslatedFSStringArgument →
    Except Fault (List TranslatedFSStringArgument × Reader)
  | 0, reader, args => .ok (args, reader)
  | count + 1, reader, args =>
    let argKeyLen := readInt32 reader
    match readString argKeyLen.2 argKeyLen.1.1 with
    | .error e => .error e
    | .ok (key, r1) =>
      match nested r1 with
      | .error e => .error e
      | .ok (str, r2) =>
        let argValueLen := readInt32 r2
        match readString argValueLen.2 argValueLen.1.1 with
        | .error e => .error e
        | .ok (value, r3) =>
          readTranslatedFSStringArgs nested count r3 (args ++ [.mk key value str])

/-- Go `LSFReader.readTranslatedFSString`; `fuel` bounds the nesting depth.
`make([]TranslatedFSStringArgument, argCount)` panics for a negative count. -/
def readTranslatedFSString : Nat → Reader → Except Fault (TranslatedFSString × Reader)
  | 0, _ => .error .outOfFuel
  | fuel + 1, reader =>
    let version := readUint16 reader
    let handleLen := readInt32 version.2
    match readString handleLen.2 handleLen.1.1 with
    | .error e => .error e
    | .ok (handle, r1) =>
      let argCount := readInt32 r1
      if argCount.1.1 < 0 then .error .makeLenOutOfRange
      else
        match readTranslatedFSStringArgs (readTranslatedFSString fuel)
            argCount.1.1.toNat argCount.2 [] with
        | .error e => .error e
        | .ok (args, r2) => .ok (.mk version.1.1 handle [] args, r2)

/-- Go `LSFReader.readAttribute`; `depth` bounds the nesting of a translated FS string. -/
def readAttribute (depth : Nat) (attrType : Nat) (reader : Reader) (length : Nat) :
    Except Fault (NodeAttribute × Reader) :=
  if attrType = AttrString ∨ attrType = AttrPath ∨ attrType = AttrFixedString ∨
      attrType = AttrLSString ∨ attrType = AttrWString ∨ attrType = AttrLSWString then
    match readString reader (length : Int) with
    | .error e => .error e
    | .ok (value, r1) => .ok (⟨attrType, .string value⟩, r1)
  else if attrType = AttrTranslatedString then
    let version := readUint16 reader
    let handleLen := readInt32 version.2
    match readString handleLen.2 handleLen.1.1 with
    | .error e => .error e
    | .ok (handle, r1) => .ok (⟨attrType, .translatedString ⟨version.1.1, handle, []⟩⟩, r1)
  else if attrType = AttrTranslatedFSString then
    match readTranslatedFSString depth reader with
    | .error e => .error e
    | .ok (fs, r1) => .ok (⟨attrType, .translatedFSString fs⟩, r1)
  else if attrType = AttrScratchBuffer then
    let buf := reader.Read length
    .ok (⟨attrType, .bytes buf.1.1⟩, buf.2)
  else
    let value := readAttributeValue attrType reader
    .ok (⟨attrType, value.1⟩, value.2)

/-! ## Tree reconstruction (`buildResource`) -/

/-- The attribute loop of `buildResource` for one node, started at `attrIdx` with the map
`attrs`: every round seeks the value reader to the entry's offset, decodes, and assigns
`node.Attributes[attrName]`.  `fuel` bounds the rounds. -/
def readNodeAttributes (r : LSFReader) (valueReader : Reader) (depth : Nat) :
    Nat → Int → GoMap NodeAttribute → Except Fault (GoMap NodeAttribute)
  | 0, attrIdx, attrs => if attrIdx = -1 then .ok attrs else .error .outOfFuel
  | fuel + 1, attrIdx, attrs =>
    if attrIdx = -1 then .ok attrs
    else
      match indexInt r.attributes attrIdx with
      | none => .error .indexOutOfRange
      | some attrInfo =>
        match lookupName r.names attrInfo.NameIndex attrInfo.NameOffset with
        | .error e => .error e
        | .ok attrName =>
          match readAttribute depth attrInfo.TypeId (valueReader.Seek attrInfo.DataOffset)
              attrInfo.Length with
          | .error e => .error e
          | .ok (attrValue, _) =>
            readNodeAttributes r valueReader depth fuel attrInfo.NextAttributeIndex
              (GoMap.set attrs attrName attrValue)

/-- The assignment of the decoded attributes to the node at address `i`. -/
def setAttributes (mem : List (Option Arena.Node)) (i : Nat) (attrs : GoMap NodeAttribute) :
    List (Option Arena.Node) :=
  match mem[i]? with
  | some (some node) => mem.set i (some { node with Attributes := attrs })
  | _ => mem

/-- One round of the node loop of `buildResource`, for record `i`. -/
def buildNode (r : LSFReader) (valueReader : Reader) (fuel : Nat) (res : Arena.Resource)
    (i : Nat) (nodeInfo : LSFNodeInfo) : Except Fault Arena.Resource :=
  match lookupName r.names nodeInfo.NameIndex nodeInfo.NameOffset with
  | .error e => .error e
  | .ok name =>
    let linked : Except Fault Arena.Resource :=
      if nodeInfo.ParentIndex = -1 then
        let node : Arena.Node := ⟨name, none, [], [], nodeInfo.KeyAttribute⟩
        .ok { res with
              nodeInstances := res.nodeInstances.set i (some node)
              Regions := GoMap.set res.Regions name ⟨i, name⟩ }
      else
        match indexInt res.nodeInstances nodeInfo.ParentIndex with
        | none => .error .indexOutOfRange
        | some parent =>
          let parentPtr : Option Nat :=
            if parent.isSome then some nodeInfo.ParentIndex.toNat else none
          let node : Arena.Node := ⟨name, parentPtr, [], [], nodeInfo.KeyAttribute⟩
          let mem1 := res.nodeInstances.set i (some node)
          match indexInt mem1 nodeInfo.ParentIndex with
          | some (some p) =>
            .ok { res with
                  nodeInstances :=
                    mem1.set nodeInfo.ParentIndex.toNat (some (p.AppendChild i name)) }
          | _ => .error .nilDereference
    match linked with
    | .error e => .error e
    | .ok res1 =>
      match readNodeAttributes r valueReader fuel fuel nodeInfo.FirstAttributeIndex [] with
      | .error e => .error e
      | .ok attrs => .ok { res1 with nodeInstances := setAttributes res1.nodeInstances i attrs }

/-- The node loop `for i, nodeInfo := range r.nodes` of `buildResource`, from record `i`. -/
def buildNodes (r : LSFReader) (valueReader : Reader) (fuel : Nat) :
    List LSFNodeInfo → Nat → Arena.Resource → Except Fault Arena.Resource
  | [], _, res => .ok res
  | nodeInfo :: rest, i, res =>
    match buildNode r valueReader fuel res i nodeInfo with
    | .error e => .error e
    | .ok res1 => buildNodes r valueReader fuel rest (i + 1) res1

/-- Go `LSFReader.buildResource`.  `fuel` bounds the attribute loops, which the source does
not bound.  The read of `meta.MetadataFormat` dereferences `r.metadata`. -/
def buildResource (fuel : Nat) (r : LSFReader) : Except Fault Arena.Resource :=
  let resource : Arena.Resource :=
    { Metadata :=
        { Timestamp := 0
          MajorVersion := r.gameVersion.Major
          MinorVersion := r.gameVersion.Minor
          Revision := r.gameVersion.Revision
          BuildNumber := r.gameVersion.Build }
      Regions := []
      nodeInstances := [] }
  match r.metadata with
  | none => .error .nilDereference
  | some _ =>
    let valueReader := newBinaryReaderFromBytes r.values
    buildNodes r valueReader fuel r.nodes 0
      { resource with nodeInstances := List.replicate r.nodes.length none }

/-- Go `LSFReader.Read` on the input stream. -/
def Read (c : Codecs) (fuel : Nat) (stream : Reader) : Except Fault Arena.Resource :=
  match readMagic stream with
  | (.error e, _) => .error e
  | (.ok magic, r1) =>
    let s0 : LSFReader := { LSFReader.new with version := magic.Version }
    match readHeader s0 r1 with
    | (.error e, _) => .error e
    | (.ok s1, r2) =>
      match readMetadata s1 r2 with
      | (.error e, _) => .error e
      | (.ok s2, r3) =>
        match readSections c s2 r3 with
        | (.error e, _) => .error e
        | (.ok s3, _) => buildResource fuel s3

/-! ## The tree seen by the writer -/

/-- A `Node` as the writer sees it: name, key attribute, attribute map and child groups
(the parent pointer is never followed by the writer). -/
inductive Node where
  | mk (Name : GoString) (KeyAttribute : GoString) (Attributes : GoMap NodeAttribute)
      (Children : List (GoString × List Node))

def Node.Name : Node → GoString
  | .mk name _ _ _ => name

def Node.KeyAttribute : Node → GoString
  | .mk _ key _ _ => key

def Node.Attributes : Node → GoMap NodeAttribute
  | .mk _ _ attrs _ => attrs

def Node.Children : Node → GoMap (List Node)
  | .mk _ _ _ children => children

structure Region where
  Node : Node
  RegionName : GoString

structure Resource where
  Metadata : LSMetadata
  Regions : GoMap Region

/-- All the values of a list of options, if none is missing. -/
def allSome {α : Type} : List (Option α) → Option (List α)
  | [] => some []
  | none :: _ => none
  | some a :: rest =>
    match allSome rest with
    | none => none
    | some l => some (a :: l)

/-- The tree reached from address `p` by following child pointers, to depth `fuel`. -/
def materializeNode (mem : List (Option Arena.Node)) : Nat → Nat → Option Node
  | 0, _ => none
  | fuel + 1, p =>
    match mem[p]? with
    | some (some n) =>
      match allSome (n.Children.map (fun g =>
          (allSome (g.2.map (materializeNode mem fuel))).map (fun cs => (g.1, cs)))) with
      | some groups => some (.mk n.Name n.KeyAttribute n.Attributes groups)
      | none => none
    | _ => none

/-- The `Resource` as a tree, each region unfolded to depth `fuel`. -/
def materializeResource (res : Arena.Resource) (fuel : Nat) : Option Resource :=
  match allSome (res.Regions.map (fun e =>
      (materializeNode res.nodeInstances fuel e.2.Node).map
        (fun n => (e.1, (⟨n, e.2.RegionName⟩ : Region))))) with
  | some regions => some ⟨res.Metadata, regions⟩
  | none => none

/-! ## The LSX writer (`lsx_writer.go`) -/

/-- Behaviour of the Go standard library and runtime that the writer calls and that is
not part of the repository.
* `sortSlice less xs`: what `sort.Slice(xs, less)` leaves in `xs`;
* `formatFloat32 bits`, `formatFloat64 bits`: `strconv.FormatFloat(v, 'g', -1, 32 or 64)` of
  the float with these bits (also what `%g` prints);
* `sprintV v`: `fmt.Sprintf("%v", v)`;
* `decodeRunes s`: the runes `for _, r := range s` yields; `encodeRune r`: `string(r)`. -/
structure Lib where
  sortSlice : (α : Type) → (α → α → Bool) → List α → List α
  formatFloat32 : Nat → GoString
  formatFloat64 : Nat → GoString
  sprintV : AttrValue → GoString
  decodeRunes : GoString → List Nat
  encodeRune : Nat → GoString

/-- The insertion step of `sortStrings`. -/
def insertString (s : GoString) : List GoString → List GoString
  | [] => [s]
  | t :: rest => if strLess s t then s :: t :: rest else t :: insertString s rest

/-- Go `sort.Strings`: the strings in ascending order.  Equal strings cannot be told apart, so
the result does not depend on the algorithm; insertion is used here. -/
def sortStrings : List GoString → List GoString
  | [] => []
  | s :: rest => insertString s (sortStrings rest)

/-- Go `strconv.FormatUint(v, 10)`. -/
def formatUint (v : Nat) : GoString := (Nat.toDigits 10 v).map (fun c => Fin.ofNat c.toNat)

/-- Go `strconv.FormatInt(v, 10)`, also `%d`. -/
def formatInt (v : Int) : GoString :=
  if v < 0 then lit "-" ++ formatUint (-v).toNat else formatUint v.toNat

/-- The lowercase hexadecimal digit of a value below 16. -/
def hexDigit (n : Nat) : Byte := (lit "0123456789abcdef").getD n 0

/-- Go `%02x` of one byte. -/
def hexByte (b : Byte) : GoString := [hexDigit (b.val / 16), hexDigit (b.val % 16)]

/-- Go `fmt.Sprintf("%x", bytes)`. -/
def hexString : List Byte → GoString
  | [] => []
  | b :: rest => hexByte b ++ hexString rest

/-- The exchange `result[i], result[i+1] = result[i+1], result[i]`. -/
def swapPair (result : List Byte) (i : Nat) : List Byte :=
  (result.set i (result.getD (i + 1) 0)).set (i + 1) (result.getD i 0)

/-- Go `byteSwapUUID`. -/
def byteSwapUUID (uuid : List Byte) : List Byte :=
  if uuid.length ≠ 16 then uuid
  else [8, 10, 12, 14].foldl swapPair uuid

/-- Go `formatUUID`. -/
def formatUUID (uuid : List Byte) (byteSwap : Bool) : GoString :=
  if uuid.length ≠ 16 then hexString uuid
  else
    let bytes := if byteSwap then byteSwapUUID uuid else uuid
    let b := fun (i : Nat) => hexByte (bytes.getD i 0)
    b 3 ++ b 2 ++ b 1 ++ b 0 ++ lit "-" ++ b 5 ++ b 4 ++ lit "-" ++ b 7 ++ b 6 ++ lit "-" ++
      b 8 ++ b 9 ++ lit "-" ++ b 10 ++ b 11 ++ b 12 ++ b 13 ++ b 14 ++ b 15

/-- The matrix case of `attributeValueToString`: the components joined by blanks. -/
def joinFloats (lib : Lib) : List Nat → GoString
  | [] => []
  | [f] => lib.formatFloat32 f
  | f :: rest => lib.formatFloat32 f ++ lit " " ++ joinFloats lib rest

/-- Go `attributeValueToString`: a switch on the dynamic type of `attr.Value`. -/
def attributeValueToString (lib : Lib) (attr : NodeAttribute) : GoString :=
  match attr.Value with
  | .uint8 v => formatUint v
  | .int16 v => formatInt v
  | .uint16 v => formatUint v
  | .int32 v => formatInt v
  | .uint32 v => formatUint v
  | .float32 v => lib.formatFloat32 v
  | .float64 v => lib.formatFloat64 v
  | .bool v => if v then lit "True" else lit "False"
  | .uint64 v => formatUint v
  | .int64 v => formatInt v
  | .int8 v => formatInt v
  | .string v => v
  | .bytes v =>
    if attr.type = AttrUUID ∧ v.length = 16 then formatUUID v true
    else hexString v
  | .ivec2 x y => formatInt x ++ lit " " ++ formatInt y
  | .ivec3 x y z => formatInt x ++ lit " " ++ formatInt y ++ lit " " ++ formatInt z
  | .ivec4 x y z w =>
    formatInt x ++ lit " " ++ formatInt y ++ lit " " ++ formatInt z ++ lit " " ++ formatInt w
  | .vec2 x y => lib.formatFloat32 x ++ lit " " ++ lib.formatFloat32 y
  | .vec3 x y z =>
    lib.formatFloat32 x ++ lit " " ++ lib.formatFloat32 y ++ lit " " ++ lib.formatFloat32 z
  | .vec4 x y z w =>
    lib.formatFloat32 x ++ lit " " ++ lib.formatFloat32 y ++ lit " " ++ lib.formatFloat32 z ++
      lit " " ++ lib.formatFloat32 w
  | .floats v => joinFloats lib v
  | v => lib.sprintV v

/-- Go `attributeTypeToString`: the lookup in `typeMap`, "None" for a tag without entry. -/
def attributeTypeToString (attrType : Nat) : GoString :=
  if attrType = AttrByte then lit "uint8"
  else if attrType = AttrShort then lit "int16"
  else if attrType = AttrUShort then lit "uint16"
  else if attrType = AttrInt then lit "int32"
  else if attrType = AttrUInt then lit "uint32"
  else if attrType = AttrFloat then lit "float"
  else if attrType = AttrDouble then lit "double"
  else if attrType = AttrIVec2 then lit "ivec2"
  else if attrType = AttrIVec3 then lit "ivec3"
  else if attrType = AttrIVec4 then lit "ivec4"
  else if attrType = AttrVec2 then lit "fvec2"
  else if attrType = AttrVec3 then lit "fvec3"
  else if attrType = AttrVec4 then lit "fvec4"
  else if attrType = AttrMat2 then lit "mat2x2"
  else if attrType = AttrMat3 then lit "mat3x3"
  else if attrType = AttrMat3x4 then lit "mat3x4"
  else if attrType = AttrMat4x3 then lit "mat4x3"
  else if attrType = AttrMat4 then lit "mat4x4"
  else if attrType = AttrBool then lit "bool"
  else if attrType = AttrString then lit "string"
  else if attrType = AttrPath then lit "path"
  else if attrType = AttrFixedString then lit "FixedString"
  else if attrType = AttrLSString then lit "LSString"
  else if attrType = AttrULongLong then lit "uint64"
  else if attrType = AttrScratchBuffer then lit "ScratchBuffer"
  else if attrType = AttrLong then lit "old_int64"
  else if attrType = AttrInt8 then lit "int8"
  else if attrType = AttrTranslatedString then lit "TranslatedString"
  else if attrType = AttrWString then lit "WString"
  else if attrType = AttrLSWString then lit "LSWString"
  else if attrType = AttrUUID then lit "guid"
  else if attrType = AttrInt64 then lit "int64"
  else if attrType = AttrTranslatedFSString then lit "TranslatedFSString"
  else lit "None"

/-- A token handed to `xml.Encoder.EncodeToken`: a start element with its attributes (name
and value, in order) or an end element. -/
inductive Token where
  | StartElement (name : GoString) (attrs : List (GoString × GoString))
  | EndElement (name : GoString)
  deriving DecidableEq, Repr

/-- Go `writeVersion`. -/
def writeVersion (resource : Resource) : List Token :=
  [ .StartElement (lit "version")
      [ (lit "major", formatUint resource.Metadata.MajorVersion),
        (lit "minor", formatUint resource.Metadata.MinorVersion),
        (lit "revision", formatUint resource.Metadata.Revision),
        (lit "build", formatUint resource.Metadata.BuildNumber) ],
    .EndElement (lit "version") ]

mutual
/-- Go `writeTranslatedFSString`. -/
def writeTranslatedFSString : TranslatedFSString → List Token
  | .mk _ handle value args =>
    [ Token.StartElement (lit "string")
        [ (lit "value", value), (lit "handle", handle),
          (lit "arguments", formatInt args.length) ] ] ++
    (if args.length > 0 then
      [Token.StartElement (lit "arguments") []] ++ writeTranslatedFSStringArguments args ++
        [Token.EndElement (lit "arguments")]
     else []) ++
    [Token.EndElement (lit "string")]
/-- Go `writeTranslatedFSStringArgument`. -/
def writeTranslatedFSStringArgument : TranslatedFSStringArgument → List Token
  | .mk key value str =>
    [Token.StartElement (lit "argument") [(lit "key", key), (lit "value", value)]] ++
      writeTranslatedFSString str ++ [Token.EndElement (lit "argument")]
/-- The loop `for _, arg := range fs.Arguments` over the arguments. -/
def writeTranslatedFSStringArguments : List TranslatedFSStringArgument → List Token
  | [] => []
  | arg :: rest => writeTranslatedFSStringArgument arg ++ writeTranslatedFSStringArguments rest
end

/-- The loop of `writeAttribute` that drops the 0x1F characters of the rendered value. -/
def cleanValue (lib : Lib) (valueStr : GoString) : GoString :=
  ((lib.decodeRunes valueStr).filter (fun r => r ≠ 0x1F)).flatMap lib.encodeRune

/-- Go `writeAttribute`.  The type assertions panic when the value does not have the dynamic
type its tag announces. -/
def writeAttribute (lib : Lib) (attrName : GoString) (attr : NodeAttribute) :
    Except Fault (List Token) :=
  let attrs0 : List (GoString × GoString) :=
    [(lit "id", attrName), (lit "type", attributeTypeToString attr.type)]
  if attr.type = AttrTranslatedString then
    match attr.Value with
    | .translatedString ts =>
      .ok [ .StartElement (lit "attribute")
              (attrs0 ++ (if ts.Handle ≠ [] then [(lit "handle", ts.Handle)] else []) ++
                (if ts.Value ≠ [] then [(lit "value", ts.Value)]
                 else [(lit "version", formatUint ts.Version)])),
            .EndElement (lit "attribute") ]
    | _ => .error .typeAssertion
  else if attr.type = AttrTranslatedFSString then
    match attr.Value with
    | .translatedFSString (.mk _ handle value args) =>
      .ok ([ Token.StartElement (lit "attribute")
              (attrs0 ++ [ (lit "value", value), (lit "handle", handle),
                           (lit "arguments", formatInt args.length) ]) ] ++
          (if args.length > 0 then
            [Token.StartElement (lit "arguments") []] ++ writeTranslatedFSStringArguments args ++
              [Token.EndElement (lit "arguments")]
           else []) ++
          [Token.EndElement (lit "attribute")])
    | _ => .error .typeAssertion
  else
    .ok [ .StartElement (lit "attribute")
            (attrs0 ++ [(lit "value", cleanValue lib (attributeValueToString lib attr))]),
          .EndElement (lit "attribute") ]

/-- The concatenated output of `f` over a list, stopping at the first fault. -/
def collect {α : Type} (f : α → Except Fault (List Token)) : List α → Except Fault (List Token)
  | [] => .ok []
  | a :: rest =>
    match f a with
    | .error e => .error e
    | .ok ts =>
      match collect f rest with
      | .error e => .error e
      | .ok us => .ok (ts ++ us)

mutual
/-- Go `nodeHashString`.  The hashes of the children are computed first, group by group in
stored order (`hashGroups`), and looked up while the sorted child names are walked.  The
`fmt.Println` of the result goes to standard output, not into the string, and is left out. -/
def nodeHashString (lib : Lib) : Node → GoString
  | .mk _ key attrs children =>
    let keyPart : GoString := if key ≠ [] then lit "key:" ++ key ++ lit "|" else []
    let attrNames := sortStrings (GoMap.keys attrs)
    let attrPart : GoString := attrNames.flatMap (fun attrName =>
      attrName ++ lit ":" ++
        (match GoMap.get attrs attrName with
         | some attr => attributeValueToString lib attr
         | none => []) ++ lit "|")
    let hashed := hashGroups lib children
    let childNames := sortStrings (GoMap.keys children)
    let childPart : GoString := childNames.flatMap (fun childName =>
      let childHashes := (GoMap.get hashed childName).getD []
      if childHashes.length > 1 then
        (lib.sortSlice (Node × GoString) (fun a b => strLess a.2 b.2) childHashes).flatMap
          (fun ch => childName ++ lit ":" ++ ch.2 ++ lit "|")
      else
        childHashes.flatMap (fun ch => childName ++ lit ":" ++ ch.2 ++ lit "|"))
    keyPart ++ attrPart ++ childPart
/-- Every child group with the hash of each member, in stored order. -/
def hashGroups (lib : Lib) : List (GoString × List Node) → GoMap (List (Node × GoString))
  | [] => []
  | g :: rest => (g.1, hashNodes lib g.2) :: hashGroups lib rest
/-- The members of one group, each with its `nodeHashString`. -/
def hashNodes (lib : Lib) : List Node → List (Node × GoString)
  | [] => []
  | child :: rest => (child, nodeHashString lib child) :: hashNodes lib rest
end

/-- The sort of `writeNode` on a group of more than one child:
`sort.Slice(children, func(i, j) { nodeHashString(children[i]) < nodeHashString(children[j]) })`.
The sort is in place; the order it leaves in the map is not read again by the writer. -/
def sortChildren (lib : Lib) (children : List Node) : List Node :=
  if children.length > 1 then
    lib.sortSlice Node (fun a b => strLess (nodeHashString lib a) (nodeHashString lib b)) children
  else children

/-- Go `writeNode`; `fuel` bounds the depth of the recursion. -/
def writeNode (lib : Lib) : Nat → Node → Except Fault (List Token)
  | 0, _ => .error .outOfFuel
  | fuel + 1, node =>
    let attrs : List (GoString × GoString) :=
      [(lit "id", node.Name)] ++
        (if node.KeyAttribute ≠ [] then [(lit "key", node.KeyAttribute)] else [])
    let attrNames := sortStrings (GoMap.keys node.Attributes)
    match collect (fun attrName =>
        match GoMap.get node.Attributes attrName with
        | some attr => writeAttribute lib attrName attr
        | none => .error .nilDereference) attrNames with
    | .error e => .error e
    | .ok attrTokens =>
      if node.Children.length > 0 then
        let childNames := sortStrings (GoMap.keys node.Children)
        match collect (fun childName =>
            let children := (GoMap.get node.Children childName).getD []
            collect (writeNode lib fuel) (sortChildren lib children)) childNames with
        | .error e => .error e
        | .ok childTokens =>
          .ok ([Token.StartElement (lit "node") attrs] ++ attrTokens ++
            [Token.StartElement (lit "children") []] ++ childTokens ++
            [Token.EndElement (lit "children"), Token.EndElement (lit "node")])
      else
        .ok ([Token.StartElement (lit "node") attrs] ++ attrTokens ++
          [Token.EndElement (lit "node")])

/-- Go `writeRegions`. -/
def writeRegions (lib : Lib) (fuel : Nat) (resource : Resource) : Except Fault (List Token) :=
  let regionNames := sortStrings (GoMap.keys resource.Regions)
  collect (fun regionName =>
    match GoMap.get resource.Regions regionName with
    | none => .error .nilDereference
    | some region =>
      match writeNode lib fuel region.Node with
      | .error e => .error e
      | .ok ts =>
        .ok ([Token.StartElement (lit "region") [(lit "id", regionName)]] ++ ts ++
          [Token.EndElement (lit "region")])) regionNames

/-- Go `WriteLSXToWriter`: the bytes written to the writer directly and the tokens given to the
encoder (which writes them to the same writer on `Flush`). -/
def WriteLSXToWriter (lib : Lib) (fuel : Nat) (resource : Resource) :
    Except Fault (GoString × List Token) :=
  match writeRegions lib fuel resource with
  | .error e => .error e
  | .ok regionTokens =>
    .ok (lit "<?xml version=\"1.0\" encoding=\"utf-8\"?>\n",
      [Token.StartElement (lit "save") []] ++ writeVersion resource ++ regionTokens ++
        [Token.EndElement (lit "save")])

/-! ## Reference behaviour of the library, and predicates used in the statements -/

/-- One round of Go's `insertionSortLessFunc`: the element `x` moves left while it is less
than its left neighbour.  The sorted part is held nearest neighbour first. -/
def insertBack {α : Type} (less : α → α → Bool) (x : α) : List α → List α
  | [] => [x]
  | y :: rest => if less x y then y :: insertBack less x rest else x :: y :: rest

/-- Go's `insertionSortLessFunc`, which is all that `sort.Slice` runs on a slice of at most
12 elements. -/
def insertionSortLessFunc {α : Type} (less : α → α → Bool) (xs : List α) : List α :=
  (xs.foldl (fun sortedRev x => insertBack less x sortedRev) []).reverse

/-- A library for evaluating examples: `sort.Slice` as Go runs it on short slices; runes as
for ASCII text; the float and `%v` renderings (not used by the examples) left as marks. -/
def refLib : Lib :=
  { sortSlice := fun _ less xs => insertionSortLessFunc less xs
    formatFloat32 := fun _ => lit "?"
    formatFloat64 := fun _ => lit "?"
    sprintV := fun _ => lit "<nil>"
    decodeRunes := fun s => s.map (fun b => b.val)
    encodeRune := fun r => [Fin.ofNat r] }

/-- The contract of `sort.Slice`: the slice is rearranged, and when `less` is a strict weak
ordering no element is followed by a smaller one. -/
def SortSliceSpec (sortSlice : (α : Type) → (α → α → Bool) → List α → List α) : Prop :=
  ∀ (α : Type) (less : α → α → Bool) (xs : List α),
    (sortSlice α less xs).Perm xs ∧
    ((∀ a, less a a = false) → (∀ a b c, less a b = true → less b c = true → less a c = true) →
      (∀ a b c, less a b = false → less b c = false → less a c = false) →
      (sortSlice α less xs).Pairwise (fun a b => less b a = false))

/-- The attribute entries met from index `idx` by following `NextAttributeIndex` inside the
table until the terminator -1. -/
inductive AttrChain (attributes : List LSFAttributeInfo) : Int → List LSFAttributeInfo → Prop
  | done : AttrChain attributes (-1) []
  | step (idx : Int) (a : LSFAttributeInfo) (rest : List LSFAttributeInfo) :
      idx ≠ -1 → indexInt attributes idx = some a →
      AttrChain attributes a.NextAttributeIndex rest → AttrChain attributes idx (a :: rest)

/-- The name a reference resolves to (empty when the reference is out of range). -/
def resolveName (names : List (List GoString)) (index offset : Nat) : GoString :=
  match lookupName names index offset with
  | .ok name => name
  | .error _ => []

/-- The records among the first `k` whose parent index is `i` and whose resolved name is
`name`, in ascending table order. -/
def childRecords (r : LSFReader) (k i : Nat) (name : GoString) : List Nat :=
  (List.range k).filter (fun j =>
    match r.nodes[j]? with
    | some c =>
      decide (c.ParentIndex = (i : Int) ∧ resolveName r.names c.NameIndex c.NameOffset = name)
    | none => false)

/-- The region map after the first `k` records: every record with parent index -1 has been
registered under its resolved name, in table order. -/
def regionsOf (r : LSFReader) (k : Nat) : GoMap Arena.Region :=
  (List.range k).foldl (fun regions j =>
    match r.nodes[j]? with
    | some c =>
      if c.ParentIndex = -1 then
        GoMap.set regions (resolveName r.names c.NameIndex c.NameOffset)
          ⟨j, resolveName r.names c.NameIndex c.NameOffset⟩
      else regions
    | none => regions) []

/-- What the node loop of `buildResource` has established after `k` records: the node of
every earlier record is allocated with its name, key attribute, parent pointer, decoded
attributes and the children met so far; later slots are still nil. -/
def CellsBuilt (r : LSFReader) (fuel k : Nat) (res : Arena.Resource) : Prop :=
  res.nodeInstances.length = r.nodes.length ∧
  res.Regions = regionsOf r k ∧
  (∀ i nd, i < k → r.nodes[i]? = some nd →
    ∃ cell, res.nodeInstances[i]? = some (some cell) ∧
      cell.Name = resolveName r.names nd.NameIndex nd.NameOffset ∧
      cell.KeyAttribute = nd.KeyAttribute ∧
      cell.Parent = (if nd.ParentIndex = -1 then none else some nd.ParentIndex.toNat) ∧
      readNodeAttributes r (newBinaryReaderFromBytes r.values) fuel fuel
        nd.FirstAttributeIndex [] = .ok cell.Attributes ∧
      ∀ name, (GoMap.get cell.Children name).getD [] = childRecords r k i name) ∧
  (∀ i, k ≤ i → i < r.nodes.length → res.nodeInstances[i]? = some none)

/-- The flat tables of the two-record scenario: record 0 is "Root" with parent -1, record 1
is "Child" with parent 0; neither has attributes. -/
def twoRecordTables : LSFReader :=
  { LSFReader.new with
    metadata := some (decodeMetadata [])
    names := [[lit "Root", lit "Child"]]
    nodes := [⟨-1, 0, 0, -1, []⟩, ⟨0, 0, 1, -1, []⟩] }

/-- Flat tables with one region "R" whose attribute chain is entry 0 ("a"), entry 1 ("b"),
entry 2 ("a" again), each a `uint8` read from the value blob `[7, 8, 9]`. -/
def chainTables : LSFReader :=
  { LSFReader.new with
    metadata := some (decodeMetadata [])
    names := [[lit "R", lit "a", lit "b"]]
    nodes := [⟨-1, 0, 0, 0, []⟩]
    attributes := [⟨0, 1, AttrByte, 1, 0, 1⟩, ⟨0, 2, AttrByte, 1, 1, 2⟩, ⟨0, 1, AttrByte, 1, 2, -1⟩]
    values := [7, 8, 9] }

/-- A node whose attribute map and child-group map are stored out of name order. -/
def unorderedNode : Node :=
  .mk (lit "N") [] [(lit "b", ⟨AttrByte, .uint8 2⟩), (lit "a", ⟨AttrByte, .uint8 1⟩)]
    [(lit "Y", [.mk (lit "Y") [] [] []]), (lit "X", [.mk (lit "X") [] [] []])]

/-- A resource whose region map is stored out of name order. -/
def unorderedResource : Resource :=
  ⟨⟨0, 4, 0, 9, 0⟩,
    [(lit "Zeta", ⟨.mk (lit "Zeta") [] [] [], lit "Zeta"⟩),
     (lit "Alpha", ⟨unorderedNode, lit "Alpha"⟩)]⟩

/-! ## Inputs of the examples -/

/-- A reader state with one region "R" that has one attribute "a" of type tag 0. -/
def untypedAttrTables : LSFReader :=
  { LSFReader.new with
    metadata := some (decodeMetadata [])
    names := [[lit "R", lit "a"]]
    nodes := [⟨-1, 0, 0, 0, []⟩]
    attributes := [⟨0, 1, AttrNone, 0, 0, -1⟩] }

/-- Two siblings named "Object" that differ in the type of their attribute `x`. -/
def objectWithByte : Node := .mk (lit "Object") [] [(lit "x", ⟨AttrByte, .uint8 1⟩)] []
def objectWithInt : Node := .mk (lit "Object") [] [(lit "x", ⟨AttrInt, .int32 1⟩)] []

def resourceByteFirst : Resource :=
  ⟨⟨0, 4, 0, 9, 0⟩, [(lit "Root", ⟨.mk (lit "Root") [] [] [(lit "Object", [objectWithByte, objectWithInt])], lit "Root"⟩)]⟩
def resourceIntFirst : Resource :=
  ⟨⟨0, 4, 0, 9, 0⟩, [(lit "Root", ⟨.mk (lit "Root") [] [] [(lit "Object", [objectWithInt, objectWithByte])], lit "Root"⟩)]⟩

/-- Three siblings named "Object", stored in an order that is not the order of their
content hashes ("v:3|", "v:1|", "v:2|"). -/
def threeObjects : List Node :=
  [ .mk (lit "Object") [] [(lit "v", ⟨AttrInt, .int32 3⟩)] [],
    .mk (lit "Object") [] [(lit "v", ⟨AttrInt, .int32 1⟩)] [],
    .mk (lit "Object") [] [(lit "v", ⟨AttrInt, .int32 2⟩)] [] ]

mutual
/-- The height of a node: 1 for a node without children. -/
def Node.depth : Node → Nat
  | .mk _ _ _ children => 1 + depthGroups children
/-- The greatest height among the members of the groups. -/
def depthGroups : List (GoString × List Node) → Nat
  | [] => 0
  | g :: rest => max (depthNodes g.2) (depthGroups rest)
/-- The greatest height among the nodes. -/
def depthNodes : List Node → Nat
  | [] => 0
  | child :: rest => max (Node.depth child) (depthNodes rest)
end

/-- The value of the attribute has the dynamic type that the type assertions of
`writeAttribute` expect for its tag. -/
def NodeAttribute.assertable (attr : NodeAttribute) : Prop :=
  (attr.type = AttrTranslatedString → ∃ ts, attr.Value = .translatedString ts) ∧
  (attr.type = AttrTranslatedFSString → ∃ fs, attr.Value = .translatedFSString fs)

mutual
/-- Every attribute in the subtree passes the type assertions of `writeAttribute`. -/
def Node.assertable : Node → Prop
  | .mk _ _ attrs children =>
    (∀ e ∈ attrs, NodeAttribute.assertable e.2) ∧ assertableGroups children
def assertableGroups : List (GoString × List Node) → Prop
  | [] => True
  | g :: rest => assertableNodes g.2 ∧ assertableGroups rest
def assertableNodes : List Node → Prop
  | [] => True
  | child :: rest => Node.assertable child ∧ assertableNodes rest
end

/-! ## Inputs and predicates of the reader examples -/

/-- The `n` low bytes of `v`, least significant first (an integer field as stored in a file). -/
def leBytes : Nat → Nat → List Byte
  | 0, _ => []
  | n + 1, v => Fin.ofNat (v % 256) :: leBytes n (v / 256)

/-- The bytes of a name table with one bucket holding the one name "Root". -/
def rootNames : List Byte := leBytes 4 1 ++ leBytes 2 1 ++ leBytes 2 4 ++ lit "Root"

/-- A node record: packed name reference, parent, next sibling, first attribute (two's
complement words). -/
def nodeRecord (name parent sibling firstAttr : Nat) : List Byte :=
  leBytes 4 name ++ leBytes 4 parent ++ leBytes 4 sibling ++ leBytes 4 firstAttr

/-- An attribute record: packed name reference, packed type and length, next attribute,
offset. -/
def attributeRecord (name typeAndLength next offset : Nat) : List Byte :=
  leBytes 4 name ++ leBytes 4 typeAndLength ++ leBytes 4 next ++ leBytes 4 offset

/-- A key record: node index and packed name reference. -/
def keyRecord (nodeIndex name : Nat) : List Byte := leBytes 4 nodeIndex ++ leBytes 4 name

/-- A version-5 file with engine version word `engine`, no compression, and the given
sections.  The names, nodes, attributes and values are stored raw (on-disk size 0); the key
section, read only for metadata format 1 and a positive on-disk size, is stored with method
"none". -/
def lsfFile (engine : Nat) (names nodes attrs values keys : List Byte) (format : Nat) :
    List Byte :=
  LSFMagicSignature ++ leBytes 4 5 ++ leBytes 8 engine ++
  (leBytes 4 names.length ++ leBytes 4 0 ++ leBytes 4 keys.length ++ leBytes 4 keys.length ++
   leBytes 4 nodes.length ++ leBytes 4 0 ++ leBytes 4 attrs.length ++ leBytes 4 0 ++
   leBytes 4 values.length ++ leBytes 4 0 ++ leBytes 1 0 ++ leBytes 1 0 ++ leBytes 2 0 ++
   leBytes 4 format) ++
  names ++ nodes ++ attrs ++ values ++ keys

/-- A file whose node table is one record for the region "Root" followed by one stray byte. -/
def truncatedNodeTableFile : List Byte :=
  lsfFile 0 rootNames (nodeRecord 0 0xffffffff 0xffffffff 0xffffffff ++ [0]) [] [] [] 0

/-- A file whose attribute table is one record (the attribute "Root" of type `uint8` of the
region "Root") followed by one stray byte. -/
def truncatedAttributeTableFile : List Byte :=
  lsfFile 0 rootNames (nodeRecord 0 0xffffffff 0xffffffff 0)
    (attributeRecord 0 (1 * 64 + AttrByte) 0xffffffff 0 ++ [0]) [7] [] 0

/-- A file whose key table is one record (key "Root" for node 0) followed by one stray byte. -/
def truncatedKeyTableFile : List Byte :=
  lsfFile 0 rootNames (nodeRecord 0 0xffffffff 0xffffffff 0xffffffff) [] []
    (keyRecord 0 0 ++ [0]) 1

/-- Codecs that always fail; the files of the examples are stored without compression. -/
def noCodecs : Codecs :=
  ⟨fun _ => .error (.codec 0), fun _ => ([], .codec 0), fun _ _ => .error (.codec 0), fun _ => .error (.codec 0)⟩

/-- The reader state `Read` hands to `buildResource`: the part of `Read` before that call. -/
def readTables (c : Codecs) (stream : Reader) : Except Fault LSFReader :=
  match readMagic stream with
  | (.error e, _) => .error e
  | (.ok magic, r1) =>
    let s0 : LSFReader := { LSFReader.new with version := magic.Version }
    match readHeader s0 r1 with
    | (.error e, _) => .error e
    | (.ok s1, r2) =>
      match readMetadata s1 r2 with
      | (.error e, _) => .error e
      | (.ok s2, r3) =>
        match readSections c s2 r3 with
        | (.error e, _) => .error e
        | (.ok s3, _) => .ok s3

/-- The ways `buildResource`, which has no error result, can fail to return a Resource: a
run-time panic, or the unbounded attribute loop never ending (the fuel running out). -/
def Fault.isAbort (e : Fault) : Prop := e.isPanic = true ∨ e = .outOfFuel

/-- The attribute chain started at `idx` meets an index outside the attribute table, or an
entry whose name reference is outside the name table. -/
inductive ChainDangles (r : LSFReader) : Int → Prop
  | index (idx : Int) : idx ≠ -1 → indexInt r.attributes idx = none → ChainDangles r idx
  | name (idx : Int) (a : LSFAttributeInfo) : indexInt r.attributes idx = some a →
      lookupName r.names a.NameIndex a.NameOffset = .error .indexOutOfRange → ChainDangles r idx
  | next (idx : Int) (a : LSFAttributeInfo) : indexInt r.attributes idx = some a →
      ChainDangles r a.NextAttributeIndex → ChainDangles r idx

/-- A node record with a dangling reference: its name reference is outside the name table,
its parent index is neither -1 nor an index of the node table, or its attribute chain
dangles. -/
def NodeDangles (r : LSFReader) (nodeInfo : LSFNodeInfo) : Prop :=
  lookupName r.names nodeInfo.NameIndex nodeInfo.NameOffset = .error .indexOutOfRange ∨
  (nodeInfo.ParentIndex ≠ -1 ∧
    (nodeInfo.ParentIndex < 0 ∨ (r.nodes.length : Int) ≤ nodeInfo.ParentIndex)) ∨
  ChainDangles r nodeInfo.FirstAttributeIndex

/-- The attribute chain started at `idx` leaves the loop of `buildResource` within `n`
entries: it reaches -1, or an index outside the attribute table (where the loop panics). -/
def chainEndsWithin (attributes : List LSFAttributeInfo) : Nat → Int → Bool
  | 0, idx => decide (idx = -1)
  | n + 1, idx =>
    decide (idx = -1) ||
      match indexInt attributes idx with
      | none => true
      | some a => chainEndsWithin attributes n a.NextAttributeIndex

/-- A file with the region "Root" and a key record for node index 7, outside the node table. -/
def danglingKeyFile : List Byte :=
  lsfFile 0 rootNames (nodeRecord 0 0xffffffff 0xffffffff 0xffffffff) [] [] (keyRecord 7 0) 1

/-- A file with the region "Root", which has no attributes, and an attribute record on no
chain whose name reference (bucket 9, offset 9) is outside the name table. -/
def danglingUnusedAttributeFile : List Byte :=
  lsfFile 0 rootNames (nodeRecord 0 0xffffffff 0xffffffff 0xffffffff)
    (attributeRecord (9 * 65536 + 9) 0 0xffffffff 0) [] [] 0

/-- A file whose only node record names node 5 as its parent. -/
def danglingParentFile : List Byte :=
  lsfFile 0 rootNames (nodeRecord 0 5 0xffffffff 0xffffffff) [] [] [] 0

/-- The reader state loaded from `danglingParentFile`. -/
def danglingParentTables : LSFReader :=
  { version := 5
    gameVersion := ⟨4, 0, 9, 0⟩
    metadata := some (decodeMetadata ((danglingParentFile.drop 16).take 48))
    names := [[lit "Root"]]
    nodes := [{ ParentIndex := 5, NameIndex := 0, NameOffset := 0, FirstAttributeIndex := -1,
                KeyAttribute := [] }]
    attributes := []
    values := [] }

/-- The reader `r2` is `r1` after some reads: the same data, the position not before. -/
def Reader.After (r1 r2 : Reader) : Prop := r2.data = r1.data ∧ r1.pos ≤ r2.pos

/-- The outcome of a decoding step started at `reader`: it returned with the reader moved
forward, or failed otherwise than by running out of fuel. -/
def Returned {α : Type} (reader : Reader) (res : Except Fault (α × Reader)) : Prop :=
  match res with
  | .ok (_, r2) => reader.After r2
  | .error e => e ≠ .outOfFuel

/-- A file in which the only attribute record of the region "Root" names itself as the next
attribute of the chain. -/
def cyclicChainFile : List Byte :=
  lsfFile 0 rootNames (nodeRecord 0 0xffffffff 0xffffffff 0) (attributeRecord 0 0 0 0) [] [] 0

/-- The reader state loaded from `cyclicChainFile`. -/
def cyclicChainTables : LSFReader :=
  { version := 5
    gameVersion := ⟨4, 0, 9, 0⟩
    metadata := some (decodeMetadata ((cyclicChainFile.drop 16).take 48))
    names := [[lit "Root"]]
    nodes := [{ ParentIndex := -1, NameIndex := 0, NameOffset := 0, FirstAttributeIndex := 0,
                KeyAttribute := [] }]
    attributes := [{ NameIndex := 0, NameOffset := 0, TypeId := 0, Length := 0,
                     DataOffset := 0, NextAttributeIndex := 0 }]
    values := [] }

/-- A file with the region "Root" and its one attribute "Root", the `uint8` 7. -/
def oneAttributeFile : List Byte :=
  lsfFile 0 rootNames (nodeRecord 0 0xffffffff 0xffffffff 0)
    (attributeRecord 0 (1 * 64 + AttrByte) 0xffffffff 0) [7] [] 0

/-- The reader state loaded from `oneAttributeFile`. -/
def oneAttributeTables : LSFReader :=
  { version := 5
    gameVersion := ⟨4, 0, 9, 0⟩
    metadata := some (decodeMetadata ((oneAttributeFile.drop 16).take 48))
    names := [[lit "Root"]]
    nodes := [{ ParentIndex := -1, NameIndex := 0, NameOffset := 0, FirstAttributeIndex := 0,
                KeyAttribute := [] }]
    attributes := [{ NameIndex := 0, NameOffset := 0, TypeId := AttrByte, Length := 1,
                     DataOffset := 0, NextAttributeIndex := -1 }]
    values := [7] }

/-- A file with the region "Root" whose engine version word packs 4.0.9.330. -/
def versionedFile : List Byte :=
  lsfFile (4 * 2 ^ 55 + 0 * 2 ^ 47 + 9 * 2 ^ 31 + 330) rootNames
    (nodeRecord 0 0xffffffff 0xffffffff 0xffffffff) [] [] [] 0

/-- A file with the region "Root" and its one attribute "Root", the `uint16` 263 stored as the
two bytes `07 01` that end the file. -/
def twoByteValueFile : List Byte :=
  lsfFile 0 rootNames (nodeRecord 0 0xffffffff 0xffffffff 0)
    (attributeRecord 0 (2 * 64 + AttrUShort) 0xffffffff 0) [7, 1] [] 0

/-- The width in bytes of the value of a primitive type tag, as the specification lists it:
1 for uint8, int8 and bool, 2 for int16 and uint16, 4 for int32, uint32 and float, 8 for
int64, uint64 and double, 8, 12, 16 for the vectors of 2, 3, 4 components, 16, 36, 48, 48, 64
for the matrices and 16 for the identifier; `none` for every other tag. -/
def primitiveWidth (attrType : Nat) : Option Nat :=
  if attrType = AttrByte ∨ attrType = AttrInt8 ∨ attrType = AttrBool then some 1
  else if attrType = AttrShort ∨ attrType = AttrUShort then some 2
  else if attrType = AttrInt ∨ attrType = AttrUInt ∨ attrType = AttrFloat then some 4
  else if attrType = AttrInt64 ∨ attrType = AttrULongLong ∨ attrType = AttrDouble then some 8
  else if attrType = AttrIVec2 ∨ attrType = AttrVec2 then some 8
  else if attrType = AttrIVec3 ∨ attrType = AttrVec3 then some 12
  else if attrType = AttrIVec4 ∨ attrType = AttrVec4 then some 16
  else if attrType = AttrMat2 then some 16
  else if attrType = AttrMat3 then some 36
  else if attrType = AttrMat3x4 then some 48
  else if attrType = AttrMat4x3 then some 48
  else if attrType = AttrMat4 then some 64
  else if attrType = AttrUUID then some 16
  else none

/-- The value the specification assigns to the bytes `bs` of a primitive type tag: integers
by their little-endian two's-complement reading, a bool true iff its byte is nonzero, a float
by its little-endian bits, vectors and matrices component by component, the identifier as the
bytes themselves. -/
def decodePrimitive (attrType : Nat) (bs : List Byte) : AttrValue :=
  if attrType = AttrByte then .uint8 (field bs 0 1)
  else if attrType = AttrInt8 then .int8 (toSigned 8 (field bs 0 1))
  else if attrType = AttrBool then .bool (decide (field bs 0 1 ≠ 0))
  else if attrType = AttrShort then .int16 (toSigned 16 (field bs 0 2))
  else if attrType = AttrUShort then .uint16 (field bs 0 2)
  else if attrType = AttrInt then .int32 (toSigned 32 (field bs 0 4))
  else if attrType = AttrUInt then .uint32 (field bs 0 4)
  else if attrType = AttrFloat then .float32 (field bs 0 4)
  else if attrType = AttrInt64 then .int64 (toSigned 64 (field bs 0 8))
  else if attrType = AttrULongLong then .uint64 (field bs 0 8)
  else if attrType = AttrDouble then .float64 (field bs 0 8)
  else if attrType = AttrIVec2 then
    .ivec2 (toSigned 32 (field bs 0 4)) (toSigned 32 (field bs 4 4))
  else if attrType = AttrIVec3 then
    .ivec3 (toSigned 32 (field bs 0 4)) (toSigned 32 (field bs 4 4)) (toSigned 32 (field bs 8 4))
  else if attrType = AttrIVec4 then
    .ivec4 (toSigned 32 (field bs 0 4)) (toSigned 32 (field bs 4 4)) (toSigned 32 (field bs 8 4))
      (toSigned 32 (field bs 12 4))
  else if attrType = AttrVec2 then .vec2 (field bs 0 4) (field bs 4 4)
  else if attrType = AttrVec3 then .vec3 (field bs 0 4) (field bs 4 4) (field bs 8 4)
  else if attrType = AttrVec4 then
    .vec4 (field bs 0 4) (field bs 4 4) (field bs 8 4) (field bs 12 4)
  else if attrType = AttrUUID then .bytes bs
  else .floats ((List.range (bs.length / 4)).map (fun j => field bs (4 * j) 4))

/-- The node table after the first `k` key records of `data` (8 bytes each: node index, packed
name reference) have been applied to `nodes` in table order. -/
def applyKeys (names : List (List GoString)) (data : List Byte) (nodes : List LSFNodeInfo) :
    Nat → List LSFNodeInfo
  | 0 => nodes
  | k + 1 =>
    setKeyAttribute (applyKeys names data nodes k) (field data (8 * k) 4)
      (resolveName names (field data (8 * k + 4) 4 >>> 16) (field data (8 * k + 4) 4 &&& 0xffff))

/-- Flat tables with the names "a" and "b" and one region record without key attribute. -/
def keyedTables : LSFReader :=
  { LSFReader.new with
    names := [[lit "a", lit "b"]]
    nodes := [⟨-1, 0, 0, -1, []⟩] }

/-- The name of the node at address `j` of the memory, if a node has been built there. -/
def nameAt (mem : List (Option Arena.Node)) (j : Nat) : Option GoString :=
  match mem[j]? with
  | some (some cell) => some cell.Name
  | _ => none

/-- The nodes of a Resource that can be reached from its region map by following child
pointers. -/
inductive Reachable (res : Arena.Resource) : Nat → Prop
  | region (name : GoString) (reg : Arena.Region) :
      GoMap.get res.Regions name = some reg → Reachable res reg.Node
  | child (p i : Nat) (parent : Arena.Node) (name : GoString) (children : List Nat) :
      Reachable res p → res.nodeInstances[p]? = some (some parent) →
      GoMap.get parent.Children name = some children → i ∈ children → Reachable res i

/-- Flat tables with two region records that both resolve to the name "Root". -/
def twoRootsTables : LSFReader :=
  { LSFReader.new with
    metadata := some (decodeMetadata [])
    names := [[lit "Root"]]
    nodes := [⟨-1, 0, 0, -1, []⟩, ⟨-1, 0, 0, -1, lit "second"⟩] }

/-- The outcome of a decoding step over the value blob `data` that met no negative length:
it returned, still reading `data`, or the fuel of the model ran out. -/
def MetNoNegativeLength {α : Type} (data : List Byte) (res : Except Fault (α × Reader)) :
    Prop :=
  match res with
  | .ok (_, r2) => r2.data = data
  | .error e => e = .outOfFuel

/-- The string has no trailing NUL byte. -/
def noTrailingNul (s : GoString) : Prop := s.getLast? ≠ some 0

mutual
/-- The serialization of a translated FS string as the specification describes it: uint16
version, int32 handle length (string length + 1), the handle and a terminator, int32 argument
count, then the arguments in order. -/
def serializeFS : TranslatedFSString → List Byte
  | .mk version handle _ args =>
    leBytes 2 version ++ leBytes 4 (handle.length + 1) ++ handle ++ [0] ++
      leBytes 4 args.length ++ serializeArgs args
/-- The arguments one after the other. -/
def serializeArgs : List TranslatedFSStringArgument → List Byte
  | [] => []
  | arg :: rest => serializeArg arg ++ serializeArgs rest
/-- One argument: int32 key length, key and terminator, the nested string, int32 value
length, value and terminator. -/
def serializeArg : TranslatedFSStringArgument → List Byte
  | .mk key value str =>
    leBytes 4 (key.length + 1) ++ key ++ [0] ++ serializeFS str ++
      leBytes 4 (value.length + 1) ++ value ++ [0]
end

mutual
/-- A translated FS string the serialization can hold and the claim speaks of: the version
fits a uint16, the lengths and the argument count fit an int32, the `Value` field is empty,
and no handle, key or value ends in a NUL byte, at every nesting level. -/
def FSWellFormed : TranslatedFSString → Prop
  | .mk version handle value args =>
    version < 2 ^ 16 ∧ value = [] ∧ noTrailingNul handle ∧ handle.length + 1 < 2 ^ 31 ∧
      args.length < 2 ^ 31 ∧ ArgsWellFormed args
def ArgsWellFormed : List TranslatedFSStringArgument → Prop
  | [] => True
  | arg :: rest => ArgWellFormed arg ∧ ArgsWellFormed rest
def ArgWellFormed : TranslatedFSStringArgument → Prop
  | .mk key value str =>
    noTrailingNul key ∧ key.length + 1 < 2 ^ 31 ∧ noTrailingNul value ∧
      value.length + 1 < 2 ^ 31 ∧ FSWellFormed str
end

mutual
/-- The nesting depth of a translated FS string: 1 without arguments. -/
def fsDepth : TranslatedFSString → Nat
  | .mk _ _ _ args => 1 + argsDepth args
def argsDepth : List TranslatedFSStringArgument → Nat
  | [] => 0
  | arg :: rest => max (argDepth arg) (argsDepth rest)
def argDepth : TranslatedFSStringArgument → Nat
  | .mk _ _ str => fsDepth str
end

/-- A translated FS string with one argument, whose nested string has none. -/
def nestedFS : TranslatedFSString :=
  .mk 1 (lit "h") [] [.mk (lit "k") (lit "v") (.mk 2 (lit "n") [] [])]

/-- The node `n2` is the node `n1` stored differently, down to `d` levels: the entries of the
attribute map and of the child-group map are the same in another iteration order, and the
members of every child group are, in another stored order, nodes that are in turn the same
stored differently. -/
def Reordered : Nat → Node → Node → Prop
  | 0, _, _ => False
  | d + 1, n1, n2 =>
    n1.Name = n2.Name ∧ n1.KeyAttribute = n2.KeyAttribute ∧
    (GoMap.keys n1.Attributes).Nodup ∧ n1.Attributes.Perm n2.Attributes ∧
    (GoMap.keys n1.Children).Perm (GoMap.keys n2.Children) ∧
    ∀ name, ∃ l, l.Perm ((GoMap.get n1.Children name).getD []) ∧
      List.Forall₂ (Reordered d) l ((GoMap.get n2.Children name).getD [])

/-- A node with two attributes and a group of two same-named children. -/
def familyStoredOneWay : Node :=
  .mk (lit "N") (lit "k") [(lit "b", ⟨AttrByte, .uint8 2⟩), (lit "a", ⟨AttrByte, .uint8 1⟩)]
    [(lit "Object",
      [.mk (lit "Object") [] [(lit "v", ⟨AttrByte, .uint8 2⟩)] [],
       .mk (lit "Object") [] [(lit "v", ⟨AttrByte, .uint8 1⟩)] []])]

/-- The same node with its attribute map and its group of children stored in the other
order. -/
def familyStoredOtherWay : Node :=
  .mk (lit "N") (lit "k") [(lit "a", ⟨AttrByte, .uint8 1⟩), (lit "b", ⟨AttrByte, .uint8 2⟩)]
    [(lit "Object",
      [.mk (lit "Object") [] [(lit "v", ⟨AttrByte, .uint8 1⟩)] [],
       .mk (lit "Object") [] [(lit "v", ⟨AttrByte, .uint8 2⟩)] []])]

/-- The two-record scenario with a first-attribute index on "Root" that the (empty) attribute
table does not hold: parents precede their children and every name reference is valid. -/
def unreadableAttributeTables : LSFReader :=
  { LSFReader.new with
    metadata := some (decodeMetadata [])
    names := [[lit "Root", lit "Child"]]
    nodes := [⟨-1, 0, 0, 0, []⟩, ⟨0, 0, 1, -1, []⟩] }

/-- The value of the attribute `id` of a start element (empty when it has none). -/
def idOf (attrs : List (GoString × GoString)) : GoString :=
  (GoMap.get attrs (lit "id")).getD []

/-- The start elements of a token sequence that sit at nesting depth `want`, each as its
element name and the value of its `id`, in the order of the sequence; `depth` is the depth at
which the sequence starts. -/
def elementsAt (want : Nat) : Nat → List Token → List (GoString × GoString)
  | _, [] => []
  | depth, .StartElement name attrs :: rest =>
    (if depth = want then [(name, idOf attrs)] else []) ++ elementsAt want (depth + 1) rest
  | depth, .EndElement _ :: rest => elementsAt want (depth - 1) rest

/-- The ids of the elements called `name` at nesting depth `want` of a token sequence, in the
order in which they are written. -/
def idsAt (want : Nat) (name : GoString) (ts : List Token) : List GoString :=
  ((elementsAt want 0 ts).filter (fun e => decide (e.1 = name))).map Prod.snd

/-- Well-nested token sequences (every start element is closed by an end element of the same
name) in which every element name satisfies `p`. -/
inductive Nested (p : GoString → Prop) : List Token → Prop
  | nil : Nested p []
  | element (name : GoString) (attrs : List (GoString × GoString)) (inner rest : List Token) :
      p name → Nested p inner → Nested p rest →
      Nested p (Token.StartElement name attrs :: (inner ++ Token.EndElement name :: rest))

/-! ## Theorems -/

theorem readFull_ok (r : Reader) (n : Nat) (hn : 0 < n) (h : r.pos + n ≤ r.data.length) :
    readFull r n = (.ok ((r.data.drop r.pos).take n), ⟨r.data, r.pos + n⟩) := by
  have hlen : ((r.data.drop r.pos).take n).length = n := by
    simp [List.length_take, List.length_drop]; omega
  unfold readFull
  have h1 : ¬ n = 0 := by omega
  have h2 : ¬ r.data.length ≤ r.pos := by omega
  simp only [h1, h2, if_false, hlen, lt_irrefl]

theorem le_LSFMagicSignature : le LSFMagicSignature = 0x464F534C := by decide

theorem readMagic_eq (data : List Byte) (h : 8 ≤ data.length) :
    (readMagic ⟨data, 0⟩).1 =
      if le (data.take 4) ≠ 0x464F534C then
        .error (.invalidSignature 0x464F534C (le (data.take 4)))
      else if le ((data.drop 4).take 4) < 5 ∨ le ((data.drop 4).take 4) > 7 then
        .error (.unsupportedVersion (le ((data.drop 4).take 4)))
      else .ok ⟨le (data.take 4), le ((data.drop 4).take 4)⟩ := by
  unfold readMagic
  rw [readFull_ok _ _ (by decide) (by simpa using h)]
  simp only [List.drop_zero, le_LSFMagicSignature, LSFVersionMinBG3, LSFVersionMaxBG3]
  have e1 : (data.take 8).take 4 = data.take 4 := by simp [List.take_take]
  have e2 : (data.take 8).drop 4 = (data.drop 4).take 4 := by
    rw [List.drop_take]
  rw [e1, e2]
  split_ifs <;> rfl

/-- C1: on an input of at least 8 bytes `readMagic` succeeds exactly when the first four
bytes, read little-endian, are the signature "LSOF" (0x464F534C) and the next four, read
little-endian, are a version from 5 to 7; the version returned is that value; and a valid
signature followed by version 3 makes `readMagic` and `Read` fail with the unsupported-version
error, so that no Resource is produced. -/
theorem readMagic_accepts_iff (c : Codecs) (fuel : Nat) (data : List Byte)
    (h : 8 ≤ data.length) :
    ((∃ m, (readMagic ⟨data, 0⟩).1 = .ok m) ↔
      (le (data.take 4) = le LSFMagicSignature ∧ 5 ≤ le ((data.drop 4).take 4) ∧
        le ((data.drop 4).take 4) ≤ 7)) ∧
    (∀ m, (readMagic ⟨data, 0⟩).1 = .ok m → m.Version = le ((data.drop 4).take 4)) ∧
    le LSFMagicSignature = 0x464F534C ∧
    (le (data.take 4) = le LSFMagicSignature → le ((data.drop 4).take 4) = 3 →
      (readMagic ⟨data, 0⟩).1 = .error (.unsupportedVersion 3) ∧
      Read c fuel ⟨data, 0⟩ = .error (.unsupportedVersion 3)) := by
  have hm := readMagic_eq data h
  rw [le_LSFMagicSignature]
  refine ⟨?_, ?_, rfl, ?_⟩
  · rw [hm]
    constructor
    · rintro ⟨m, hm⟩
      split_ifs at hm with h1 h2
      push_neg at h1 h2
      exact ⟨h1, by omega, by omega⟩
    · rintro ⟨h1, h2, h3⟩
      refine ⟨⟨le (data.take 4), le ((data.drop 4).take 4)⟩, ?_⟩
      rw [if_neg (by simpa using h1), if_neg (by omega)]
  · intro m hm2
    rw [hm] at hm2
    split_ifs at hm2
    cases hm2
    rfl
  · intro h1 h2
    have hr : (readMagic ⟨data, 0⟩).1 = .error (.unsupportedVersion 3) := by
      rw [hm, if_neg (by simpa using h1), if_pos (by omega), h2]
    refine ⟨hr, ?_⟩
    unfold Read
    generalize readMagic ⟨data, 0⟩ = res at hr
    obtain ⟨a, b⟩ := res
    simp only at hr
    subst hr
    rfl

theorem readMagic_accepts_iff_witness :
    8 ≤ (LSFMagicSignature ++ [3, 0, 0, 0]).length ∧
    (readMagic ⟨LSFMagicSignature ++ [3, 0, 0, 0], 0⟩).1 = .error (.unsupportedVersion 3) :=
  ⟨by decide,
   ((readMagic_accepts_iff ⟨fun _ => .error .eof, fun _ => ([], .eof), fun _ _ => .error .eof,
      fun _ => .error .eof⟩ 0 (LSFMagicSignature ++ [3, 0, 0, 0]) (by decide)).2.2.2
      (by decide) (by decide)).1⟩

theorem Read_ok (r : Reader) (n : Nat) (h : r.pos < r.data.length)
    (h2 : r.pos + n ≤ r.data.length) :
    r.Read n = (((r.data.drop r.pos).take n, none), ⟨r.data, r.pos + n⟩) := by
  have hlen : ((r.data.drop r.pos).take n).length = n := by
    simp [List.length_take, List.length_drop]; omega
  unfold Reader.Read
  rw [if_neg (by omega)]
  simp only [hlen, Nat.sub_self, List.replicate_zero, List.append_nil]

theorem trimNulls_append (l m : List Byte) (k : Nat) (hk : k ≤ l.length) :
    trimNulls (l ++ m) k = trimNulls l k := by
  induction k with
  | zero => rfl
  | succ k ih =>
    have hk2 : k < l.length := by omega
    simp only [trimNulls, List.getElem?_append_left hk2, ih (by omega)]

theorem take_trimNulls (l : List Byte) :
    l.take (trimNulls l l.length) = l.rdropWhile (fun b => b == 0) := by
  induction l using List.reverseRecOn with
  | nil => rfl
  | append_singleton l x ih =>
    rw [List.rdropWhile_concat]
    have hlen : (l ++ [x]).length = l.length + 1 := by simp
    rw [hlen]
    simp only [trimNulls]
    have hx : (l ++ [x])[l.length]? = some x := by simp
    rw [hx]
    by_cases hx0 : x = 0
    · subst hx0
      simp only [if_true, trimNulls_append l [0] l.length (le_refl _)]
      have hle : ∀ (l : List Byte) k, trimNulls l k ≤ k := by
        intro l k
        induction k with
        | zero => simp [trimNulls]
        | succ k ih => simp only [trimNulls]; split_ifs <;> omega
      rw [List.take_append_of_le_length (hle l l.length), ih]
      simp
    · have : ¬ (some x = some (0 : Byte)) := by simpa using hx0
      rw [if_neg this]
      have : ¬ ((x == 0) = true) := by simpa using hx0
      rw [if_neg this, ← hlen, List.take_length]

/-- C4: for a declared length `N ≥ 1` and a cursor with at least `N` bytes left, `readString`
returns the first `N - 1` bytes with all trailing NUL bytes removed, leaves the cursor `N`
bytes further, and returns the same string whatever byte stands at the `N`-th position; for
length 0 it returns the empty string and does not move the cursor. -/
theorem readString_spec (data : List Byte) (pos N : Nat) (hN : 1 ≤ N)
    (hrem : pos + N ≤ data.length) :
    readString ⟨data, pos⟩ (N : Int) =
      .ok (((data.drop pos).take (N - 1)).rdropWhile (fun b => b == 0), ⟨data, pos + N⟩) ∧
    (∀ b : Byte, (readString ⟨data.set (pos + N - 1) b, pos⟩ (N : Int)).map Prod.fst =
      .ok (((data.drop pos).take (N - 1)).rdropWhile (fun b => b == 0))) ∧
    (∀ reader : Reader, readString reader 0 = .ok ([], reader)) := by
  have key : ∀ data : List Byte, pos + N ≤ data.length →
      readString ⟨data, pos⟩ (N : Int) =
        .ok (((data.drop pos).take (N - 1)).rdropWhile (fun b => b == 0), ⟨data, pos + N⟩) := by
    intro data hrem
    unfold readString
    have h0 : ¬ ((N : Int) = 0) := by omega
    have h1 : ¬ ((N : Int) - 1 < 0) := by omega
    have h2 : ((N : Int) - 1).toNat = N - 1 := by omega
    rw [if_neg h0, if_neg h1, h2]
    rw [Read_ok ⟨data, pos⟩ (N - 1) (by simp; omega) (by simp; omega)]
    simp only
    rw [Read_ok ⟨data, pos + (N - 1)⟩ 1 (by simp; omega) (by simp; omega)]
    simp only [take_trimNulls]
    have : pos + (N - 1) + 1 = pos + N := by omega
    rw [this]
  refine ⟨key data hrem, ?_, ?_⟩
  · intro b
    rw [key _ (by simpa using hrem)]
    simp only [Except.map]
    congr 2
    rw [List.drop_set, if_neg (by omega), List.set_take, List.set_eq_of_length_le]
    simp [List.length_take]; omega
  · intro reader
    simp [readString]

theorem readString_spec_witness :
    readString ⟨[65, 66, 0, 0, 7, 9], 0⟩ ((5 : Nat) : Int) = .ok ([65, 66], ⟨[65, 66, 0, 0, 7, 9], 5⟩) :=
  (readString_spec [65, 66, 0, 0, 7, 9] 0 5 (by decide) (by decide)).1

/-- C9, amended: the identifier with raw bytes 00 11 22 33 44 55 66 77 88 99 AA BB CC DD EE FF
is rendered by `attributeValueToString` (byte swap applied) as
"33221100-5544-7766-9988-bbaaddccffee": the swap exchanges the two bytes of every pair among
bytes 8 to 15, and bytes 8 and 9 are then printed in that swapped order. -/
theorem guid_rendering (lib : Lib) :
    attributeValueToString lib ⟨AttrUUID, .bytes
      [0x00, 0x11, 0x22, 0x33, 0x44, 0x55, 0x66, 0x77, 0x88, 0x99, 0xAA, 0xBB, 0xCC, 0xDD, 0xEE, 0xFF]⟩
      = lit "33221100-5544-7766-9988-bbaaddccffee" := by
  rfl

/-- C9, counterexample: the rendering of that identifier is not the string
"33221100-5544-7766-9988-aabbccddeeff" of the claim. -/
theorem guid_rendering_not_as_claimed :
    attributeValueToString refLib ⟨AttrUUID, .bytes
      [0x00, 0x11, 0x22, 0x33, 0x44, 0x55, 0x66, 0x77, 0x88, 0x99, 0xAA, 0xBB, 0xCC, 0xDD, 0xEE, 0xFF]⟩
      ≠ lit "33221100-5544-7766-9988-aabbccddeeff" := by
  decide

theorem readAttributeValue_default (t : Nat) (ht : t = AttrNone ∨ t = AttrLong ∨ 34 ≤ t)
    (reader : Reader) : readAttributeValue t reader = (.nil, reader) := by
  unfold readAttributeValue
  simp only [AttrNone, AttrLong, AttrByte, AttrShort, AttrUShort, AttrInt, AttrUInt, AttrFloat,
    AttrDouble, AttrBool, AttrULongLong, AttrInt64, AttrInt8, AttrIVec2, AttrIVec3, AttrIVec4,
    AttrVec2, AttrVec3, AttrVec4, AttrMat2, AttrMat3, AttrMat3x4, AttrMat4x3, AttrMat4,
    AttrUUID] at ht ⊢
  repeat (first | rw [if_neg (by omega)] | rfl)

theorem readAttribute_default (depth t : Nat) (ht : t = AttrNone ∨ t = AttrLong ∨ 34 ≤ t)
    (reader : Reader) (length : Nat) :
    readAttribute depth t reader length = .ok (⟨t, .nil⟩, reader) := by
  unfold readAttribute
  rw [readAttributeValue_default t ht]
  simp only [AttrNone, AttrLong, AttrString, AttrPath, AttrFixedString, AttrLSString,
    AttrWString, AttrLSWString, AttrTranslatedString, AttrTranslatedFSString,
    AttrScratchBuffer] at ht ⊢
  rw [if_neg (by omega), if_neg (by omega), if_neg (by omega), if_neg (by omega)]

/-- C10, amended: for a type tag without decode case (0, 26 or at least 34)
`readAttributeValue` returns nil and leaves the reader where it was, `readAttribute` reports
no error and yields an attribute with that tag and a nil value, and the attribute loop of
`buildResource` assigns this attribute to the node's map under the resolved name and goes on
with the next entry. -/
theorem unsupported_tag_yields_nil (r : LSFReader) (valueReader : Reader) (depth fuel : Nat)
    (idx : Int) (a : LSFAttributeInfo) (name : GoString) (attrs : GoMap NodeAttribute)
    (ht : a.TypeId = AttrNone ∨ a.TypeId = AttrLong ∨ 34 ≤ a.TypeId)
    (hidx : idx ≠ -1) (ha : indexInt r.attributes idx = some a)
    (hname : lookupName r.names a.NameIndex a.NameOffset = .ok name) :
    (∀ reader, readAttributeValue a.TypeId reader = (.nil, reader)) ∧
    (∀ reader, readAttribute depth a.TypeId reader a.Length = .ok (⟨a.TypeId, .nil⟩, reader)) ∧
    readNodeAttributes r valueReader depth (fuel + 1) idx attrs =
      readNodeAttributes r valueReader depth fuel a.NextAttributeIndex
        (GoMap.set attrs name ⟨a.TypeId, .nil⟩) := by
  refine ⟨readAttributeValue_default _ ht, fun reader => readAttribute_default _ _ ht _ _, ?_⟩
  rw [readNodeAttributes, if_neg hidx, ha]
  simp only [hname, readAttribute_default _ _ ht]

theorem unsupported_tag_yields_nil_witness :
    readNodeAttributes untypedAttrTables ⟨[], 0⟩ 1 1 0 [] = .ok [(lit "a", ⟨AttrNone, .nil⟩)] :=
  (unsupported_tag_yields_nil untypedAttrTables ⟨[], 0⟩ 1 0 0 ⟨0, 1, AttrNone, 0, 0, -1⟩ (lit "a") []
    (Or.inl rfl) (by decide) rfl rfl).2.2

/-- C10, counterexample: for a region whose only attribute "a" has type tag 0,
`buildResource` succeeds and the node's attribute map holds "a" with a nil value: no
"unsupported attribute type" error is raised. -/
theorem unsupported_tag_is_stored_not_rejected :
    (buildResource 1 untypedAttrTables).map
        (fun res => res.nodeInstances.map (Option.map (fun n => n.Attributes))) =
      .ok [some [(lit "a", ⟨AttrNone, .nil⟩)]] := by
  rfl

/-- C6, the code at the failing input: two siblings named "Object" whose attribute `x` is
the `uint8` 1 in one and the `int32` 1 in the other are different nodes, yet
`nodeHashString` returns the same string ("x:1|") for both. -/
theorem nodeHashString_collision :
    objectWithByte.Name = objectWithInt.Name ∧ objectWithByte ≠ objectWithInt ∧
    ∀ lib : Lib, nodeHashString lib objectWithByte = nodeHashString lib objectWithInt := by
  refine ⟨rfl, ?_, fun lib => ?_⟩
  · intro h
    simp [objectWithByte, objectWithInt, AttrByte, AttrInt] at h
  · rfl

/-- C5, the code at the failing input: the two resources differ only in the stored order of
the two same-named siblings of region "Root", and `WriteLSXToWriter` (with `sort.Slice` as Go
runs it on short slices) emits different token sequences for them. -/
theorem output_depends_on_sibling_order :
    WriteLSXToWriter refLib 2 resourceByteFirst ≠ WriteLSXToWriter refLib 2 resourceIntFirst :=
  fun h => absurd (congrArg Except.toOption h) (by decide)

theorem strLess_irrefl (a : GoString) : strLess a a = false := by
  induction a with
  | nil => rfl
  | cons x s ih => simp [strLess, ih]

theorem strLess_trans (a b c : GoString) (h1 : strLess a b = true) (h2 : strLess b c = true) :
    strLess a c = true := by
  induction a generalizing b c with
  | nil =>
    cases b with
    | nil => simp [strLess] at h1
    | cons y t =>
      cases c with
      | nil => simp [strLess] at h2
      | cons z u => rfl
  | cons x s ih =>
    cases b with
    | nil => simp [strLess] at h1
    | cons y t =>
      cases c with
      | nil => simp [strLess] at h2
      | cons z u =>
        simp only [strLess, Fin.lt_def] at h1 h2 ⊢
        split_ifs at h1 h2 ⊢ <;>
          first
            | rfl
            | exact ih _ _ h1 h2
            | (exfalso; omega)

theorem strLess_total (a b : GoString) (h1 : strLess a b = false) (h2 : strLess b a = false) :
    a = b := by
  induction a generalizing b with
  | nil =>
    cases b with
    | nil => rfl
    | cons y t => simp [strLess] at h1
  | cons x s ih =>
    cases b with
    | nil => simp [strLess] at h2
    | cons y t =>
      simp only [strLess, Fin.lt_def] at h1 h2
      split_ifs at h1 h2
      have : x = y := Fin.ext (by omega)
      rw [this, ih t h1 h2]

theorem strLess_asymm (a b : GoString) (h : strLess a b = true) : strLess b a = false := by
  by_contra h2
  have h3 := strLess_trans a b a h (by simpa using h2)
  rw [strLess_irrefl] at h3
  exact absurd h3 (by decide)

theorem strLess_false_trans (a b c : GoString) (h1 : strLess a b = false)
    (h2 : strLess b c = false) : strLess a c = false := by
  by_contra h3
  have h3 : strLess a c = true := by simpa using h3
  by_cases hcb : strLess c b = true
  · rw [strLess_trans a c b h3 hcb] at h1
    exact absurd h1 (by decide)
  · have hcb : strLess c b = false := by simpa using hcb
    have : b = c := strLess_total b c h2 hcb
    subst this
    rw [h3] at h1
    exact absurd h1 (by decide)

theorem insertString_perm (s : GoString) (l : List GoString) :
    (insertString s l).Perm (s :: l) := by
  induction l with
  | nil => exact List.Perm.refl _
  | cons t rest ih =>
    simp only [insertString]
    split_ifs
    · exact List.Perm.refl _
    · exact (List.Perm.cons t ih).trans (List.Perm.swap s t rest)

theorem sortStrings_perm (l : List GoString) : (sortStrings l).Perm l := by
  induction l with
  | nil => exact List.Perm.refl _
  | cons s rest ih =>
    exact (insertString_perm s (sortStrings rest)).trans (List.Perm.cons s ih)

theorem insertString_sorted (s : GoString) (l : List GoString)
    (h : l.Pairwise (fun a b => strLess b a = false)) :
    (insertString s l).Pairwise (fun a b => strLess b a = false) := by
  induction l with
  | nil => simp [insertString]
  | cons t rest ih =>
    simp only [insertString]
    rw [List.pairwise_cons] at h
    split_ifs with hst
    · rw [List.pairwise_cons]
      refine ⟨?_, List.pairwise_cons.2 h⟩
      intro b hb
      rcases List.mem_cons.1 hb with rfl | hb
      · exact strLess_asymm _ _ hst
      · exact strLess_false_trans _ _ _ (h.1 b hb) (strLess_asymm _ _ hst)
    · rw [List.pairwise_cons]
      refine ⟨?_, ih h.2⟩
      intro b hb
      rcases List.mem_cons.1 ((insertString_perm s rest).subset hb) with rfl | hb
      · simpa using hst
      · exact h.1 b hb

theorem sortStrings_sorted (l : List GoString) :
    (sortStrings l).Pairwise (fun a b => strLess b a = false) := by
  induction l with
  | nil => simp [sortStrings]
  | cons s rest ih => exact insertString_sorted s _ ih

theorem sorted_perm_unique (l1 l2 : List GoString) (hp : l1.Perm l2)
    (h1 : l1.Pairwise (fun a b => strLess b a = false))
    (h2 : l2.Pairwise (fun a b => strLess b a = false)) : l1 = l2 := by
  induction l1 generalizing l2 with
  | nil => exact (List.Perm.nil_eq hp)
  | cons a l1 ih =>
    cases l2 with
    | nil => exact absurd hp.length_eq (by simp)
    | cons b l2 =>
      rw [List.pairwise_cons] at h1 h2
      have hab : a = b := by
        have ha : a ∈ b :: l2 := hp.subset (List.mem_cons_self _ _)
        have hb : b ∈ a :: l1 := hp.symm.subset (List.mem_cons_self _ _)
        rcases List.mem_cons.1 ha with h | ha
        · exact h
        · rcases List.mem_cons.1 hb with h | hb
          · exact h.symm
          · exact strLess_total a b (h2.1 a ha) (h1.1 b hb)
      subst hab
      rw [ih l2 (List.Perm.cons_inv hp) h1.2 h2.2]

theorem sortStrings_of_perm (l1 l2 : List GoString) (hp : l1.Perm l2) :
    sortStrings l1 = sortStrings l2 :=
  sorted_perm_unique _ _ (((sortStrings_perm l1).trans hp).trans (sortStrings_perm l2).symm)
    (sortStrings_sorted l1) (sortStrings_sorted l2)

theorem sortStrings_strict (l : List GoString) (hnd : l.Nodup) :
    (sortStrings l).Pairwise (fun a b => strLess a b = true) := by
  have hnd2 : (sortStrings l).Nodup := (sortStrings_perm l).nodup_iff.2 hnd
  have hs := sortStrings_sorted l
  have := hs.and hnd2
  refine this.imp ?_
  intro a b hab
  by_contra hlt
  exact hab.2 (strLess_total a b (by simpa using hlt) hab.1)

theorem GoMap.get_of_perm {V : Type} (m m2 : GoMap V) (hp : m.Perm m2)
    (hnd : (GoMap.keys m).Nodup) (k : GoString) : GoMap.get m k = GoMap.get m2 k := by
  induction hp with
  | nil => rfl
  | cons x _ ih =>
    obtain ⟨k1, v⟩ := x
    simp only [GoMap.get]
    split_ifs
    · rfl
    · exact ih (List.nodup_cons.1 hnd).2
  | swap x y l =>
    obtain ⟨k1, v1⟩ := x
    obtain ⟨k2, v2⟩ := y
    simp only [GoMap.get]
    simp only [GoMap.keys, List.map_cons, List.nodup_cons, List.mem_cons, not_or] at hnd
    split_ifs with h1 h2 h2
    · exact absurd (h1.trans h2.symm) hnd.1.1
    · rfl
    · rfl
    · rfl
  | trans h1 _ ih1 ih2 =>
    exact (ih1 hnd).trans (ih2 ((h1.map Prod.fst).nodup_iff.1 hnd))

theorem keys_perm {V : Type} (m m2 : GoMap V) (hp : m.Perm m2) :
    (GoMap.keys m).Perm (GoMap.keys m2) := hp.map Prod.fst

/-- For maps that hold each key once, the region names `writeRegions` walks, and the
attribute names and child-group names `writeNode` walks, are strictly ascending in byte-wise
order and are exactly the keys of the map (each once); the output is the concatenation of
the per-name outputs in that order; and storing the entries of the region map, the attribute
map or the child-group map in another order does not change the output. -/
theorem writer_walks_sorted_names (lib : Lib) (fuel : Nat) (resource : Resource) (node : Node)
    (hr : (GoMap.keys resource.Regions).Nodup) (ha : (GoMap.keys node.Attributes).Nodup)
    (hc : (GoMap.keys node.Children).Nodup) :
    ((sortStrings (GoMap.keys resource.Regions)).Pairwise (fun a b => strLess a b = true) ∧
      (sortStrings (GoMap.keys resource.Regions)).Perm (GoMap.keys resource.Regions)) ∧
    ((sortStrings (GoMap.keys node.Attributes)).Pairwise (fun a b => strLess a b = true) ∧
      (sortStrings (GoMap.keys node.Attributes)).Perm (GoMap.keys node.Attributes)) ∧
    ((sortStrings (GoMap.keys node.Children)).Pairwise (fun a b => strLess a b = true) ∧
      (sortStrings (GoMap.keys node.Children)).Perm (GoMap.keys node.Children)) ∧
    writeRegions lib fuel resource =
      collect (fun regionName =>
        match GoMap.get resource.Regions regionName with
        | none => .error .nilDereference
        | some region =>
          (writeNode lib fuel region.Node).map (fun ts =>
            [Token.StartElement (lit "region") [(lit "id", regionName)]] ++ ts ++
              [Token.EndElement (lit "region")]))
        (sortStrings (GoMap.keys resource.Regions)) ∧
    writeNode lib (fuel + 1) node =
      (collect (fun attrName =>
          match GoMap.get node.Attributes attrName with
          | some attr => writeAttribute lib attrName attr
          | none => .error .nilDereference)
        (sortStrings (GoMap.keys node.Attributes))).bind (fun attrTokens =>
      (if node.Children.length > 0 then
        (collect (fun childName =>
            collect (writeNode lib fuel)
              (sortChildren lib ((GoMap.get node.Children childName).getD [])))
          (sortStrings (GoMap.keys node.Children))).map (fun childTokens =>
            [Token.StartElement (lit "children") []] ++ childTokens ++
              [Token.EndElement (lit "children")])
       else .ok []).map (fun childrenTokens =>
        [Token.StartElement (lit "node")
          ([(lit "id", node.Name)] ++
            (if node.KeyAttribute ≠ [] then [(lit "key", node.KeyAttribute)] else []))] ++
          attrTokens ++ childrenTokens ++ [Token.EndElement (lit "node")])) ∧
    (∀ regions2 : GoMap Region, regions2.Perm resource.Regions →
      writeRegions lib fuel ⟨resource.Metadata, regions2⟩ = writeRegions lib fuel resource) ∧
    (∀ (attrs2 : GoMap NodeAttribute) (children2 : List (GoString × List Node)),
      attrs2.Perm node.Attributes → children2.Perm node.Children →
      writeNode lib (fuel + 1) (.mk node.Name node.KeyAttribute attrs2 children2) =
        writeNode lib (fuel + 1) node) := by
  refine ⟨⟨sortStrings_strict _ hr, sortStrings_perm _⟩, ⟨sortStrings_strict _ ha,
    sortStrings_perm _⟩, ⟨sortStrings_strict _ hc, sortStrings_perm _⟩, ?_, ?_, ?_, ?_⟩
  · unfold writeRegions
    simp only
    congr 1
    funext regionName
    cases GoMap.get resource.Regions regionName with
    | none => rfl
    | some region =>
      simp only
      cases writeNode lib fuel region.Node <;> rfl
  · rw [writeNode]
    simp only
    cases collect _ (sortStrings (GoMap.keys node.Attributes)) with
    | error e => rfl
    | ok attrTokens =>
      by_cases h : node.Children.length > 0
      · simp only [h, if_true]
        cases collect _ (sortStrings (GoMap.keys node.Children)) with
        | error e => rfl
        | ok childTokens =>
          show Except.ok _ = Except.ok _
          simp
      · simp only [h, if_false]
        show Except.ok _ = Except.ok _
        simp
  · intro regions2 hp
    unfold writeRegions
    simp only
    rw [sortStrings_of_perm _ _ (keys_perm _ _ hp)]
    congr 1
    funext regionName
    rw [GoMap.get_of_perm _ _ hp.symm hr]
  · intro attrs2 children2 hpa hpc
    obtain ⟨name, key, attrs, children⟩ := node
    simp only [Node.Name, Node.KeyAttribute, Node.Attributes, Node.Children] at *
    simp only [writeNode, Node.Name, Node.KeyAttribute, Node.Attributes, Node.Children]
    rw [sortStrings_of_perm _ _ (keys_perm _ _ hpa), sortStrings_of_perm _ _ (keys_perm _ _ hpc),
      hpc.length_eq]
    have e1 : ∀ k, GoMap.get attrs2 k = GoMap.get attrs k :=
      fun k => (GoMap.get_of_perm _ _ hpa.symm ha k).symm
    have e2 : ∀ k, GoMap.get children2 k = GoMap.get children k :=
      fun k => (GoMap.get_of_perm _ _ hpc.symm hc k).symm
    simp only [e1, e2]

theorem insertBack_perm {α : Type} (less : α → α → Bool) (x : α) (l : List α) :
    (insertBack less x l).Perm (x :: l) := by
  induction l with
  | nil => exact List.Perm.refl _
  | cons y rest ih =>
    simp only [insertBack]
    split_ifs
    · exact (List.Perm.cons y ih).trans (List.Perm.swap x y rest)
    · exact List.Perm.refl _

theorem insertBack_sorted {α : Type} (less : α → α → Bool)
    (hirr : ∀ a, less a a = false)
    (htr : ∀ a b c, less a b = true → less b c = true → less a c = true)
    (hneg : ∀ a b c, less a b = false → less b c = false → less a c = false)
    (x : α) (l : List α) (h : l.Pairwise (fun a b => less a b = false)) :
    (insertBack less x l).Pairwise (fun a b => less a b = false) := by
  induction l with
  | nil => simp [insertBack]
  | cons y rest ih =>
    simp only [insertBack]
    rw [List.pairwise_cons] at h
    split_ifs with hxy
    · rw [List.pairwise_cons]
      refine ⟨?_, ih h.2⟩
      intro b hb
      rcases List.mem_cons.1 ((insertBack_perm less x rest).subset hb) with rfl | hb
      · by_contra hyx
        have := htr _ _ _ hxy (by simpa using hyx)
        rw [hirr] at this
        exact absurd this (by decide)
      · exact h.1 b hb
    · rw [List.pairwise_cons]
      refine ⟨?_, List.pairwise_cons.2 h⟩
      intro b hb
      rcases List.mem_cons.1 hb with rfl | hb
      · simpa using hxy
      · exact hneg _ _ _ (by simpa using hxy) (h.1 b hb)

theorem foldl_insertBack {α : Type} (less : α → α → Bool) (xs acc : List α) :
    (xs.foldl (fun sortedRev x => insertBack less x sortedRev) acc).Perm (xs ++ acc) ∧
    ((∀ a, less a a = false) →
      (∀ a b c, less a b = true → less b c = true → less a c = true) →
      (∀ a b c, less a b = false → less b c = false → less a c = false) →
      acc.Pairwise (fun a b => less a b = false) →
      (xs.foldl (fun sortedRev x => insertBack less x sortedRev) acc).Pairwise
        (fun a b => less a b = false)) := by
  induction xs generalizing acc with
  | nil => exact ⟨List.Perm.refl _, fun _ _ _ h => h⟩
  | cons x xs ih =>
    simp only [List.foldl_cons]
    refine ⟨?_, ?_⟩
    · refine (ih (insertBack less x acc)).1.trans ?_
      refine (List.Perm.append_left xs (insertBack_perm less x acc)).trans ?_
      exact (List.perm_middle).trans (List.Perm.refl _)
    · intro h1 h2 h3 hacc
      exact (ih (insertBack less x acc)).2 h1 h2 h3 (insertBack_sorted less h1 h2 h3 x acc hacc)

theorem insertionSortLessFunc_spec :
    SortSliceSpec (fun _ less xs => insertionSortLessFunc less xs) := by
  intro α less xs
  unfold insertionSortLessFunc
  refine ⟨?_, ?_⟩
  · refine (List.reverse_perm _).trans ?_
    simpa using (foldl_insertBack less xs []).1
  · intro h1 h2 h3
    rw [List.pairwise_reverse]
    exact (foldl_insertBack less xs []).2 h1 h2 h3 List.Pairwise.nil

theorem collect_append {α : Type} (f : α → Except Fault (List Token)) (l1 l2 : List α) :
    collect f (l1 ++ l2) =
      match collect f l1 with
      | .error e => .error e
      | .ok ts =>
        match collect f l2 with
        | .error e => .error e
        | .ok us => .ok (ts ++ us) := by
  induction l1 with
  | nil =>
    simp only [List.nil_append, collect]
    cases collect f l2 <;> rfl
  | cons a l1 ih =>
    rw [List.cons_append]
    simp only [collect]
    rw [ih]
    cases f a with
    | error e => rfl
    | ok ts =>
      cases collect f l1 with
      | error e => rfl
      | ok us =>
        cases collect f l2 with
        | error e => rfl
        | ok vs => simp

theorem collect_mem {α : Type} (f : α → Except Fault (List Token)) (l : List α) (a : α)
    (ha : a ∈ l) (tokens : List Token) (h : collect f l = .ok tokens) :
    ∃ pre ts post, f a = .ok ts ∧ tokens = pre ++ ts ++ post := by
  obtain ⟨l1, l2, rfl⟩ := List.append_of_mem ha
  rw [collect_append] at h
  cases h1 : collect f l1 with
  | error e => rw [h1] at h; cases h
  | ok pre =>
    rw [h1] at h
    simp only [collect] at h
    cases h2 : f a with
    | error e => rw [h2] at h; cases h
    | ok ts =>
      rw [h2] at h
      simp only at h
      cases h3 : collect f l2 with
      | error e => rw [h3] at h; cases h
      | ok post =>
        rw [h3] at h
        simp only at h
        cases h
        exact ⟨pre, ts, post, rfl, by simp⟩

theorem GoMap.mem_keys_of_get {V : Type} (m : GoMap V) (k : GoString) (v : V)
    (h : GoMap.get m k = some v) : k ∈ GoMap.keys m := by
  induction m with
  | nil => simp [GoMap.get] at h
  | cons e rest ih =>
    obtain ⟨k1, v1⟩ := e
    simp only [GoMap.get] at h
    simp only [GoMap.keys, List.map_cons, List.mem_cons]
    split_ifs at h with hk
    · exact Or.inl hk.symm
    · exact Or.inr (ih h)

theorem depthNodes_mem (l : List Node) (c : Node) (h : c ∈ l) : c.depth ≤ depthNodes l := by
  induction l with
  | nil => cases h
  | cons a rest ih =>
    simp only [depthNodes]
    rcases List.mem_cons.1 h with rfl | h
    · exact le_max_left _ _
    · exact le_trans (ih h) (le_max_right _ _)

theorem depthGroups_mem (gs : List (GoString × List Node)) (g : GoString × List Node)
    (h : g ∈ gs) : depthNodes g.2 ≤ depthGroups gs := by
  induction gs with
  | nil => cases h
  | cons a rest ih =>
    simp only [depthGroups]
    rcases List.mem_cons.1 h with rfl | h
    · exact le_max_left _ _
    · exact le_trans (ih h) (le_max_right _ _)

theorem assertableNodes_mem (l : List Node) (c : Node) (h : c ∈ l) (ha : assertableNodes l) :
    c.assertable := by
  induction l with
  | nil => cases h
  | cons a rest ih =>
    simp only [assertableNodes] at ha
    rcases List.mem_cons.1 h with rfl | h
    · exact ha.1
    · exact ih h ha.2

theorem assertableGroups_mem (gs : List (GoString × List Node)) (g : GoString × List Node)
    (h : g ∈ gs) (ha : assertableGroups gs) : assertableNodes g.2 := by
  induction gs with
  | nil => cases h
  | cons a rest ih =>
    simp only [assertableGroups] at ha
    rcases List.mem_cons.1 h with rfl | h
    · exact ha.1
    · exact ih h ha.2

theorem GoMap.mem_of_get {V : Type} (m : GoMap V) (k : GoString) (v : V)
    (h : GoMap.get m k = some v) : (k, v) ∈ m := by
  induction m with
  | nil => simp [GoMap.get] at h
  | cons e rest ih =>
    obtain ⟨k1, v1⟩ := e
    simp only [GoMap.get] at h
    split_ifs at h with hk
    · cases h
      subst hk
      exact List.mem_cons_self _ _
    · exact List.mem_cons_of_mem _ (ih h)

theorem GoMap.get_of_mem_keys {V : Type} (m : GoMap V) (k : GoString)
    (h : k ∈ GoMap.keys m) : ∃ v, GoMap.get m k = some v := by
  induction m with
  | nil => cases h
  | cons e rest ih =>
    obtain ⟨k1, v1⟩ := e
    simp only [GoMap.get]
    split_ifs with hk
    · exact ⟨v1, rfl⟩
    · simp only [GoMap.keys, List.map_cons, List.mem_cons] at h
      rcases h with h | h
      · exact absurd h.symm hk
      · exact ih h

theorem collect_ok {α : Type} (f : α → Except Fault (List Token)) (l : List α)
    (h : ∀ a ∈ l, ∃ ts, f a = .ok ts) : ∃ ts, collect f l = .ok ts := by
  induction l with
  | nil => exact ⟨[], rfl⟩
  | cons a rest ih =>
    obtain ⟨ts, hts⟩ := h a (List.mem_cons_self _ _)
    obtain ⟨us, hus⟩ := ih (fun b hb => h b (List.mem_cons_of_mem _ hb))
    exact ⟨ts ++ us, by simp only [collect, hts, hus]⟩

theorem writeAttribute_ok (lib : Lib) (attrName : GoString) (attr : NodeAttribute)
    (h : attr.assertable) : ∃ ts, writeAttribute lib attrName attr = .ok ts := by
  unfold writeAttribute
  simp only
  by_cases h1 : attr.type = AttrTranslatedString
  · obtain ⟨ts, hts⟩ := h.1 h1
    rw [if_pos h1, hts]
    exact ⟨_, rfl⟩
  · rw [if_neg h1]
    by_cases h2 : attr.type = AttrTranslatedFSString
    · obtain ⟨fs, hfs⟩ := h.2 h2
      rw [if_pos h2, hfs]
      cases fs
      exact ⟨_, rfl⟩
    · rw [if_neg h2]
      exact ⟨_, rfl⟩

theorem sortChildren_perm (lib : Lib) (hs : SortSliceSpec lib.sortSlice) (children : List Node) :
    (sortChildren lib children).Perm children := by
  unfold sortChildren
  split_ifs
  · exact (hs Node _ children).1
  · exact List.Perm.refl _

theorem writeNode_ok (lib : Lib) (hs : SortSliceSpec lib.sortSlice) (fuel : Nat) :
    ∀ node : Node, node.depth ≤ fuel → node.assertable →
      ∃ tokens, writeNode lib fuel node = .ok tokens := by
  induction fuel with
  | zero =>
    intro node hd
    cases node
    simp [Node.depth] at hd
  | succ fuel ih =>
    intro node hd ha
    obtain ⟨name, key, attrs, children⟩ := node
    simp only [Node.depth] at hd
    simp only [Node.assertable] at ha
    rw [writeNode]
    simp only [Node.Name, Node.KeyAttribute, Node.Attributes, Node.Children]
    obtain ⟨attrTokens, hat⟩ := collect_ok (fun attrName =>
        match GoMap.get attrs attrName with
        | some attr => writeAttribute lib attrName attr
        | none => .error .nilDereference) (sortStrings (GoMap.keys attrs)) (by
      intro a hmem
      obtain ⟨v, hv⟩ := GoMap.get_of_mem_keys attrs a ((sortStrings_perm _).subset hmem)
      simp only [hv]
      exact writeAttribute_ok lib a v (ha.1 _ (GoMap.mem_of_get _ _ _ hv)))
    rw [hat]
    simp only
    by_cases hne : children.length > 0
    · rw [if_pos hne]
      obtain ⟨childTokens, hct⟩ := collect_ok (fun childName =>
            collect (writeNode lib fuel)
              (sortChildren lib ((GoMap.get children childName).getD [])))
            (sortStrings (GoMap.keys children)) (by
          intro a hmem
          obtain ⟨g, hg⟩ := GoMap.get_of_mem_keys children a ((sortStrings_perm _).subset hmem)
          simp only [hg, Option.getD_some]
          have hgm := GoMap.mem_of_get _ _ _ hg
          apply collect_ok
          intro c hc
          have hcg : c ∈ g := (sortChildren_perm lib hs g).subset hc
          apply ih c
          · have h1 := depthNodes_mem g c hcg
            have h2 := depthGroups_mem children (a, g) hgm
            simp only at h2
            omega
          · exact assertableNodes_mem g c hcg (assertableGroups_mem children (a, g) hgm ha.2))
      rw [hct]
      exact ⟨_, rfl⟩
    · rw [if_neg hne]
      exact ⟨_, rfl⟩

/-- C7: when `sort.Slice` keeps its contract, the members of a child group of two or more
same-named siblings are emitted by `writeNode` in an order that is a rearrangement of the
stored one in which no sibling is followed by one with a smaller `nodeHashString` (compared
with Go's string `<`), whatever the stored order was: the tokens of the node contain the
outputs of the siblings one after the other in that order; and `writeNode` does deliver
tokens when its depth bound covers the height of the node and the translated-string
attributes hold values of their type. -/
theorem siblings_emitted_by_hash (lib : Lib) (hs : SortSliceSpec lib.sortSlice) (fuel : Nat)
    (node : Node) (childName : GoString) (children : List Node)
    (hget : GoMap.get node.Children childName = some children) (hlen : 2 ≤ children.length) :
    (sortChildren lib children).Perm children ∧
    (sortChildren lib children).Pairwise
      (fun a b => strLess (nodeHashString lib b) (nodeHashString lib a) = false) ∧
    (∀ tokens, writeNode lib (fuel + 1) node = .ok tokens →
      ∃ pre ts post, collect (writeNode lib fuel) (sortChildren lib children) = .ok ts ∧
        tokens = pre ++ ts ++ post) ∧
    (node.depth ≤ fuel + 1 → node.assertable →
      ∃ tokens, writeNode lib (fuel + 1) node = .ok tokens) := by
  have hsort := hs Node
    (fun a b => strLess (nodeHashString lib a) (nodeHashString lib b)) children
  have hgt : children.length > 1 := by omega
  refine ⟨?_, ?_, ?_, writeNode_ok lib hs (fuel + 1) node⟩
  · unfold sortChildren
    rw [if_pos hgt]
    exact hsort.1
  · unfold sortChildren
    rw [if_pos hgt]
    exact hsort.2 (fun a => strLess_irrefl _) (fun a b c => strLess_trans _ _ _)
      (fun a b c => strLess_false_trans _ _ _)
  · intro tokens h
    rw [writeNode] at h
    simp only at h
    have hmem : childName ∈ sortStrings (GoMap.keys node.Children) :=
      (sortStrings_perm _).symm.subset (GoMap.mem_keys_of_get _ _ _ hget)
    have hne : node.Children.length > 0 := by
      cases hc : node.Children with
      | nil => rw [hc] at hget; simp [GoMap.get] at hget
      | cons _ _ => simp
    cases h1 : collect (fun attrName =>
        match GoMap.get node.Attributes attrName with
        | some attr => writeAttribute lib attrName attr
        | none => .error .nilDereference) (sortStrings (GoMap.keys node.Attributes)) with
    | error e => rw [h1] at h; cases h
    | ok attrTokens =>
      rw [h1] at h
      simp only [hne, if_true] at h
      cases h2 : collect (fun childName =>
          collect (writeNode lib fuel)
            (sortChildren lib ((GoMap.get node.Children childName).getD [])))
          (sortStrings (GoMap.keys node.Children)) with
      | error e => rw [h2] at h; cases h
      | ok childTokens =>
        rw [h2] at h
        simp only at h
        cases h
        obtain ⟨pre, ts, post, hts, hct⟩ := collect_mem _ _ childName hmem childTokens h2
        simp only [hget, Option.getD_some] at hts
        refine ⟨[Token.StartElement (lit "node")
            ([(lit "id", node.Name)] ++
              (if node.KeyAttribute ≠ [] then [(lit "key", node.KeyAttribute)] else []))] ++
            attrTokens ++ [Token.StartElement (lit "children") []] ++ pre, ts,
          post ++ [Token.EndElement (lit "children"), Token.EndElement (lit "node")], hts, ?_⟩
        rw [hct]
        simp only [List.append_assoc]

theorem siblings_emitted_by_hash_witness :
    (sortChildren refLib threeObjects).Pairwise
      (fun a b => strLess (nodeHashString refLib b) (nodeHashString refLib a) = false) :=
  (siblings_emitted_by_hash refLib insertionSortLessFunc_spec 0
    (.mk (lit "Root") [] [] [(lit "Object", threeObjects)]) (lit "Object") threeObjects
    rfl (by decide)).2.1

theorem threeObjects_emitted_order :
    (sortChildren refLib threeObjects).map (nodeHashString refLib) =
      [lit "v:1|", lit "v:2|", lit "v:3|"] := by
  decide

theorem GoMap.get_set_self {V : Type} (m : GoMap V) (k : GoString) (v : V) :
    GoMap.get (GoMap.set m k v) k = some v := by
  induction m with
  | nil => simp [GoMap.set, GoMap.get]
  | cons e rest ih =>
    obtain ⟨k1, v1⟩ := e
    simp only [GoMap.set]
    split_ifs with h
    · simp [GoMap.get, h]
    · simp [GoMap.get, h, ih]

theorem GoMap.get_set_ne {V : Type} (m : GoMap V) (k k2 : GoString) (v : V) (h : k2 ≠ k) :
    GoMap.get (GoMap.set m k v) k2 = GoMap.get m k2 := by
  induction m with
  | nil => simp [GoMap.set, GoMap.get, h.symm]
  | cons e rest ih =>
    obtain ⟨k1, v1⟩ := e
    simp only [GoMap.set]
    split_ifs with h1
    · subst h1
      simp [GoMap.get, h.symm]
    · simp only [GoMap.get, ih]

theorem AppendChild_children (n : Arena.Node) (child : Nat) (childName name : GoString) :
    (GoMap.get (n.AppendChild child childName).Children name).getD [] =
      (GoMap.get n.Children name).getD [] ++ (if childName = name then [child] else []) := by
  unfold Arena.Node.AppendChild
  simp only
  by_cases h : childName = name
  · subst h
    rw [GoMap.get_set_self, if_pos rfl]
    cases hg : GoMap.get n.Children childName with
    | none => simp [GoMap.get_set_self]
    | some l => simp [hg]
  · rw [GoMap.get_set_ne _ _ _ _ (Ne.symm h), if_neg h, List.append_nil]
    cases hg : GoMap.get n.Children childName with
    | none => simp [GoMap.get_set_ne _ _ _ _ (Ne.symm h)]
    | some l => rfl

theorem AppendChild_fields (n : Arena.Node) (child : Nat) (childName : GoString) :
    (n.AppendChild child childName).Name = n.Name ∧
    (n.AppendChild child childName).Parent = n.Parent ∧
    (n.AppendChild child childName).Attributes = n.Attributes ∧
    (n.AppendChild child childName).KeyAttribute = n.KeyAttribute := by
  unfold Arena.Node.AppendChild
  exact ⟨rfl, rfl, rfl, rfl⟩

theorem childRecords_succ (r : LSFReader) (k i : Nat) (name : GoString) :
    childRecords r (k + 1) i name = childRecords r k i name ++
      (match r.nodes[k]? with
       | some c =>
         if c.ParentIndex = (i : Int) ∧ resolveName r.names c.NameIndex c.NameOffset = name
         then [k] else []
       | none => []) := by
  unfold childRecords
  rw [List.range_succ, List.filter_append]
  congr 1
  cases hc : r.nodes[k]? with
  | none => simp [hc]
  | some c =>
    simp only [List.filter_cons, List.filter_nil, hc]
    by_cases h : c.ParentIndex = (i : Int) ∧ resolveName r.names c.NameIndex c.NameOffset = name
    · simp [h]
    · simp [h]

theorem childRecords_fresh (r : LSFReader) (k : Nat) (name : GoString)
    (hpar : ∀ (j : Nat) (c : LSFNodeInfo), r.nodes[j]? = some c →
      c.ParentIndex = -1 ∨ (0 ≤ c.ParentIndex ∧ c.ParentIndex < (j : Int))) :
    childRecords r (k + 1) k name = [] := by
  unfold childRecords
  rw [List.filter_eq_nil_iff]
  intro j hj
  have hj : j < k + 1 := List.mem_range.1 hj
  cases hc : r.nodes[j]? with
  | none => simp
  | some c =>
    have := hpar j c hc
    simp only [decide_eq_true_eq, not_and]
    intro h1
    omega

theorem regionsOf_succ (r : LSFReader) (k : Nat) :
    regionsOf r (k + 1) =
      (match r.nodes[k]? with
       | some c =>
         if c.ParentIndex = -1 then
           GoMap.set (regionsOf r k) (resolveName r.names c.NameIndex c.NameOffset)
             ⟨k, resolveName r.names c.NameIndex c.NameOffset⟩
         else regionsOf r k
       | none => regionsOf r k) := by
  unfold regionsOf
  rw [List.range_succ, List.foldl_append]
  rfl

theorem setAttributes_eq (mem : List (Option Arena.Node)) (i : Nat) (node : Arena.Node)
    (attrs : GoMap NodeAttribute) (h : mem[i]? = some (some node)) :
    setAttributes mem i attrs = mem.set i (some { node with Attributes := attrs }) := by
  unfold setAttributes
  rw [h]

theorem buildNode_region (r : LSFReader) (fuel k : Nat) (res : Arena.Resource)
    (nd : LSFNodeInfo) (hk : k < res.nodeInstances.length) (hp : nd.ParentIndex = -1)
    (name : GoString) (hname : lookupName r.names nd.NameIndex nd.NameOffset = .ok name)
    (attrs : GoMap NodeAttribute)
    (hattr : readNodeAttributes r (newBinaryReaderFromBytes r.values) fuel fuel
      nd.FirstAttributeIndex [] = .ok attrs) :
    buildNode r (newBinaryReaderFromBytes r.values) fuel res k nd =
      .ok { res with
            nodeInstances := res.nodeInstances.set k (some ⟨name, none, attrs, [], nd.KeyAttribute⟩)
            Regions := GoMap.set res.Regions name ⟨k, name⟩ } := by
  unfold buildNode
  simp only [hname, hp, if_true, hattr]
  rw [setAttributes_eq _ k ⟨name, none, [], [], nd.KeyAttribute⟩ attrs
    (by simp [List.getElem?_set_self, hk])]
  simp [List.set_set]

theorem buildNode_child (r : LSFReader) (fuel k p : Nat) (res : Arena.Resource)
    (nd : LSFNodeInfo) (hk : k < res.nodeInstances.length) (hp : nd.ParentIndex = (p : Int))
    (hpk : p < k) (pcell : Arena.Node) (hpc : res.nodeInstances[p]? = some (some pcell))
    (name : GoString) (hname : lookupName r.names nd.NameIndex nd.NameOffset = .ok name)
    (attrs : GoMap NodeAttribute)
    (hattr : readNodeAttributes r (newBinaryReaderFromBytes r.values) fuel fuel
      nd.FirstAttributeIndex [] = .ok attrs) :
    buildNode r (newBinaryReaderFromBytes r.values) fuel res k nd =
      .ok { res with
            nodeInstances :=
              (res.nodeInstances.set k (some ⟨name, some p, attrs, [], nd.KeyAttribute⟩)).set p
                (some (pcell.AppendChild k name)) } := by
  unfold buildNode
  have hne : ¬ ((p : Int) = -1) := by omega
  have hpk2 : p ≠ k := by omega
  have hidx : ∀ mem : List (Option Arena.Node), indexInt mem (p : Int) = mem[p]? := by
    intro mem
    unfold indexInt
    rw [if_neg (by omega)]
    simp
  simp only [hname, hp, hne, if_false, hidx, hpc, Option.isSome_some, if_true, Int.toNat_ofNat]
  rw [List.getElem?_set_ne (Ne.symm hpk2), hpc]
  simp only [hattr]
  rw [setAttributes_eq _ k ⟨name, some p, [], [], nd.KeyAttribute⟩ attrs
    (by rw [List.getElem?_set_ne hpk2]; simp [List.getElem?_set_self, hk])]
  congr 2
  apply List.ext_getElem?
  intro i
  by_cases hik : i = k
  · subst hik
    simp [List.getElem?_set, hpk2, hk]
  · by_cases hip : i = p
    · subst hip
      simp [List.getElem?_set, hik, Ne.symm hik]
    · simp [List.getElem?_set, hik, hip, Ne.symm hik, Ne.symm hip]

theorem resolveName_of_lookup (names : List (List GoString)) (index offset : Nat)
    (name : GoString) (h : lookupName names index offset = .ok name) :
    resolveName names index offset = name := by
  unfold resolveName
  rw [h]

theorem buildNode_step (r : LSFReader) (fuel k : Nat) (res : Arena.Resource) (nd : LSFNodeInfo)
    (hk : r.nodes[k]? = some nd) (hinv : CellsBuilt r fuel k res)
    (hpar : ∀ (j : Nat) (c : LSFNodeInfo), r.nodes[j]? = some c →
      c.ParentIndex = -1 ∨ (0 ≤ c.ParentIndex ∧ c.ParentIndex < (j : Int)))
    (name : GoString) (hname : lookupName r.names nd.NameIndex nd.NameOffset = .ok name)
    (attrs : GoMap NodeAttribute)
    (hattr : readNodeAttributes r (newBinaryReaderFromBytes r.values) fuel fuel
      nd.FirstAttributeIndex [] = .ok attrs) :
    ∃ res2, buildNode r (newBinaryReaderFromBytes r.values) fuel res k nd = .ok res2 ∧
      CellsBuilt r fuel (k + 1) res2 := by
  obtain ⟨hlen, hreg, hcells, hnil⟩ := hinv
  have hres := resolveName_of_lookup _ _ _ _ hname
  have hklt : k < r.nodes.length := by
    rcases List.getElem?_eq_some_iff.1 hk with ⟨h, _⟩
    exact h
  have hklt2 : k < res.nodeInstances.length := by omega
  rcases hpar k nd hk with hp | ⟨hp0, hpk⟩
  · refine ⟨_, buildNode_region r fuel k res nd hklt2 hp name hname attrs hattr, ?_⟩
    refine ⟨by simp [hlen], ?_, ?_, ?_⟩
    · simp only [regionsOf_succ, hk, hp, if_true, hres, hreg]
    · intro i ndi hi hndi
      by_cases hik : i = k
      · subst hik
        rw [hk] at hndi
        cases hndi
        refine ⟨⟨name, none, attrs, [], nd.KeyAttribute⟩, by simp [hklt2], hres.symm, rfl,
          by simp [hp], hattr, ?_⟩
        intro nm
        rw [childRecords_fresh r i nm hpar]
        rfl
      · obtain ⟨cell, h1, h2, h3, h4, h5, h6⟩ := hcells i ndi (by omega) hndi
        refine ⟨cell, by simp [List.getElem?_set_ne (Ne.symm hik), h1], h2, h3, h4, h5, ?_⟩
        intro nm
        rw [childRecords_succ, hk, h6]
        have : ¬ (nd.ParentIndex = (i : Int) ∧
            resolveName r.names nd.NameIndex nd.NameOffset = nm) := by
          intro h; omega
        simp [this]
    · intro i hi1 hi2
      have hik : k ≠ i := by omega
      simp only [List.getElem?_set_ne hik]
      exact hnil i (by omega) hi2
  · obtain ⟨p, hp⟩ : ∃ p : Nat, nd.ParentIndex = (p : Int) := ⟨nd.ParentIndex.toNat, by omega⟩
    have hpk2 : p < k := by omega
    have hplt : p < r.nodes.length := by omega
    obtain ⟨ndp, hndp⟩ : ∃ ndp, r.nodes[p]? = some ndp :=
      ⟨r.nodes[p], List.getElem?_eq_getElem hplt⟩
    obtain ⟨pcell, g1, g2, g3, g4, g5, g6⟩ := hcells p ndp hpk2 hndp
    refine ⟨_, buildNode_child r fuel k p res nd hklt2 hp hpk2 pcell g1 name hname attrs hattr,
      ?_⟩
    have hpne : p ≠ k := by omega
    refine ⟨by simp [hlen], ?_, ?_, ?_⟩
    · have : ¬ ((p : Int) = -1) := by omega
      simp only [regionsOf_succ, hk, hp, this, if_false, hreg]
    · intro i ndi hi hndi
      by_cases hik : i = k
      · subst hik
        rw [hk] at hndi
        cases hndi
        have hne1 : ¬ ((p : Int) = -1) := by omega
        refine ⟨⟨name, some p, attrs, [], nd.KeyAttribute⟩, ?_, hres.symm, rfl,
          by simp [hp, hne1], hattr, ?_⟩
        · rw [List.getElem?_set_ne hpne]
          simp [hklt2]
        · intro nm
          rw [childRecords_fresh r i nm hpar]
          rfl
      · by_cases hip : i = p
        · subst hip
          rw [hndp] at hndi
          cases hndi
          obtain ⟨f1, f2, f3, f4⟩ := AppendChild_fields pcell k name
          refine ⟨pcell.AppendChild k name, ?_, f1.trans g2, f4.trans g3, f2.trans g4,
            by rw [f3]; exact g5, ?_⟩
          · have : i < (res.nodeInstances.set k
                (some ⟨name, some i, attrs, [], nd.KeyAttribute⟩)).length := by
              simp; omega
            simp [List.getElem?_set_self this]
          · intro nm
            rw [AppendChild_children, childRecords_succ, hk, g6]
            congr 1
            by_cases hnm : name = nm
            · simp [hnm, hp, hres.trans hnm]
            · have : ¬ (resolveName r.names nd.NameIndex nd.NameOffset = nm) := by
                rw [hres]; exact hnm
              simp [hnm, this]
        · obtain ⟨cell, h1, h2, h3, h4, h5, h6⟩ := hcells i ndi (by omega) hndi
          refine ⟨cell, ?_, h2, h3, h4, h5, ?_⟩
          · rw [List.getElem?_set_ne (Ne.symm hip), List.getElem?_set_ne (Ne.symm hik), h1]
          · intro nm
            rw [childRecords_succ, hk, h6]
            have : ¬ (nd.ParentIndex = (i : Int) ∧
                resolveName r.names nd.NameIndex nd.NameOffset = nm) := by
              intro h; omega
            simp [this]
    · intro i hi1 hi2
      have hik : k ≠ i := by omega
      have hip : p ≠ i := by omega
      rw [List.getElem?_set_ne hip, List.getElem?_set_ne hik]
      exact hnil i (by omega) hi2

theorem buildNodes_spec (r : LSFReader) (fuel : Nat)
    (hpar : ∀ (j : Nat) (c : LSFNodeInfo), r.nodes[j]? = some c →
      c.ParentIndex = -1 ∨ (0 ≤ c.ParentIndex ∧ c.ParentIndex < (j : Int)))
    (hname : ∀ c ∈ r.nodes, ∃ name, lookupName r.names c.NameIndex c.NameOffset = .ok name)
    (hattr : ∀ c ∈ r.nodes, ∃ attrs,
      readNodeAttributes r (newBinaryReaderFromBytes r.values) fuel fuel
        c.FirstAttributeIndex [] = .ok attrs)
    (rest : List LSFNodeInfo) (k : Nat) (res : Arena.Resource)
    (hrest : r.nodes.drop k = rest) (hkle : k ≤ r.nodes.length)
    (hinv : CellsBuilt r fuel k res) :
    ∃ res2, buildNodes r (newBinaryReaderFromBytes r.values) fuel rest k res = .ok res2 ∧
      CellsBuilt r fuel r.nodes.length res2 := by
  induction rest generalizing k res with
  | nil =>
    have hk : r.nodes.length ≤ k := List.drop_eq_nil_iff.1 hrest
    have hkeq : k = r.nodes.length := by omega
    subst hkeq
    exact ⟨res, rfl, hinv⟩
  | cons nd rest ih =>
    have hk : r.nodes[k]? = some nd := by
      rw [← List.head?_drop, hrest]
      rfl
    have hmem : nd ∈ r.nodes := List.mem_iff_getElem?.2 ⟨k, hk⟩
    have hklt : k < r.nodes.length := (List.getElem?_eq_some_iff.1 hk).1
    obtain ⟨name, hn⟩ := hname nd hmem
    obtain ⟨attrs, ha⟩ := hattr nd hmem
    obtain ⟨res1, hb, hinv1⟩ := buildNode_step r fuel k res nd hk hinv hpar name hn attrs ha
    obtain ⟨res2, hb2, hinv2⟩ := ih (k + 1) res1 (by rw [← List.drop_drop]; simp [hrest]) (by omega) hinv1
    refine ⟨res2, ?_, hinv2⟩
    simp only [buildNodes, hb, hb2]

theorem cellsBuilt_init (r : LSFReader) (fuel : Nat) (md : LSMetadata) :
    CellsBuilt r fuel 0 ⟨md, [], List.replicate r.nodes.length none⟩ := by
  refine ⟨by simp, rfl, ?_, ?_⟩
  · intro i nd hi
    omega
  · intro i _ hi
    simp [List.getElem?_replicate, hi]

theorem buildResource_spec (r : LSFReader) (fuel : Nat) (md : LSFMetadataV6)
    (hmd : r.metadata = some md)
    (hpar : ∀ (j : Nat) (c : LSFNodeInfo), r.nodes[j]? = some c →
      c.ParentIndex = -1 ∨ (0 ≤ c.ParentIndex ∧ c.ParentIndex < (j : Int)))
    (hname : ∀ c ∈ r.nodes, ∃ name, lookupName r.names c.NameIndex c.NameOffset = .ok name)
    (hattr : ∀ c ∈ r.nodes, ∃ attrs,
      readNodeAttributes r (newBinaryReaderFromBytes r.values) fuel fuel
        c.FirstAttributeIndex [] = .ok attrs) :
    ∃ res, buildResource fuel r = .ok res ∧ CellsBuilt r fuel r.nodes.length res := by
  unfold buildResource
  simp only [hmd]
  exact buildNodes_spec r fuel hpar hname hattr r.nodes 0 _ rfl (Nat.zero_le _)
    (cellsBuilt_init r fuel _)

theorem AttrChain.unique {attributes : List LSFAttributeInfo} {idx : Int}
    {c1 c2 : List LSFAttributeInfo} (h1 : AttrChain attributes idx c1)
    (h2 : AttrChain attributes idx c2) : c1 = c2 := by
  induction h1 generalizing c2 with
  | done =>
    cases h2 with
    | done => rfl
    | step _ _ _ hne _ _ => exact absurd rfl hne
  | step idx a rest hne hidx _ ih =>
    cases h2 with
    | done => exact absurd rfl hne
    | step _ a2 rest2 _ hidx2 hrest2 =>
      rw [hidx] at hidx2
      cases hidx2
      rw [ih hrest2]

theorem GoMap.mem_keys_set {V : Type} (m : GoMap V) (k k2 : GoString) (v : V) :
    k2 ∈ GoMap.keys (GoMap.set m k v) ↔ k2 = k ∨ k2 ∈ GoMap.keys m := by
  induction m with
  | nil => simp [GoMap.set, GoMap.keys]
  | cons e rest ih =>
    obtain ⟨k1, v1⟩ := e
    simp only [GoMap.set]
    split_ifs with h
    · subst h
      simp [GoMap.keys]
    · simp only [GoMap.keys, List.map_cons, List.mem_cons] at ih ⊢
      rw [ih]
      tauto

theorem readNodeAttributes_chain (r : LSFReader) (valueReader : Reader) (depth : Nat)
    (name : LSFAttributeInfo → GoString) (value : LSFAttributeInfo → NodeAttribute)
    (chain : List LSFAttributeInfo) :
    ∀ (fuel : Nat) (idx : Int) (attrs : GoMap NodeAttribute),
      AttrChain r.attributes idx chain → chain.length ≤ fuel →
      (∀ a ∈ chain, lookupName r.names a.NameIndex a.NameOffset = .ok (name a) ∧
        ∃ rd, readAttribute depth a.TypeId (valueReader.Seek a.DataOffset) a.Length =
          .ok (value a, rd)) →
      readNodeAttributes r valueReader depth fuel idx attrs =
        .ok (chain.foldl (fun m a => GoMap.set m (name a) (value a)) attrs) := by
  induction chain with
  | nil =>
    intro fuel idx attrs hc _ _
    cases hc
    cases fuel <;> simp [readNodeAttributes]
  | cons a rest ih =>
    intro fuel idx attrs hc hlen hok
    cases hc with
    | step _ _ _ hne hidx hrest =>
      cases fuel with
      | zero => simp at hlen
      | succ fuel =>
        obtain ⟨hn, rd, hv⟩ := hok a (List.mem_cons_self _ _)
        rw [readNodeAttributes, if_neg hne, hidx]
        simp only [hn, hv, List.foldl_cons]
        exact ih fuel _ _ hrest (by simpa using hlen)
          (fun b hb => hok b (List.mem_cons_of_mem _ hb))

theorem mem_keys_foldl_set {α V : Type} (name : α → GoString) (value : α → V)
    (l : List α) (m : GoMap V) (k : GoString) :
    k ∈ GoMap.keys (l.foldl (fun m a => GoMap.set m (name a) (value a)) m) ↔
      k ∈ GoMap.keys m ∨ ∃ a ∈ l, name a = k := by
  induction l generalizing m with
  | nil => simp
  | cons a rest ih =>
    rw [List.foldl_cons, ih, GoMap.mem_keys_set]
    constructor
    · rintro ((h | h) | ⟨b, hb, h⟩)
      · exact Or.inr ⟨a, List.mem_cons_self _ _, h.symm⟩
      · exact Or.inl h
      · exact Or.inr ⟨b, List.mem_cons_of_mem _ hb, h⟩
    · rintro (h | ⟨b, hb, h⟩)
      · exact Or.inl (Or.inr h)
      · rcases List.mem_cons.1 hb with rfl | hb
        · exact Or.inl (Or.inl h.symm)
        · exact Or.inr ⟨b, hb, h⟩

theorem get_foldl_set_other {α V : Type} (name : α → GoString) (value : α → V)
    (l : List α) (m : GoMap V) (k : GoString) (h : ∀ b ∈ l, name b ≠ k) :
    GoMap.get (l.foldl (fun m a => GoMap.set m (name a) (value a)) m) k = GoMap.get m k := by
  induction l generalizing m with
  | nil => rfl
  | cons a rest ih =>
    rw [List.foldl_cons, ih _ (fun b hb => h b (List.mem_cons_of_mem _ hb)),
      GoMap.get_set_ne _ _ _ _ (Ne.symm (h a (List.mem_cons_self _ _)))]

theorem get_foldl_set_last {α V : Type} (name : α → GoString) (value : α → V)
    (pre post : List α) (a : α) (m : GoMap V) (h : ∀ b ∈ post, name b ≠ name a) :
    GoMap.get ((pre ++ a :: post).foldl (fun m a => GoMap.set m (name a) (value a)) m)
      (name a) = some (value a) := by
  rw [List.foldl_append, List.foldl_cons, get_foldl_set_other name value post _ _ h,
    GoMap.get_set_self]

/-- C3: when the tables are well formed (parents earlier, names resolving, every attribute
chain reaching -1 inside the table within the loop bound, every entry decoding),
`buildResource` succeeds and for every node record: if its first-attribute index is -1 the
attribute map is empty; the keys of the map are exactly the resolved names of the entries on
its chain; and for an entry that no later entry of the chain shares its name with, the map
holds under that name the value `readAttribute` decodes from the value blob at the entry's
offset with the entry's type tag and length (so the later of two entries wins). -/
theorem attributes_follow_chain (r : LSFReader) (fuel : Nat) (md : LSFMetadataV6)
    (hmd : r.metadata = some md)
    (hpar : ∀ (j : Nat) (c : LSFNodeInfo), r.nodes[j]? = some c →
      c.ParentIndex = -1 ∨ (0 ≤ c.ParentIndex ∧ c.ParentIndex < (j : Int)))
    (hname : ∀ c ∈ r.nodes, ∃ name, lookupName r.names c.NameIndex c.NameOffset = .ok name)
    (hchain : ∀ c ∈ r.nodes, ∃ chain,
      AttrChain r.attributes c.FirstAttributeIndex chain ∧ chain.length ≤ fuel ∧
      ∀ a ∈ chain, (∃ name, lookupName r.names a.NameIndex a.NameOffset = .ok name) ∧
        ∃ v, readAttribute fuel a.TypeId ⟨r.values, a.DataOffset⟩ a.Length = .ok v) :
    ∃ res, buildResource fuel r = .ok res ∧
      ∀ (i : Nat) (nd : LSFNodeInfo) (chain : List LSFAttributeInfo),
        r.nodes[i]? = some nd → AttrChain r.attributes nd.FirstAttributeIndex chain →
        ∃ cell, res.nodeInstances[i]? = some (some cell) ∧
          (nd.FirstAttributeIndex = -1 → cell.Attributes = []) ∧
          (∀ name, name ∈ GoMap.keys cell.Attributes ↔
            ∃ a ∈ chain, resolveName r.names a.NameIndex a.NameOffset = name) ∧
          (∀ pre a post, chain = pre ++ a :: post →
            (∀ b ∈ post, resolveName r.names b.NameIndex b.NameOffset ≠
              resolveName r.names a.NameIndex a.NameOffset) →
            ∃ v rd, readAttribute fuel a.TypeId ⟨r.values, a.DataOffset⟩ a.Length = .ok (v, rd) ∧
              GoMap.get cell.Attributes (resolveName r.names a.NameIndex a.NameOffset) =
                some v) := by
  let name : LSFAttributeInfo → GoString := fun a => resolveName r.names a.NameIndex a.NameOffset
  let value : LSFAttributeInfo → NodeAttribute := fun a =>
    match readAttribute fuel a.TypeId ⟨r.values, a.DataOffset⟩ a.Length with
    | .ok v => v.1
    | .error _ => ⟨a.TypeId, .nil⟩
  have hloop : ∀ c ∈ r.nodes, ∀ chain, AttrChain r.attributes c.FirstAttributeIndex chain →
      readNodeAttributes r (newBinaryReaderFromBytes r.values) fuel fuel
        c.FirstAttributeIndex [] =
        .ok (chain.foldl (fun m a => GoMap.set m (name a) (value a)) []) := by
    intro c hc chain hch
    obtain ⟨chain2, h1, h2, h3⟩ := hchain c hc
    have := AttrChain.unique hch h1
    subst this
    refine readNodeAttributes_chain r _ fuel name value chain fuel _ [] h1 h2 ?_
    intro a ha
    obtain ⟨⟨nm, hnm⟩, v, hv⟩ := h3 a ha
    refine ⟨by rw [hnm]; show _ = Except.ok (resolveName _ _ _); rw [resolveName_of_lookup _ _ _ _ hnm], v.2, ?_⟩
    show readAttribute fuel a.TypeId ⟨r.values, a.DataOffset⟩ a.Length = _
    rw [hv]
    simp only [value, hv]
  have hattr : ∀ c ∈ r.nodes, ∃ attrs,
      readNodeAttributes r (newBinaryReaderFromBytes r.values) fuel fuel
        c.FirstAttributeIndex [] = .ok attrs := by
    intro c hc
    obtain ⟨chain, h1, _, _⟩ := hchain c hc
    exact ⟨_, hloop c hc chain h1⟩
  obtain ⟨res, hres, hlen, hreg, hcells, hnil⟩ := buildResource_spec r fuel md hmd hpar hname hattr
  refine ⟨res, hres, ?_⟩
  intro i nd chain hnd hch
  have hi : i < r.nodes.length := (List.getElem?_eq_some_iff.1 hnd).1
  have hmem : nd ∈ r.nodes := List.mem_iff_getElem?.2 ⟨i, hnd⟩
  obtain ⟨cell, h1, h2, h3, h4, h5, h6⟩ := hcells i nd hi hnd
  rw [hloop nd hmem chain hch] at h5
  have hattrs : cell.Attributes = chain.foldl (fun m a => GoMap.set m (name a) (value a)) [] :=
    (Except.ok.inj h5).symm
  refine ⟨cell, h1, ?_, ?_, ?_⟩
  · intro hf
    rw [hf] at hch
    cases hch with
    | done => rw [hattrs]; rfl
    | step _ _ _ hne _ _ => exact absurd rfl hne
  · intro nm
    rw [hattrs, mem_keys_foldl_set]
    simp [GoMap.keys, name]
  · intro pre a post hsplit hlast
    obtain ⟨chain2, g1, g2, g3⟩ := hchain nd hmem
    have := AttrChain.unique hch g1
    subst this
    obtain ⟨_, v, hv⟩ := g3 a (by rw [hsplit]; simp)
    refine ⟨v.1, v.2, hv, ?_⟩
    rw [hattrs, hsplit]
    have := get_foldl_set_last name value pre post a [] hlast
    rw [this]
    simp only [value, hv]

theorem attributes_follow_chain_witness :
    ∃ res, buildResource 3 chainTables = .ok res ∧
      ∀ (i : Nat) (nd : LSFNodeInfo) (chain : List LSFAttributeInfo),
        chainTables.nodes[i]? = some nd →
        AttrChain chainTables.attributes nd.FirstAttributeIndex chain →
        ∃ cell, res.nodeInstances[i]? = some (some cell) ∧
          (nd.FirstAttributeIndex = -1 → cell.Attributes = []) ∧
          (∀ name, name ∈ GoMap.keys cell.Attributes ↔
            ∃ a ∈ chain, resolveName chainTables.names a.NameIndex a.NameOffset = name) ∧
          (∀ pre a post, chain = pre ++ a :: post →
            (∀ b ∈ post, resolveName chainTables.names b.NameIndex b.NameOffset ≠
              resolveName chainTables.names a.NameIndex a.NameOffset) →
            ∃ v rd, readAttribute 3 a.TypeId ⟨chainTables.values, a.DataOffset⟩ a.Length =
                .ok (v, rd) ∧
              GoMap.get cell.Attributes
                (resolveName chainTables.names a.NameIndex a.NameOffset) = some v) :=
  attributes_follow_chain chainTables 3 (decodeMetadata []) rfl
    (by
      intro j c h
      match j, h with
      | 0, h => cases h; exact Or.inl rfl
      | j + 1, h => cases h)
    (by
      intro c hc
      simp only [chainTables, List.mem_singleton] at hc
      subst hc
      exact ⟨lit "R", rfl⟩)
    (by
      intro c hc
      simp only [chainTables, List.mem_singleton] at hc
      subst hc
      refine ⟨[⟨0, 1, AttrByte, 1, 0, 1⟩, ⟨0, 2, AttrByte, 1, 1, 2⟩, ⟨0, 1, AttrByte, 1, 2, -1⟩],
        ?_, by decide, ?_⟩
      · exact AttrChain.step _ _ _ (by decide) rfl
          (AttrChain.step _ _ _ (by decide) rfl
            (AttrChain.step _ _ _ (by decide) rfl AttrChain.done))
      · intro a ha
        simp only [List.mem_cons, List.mem_singleton, List.not_mem_nil, or_false] at ha
        rcases ha with rfl | rfl | rfl
        · exact ⟨⟨lit "a", rfl⟩, _, rfl⟩
        · exact ⟨⟨lit "b", rfl⟩, _, rfl⟩
        · exact ⟨⟨lit "a", rfl⟩, _, rfl⟩)

theorem chainTables_attributes :
    (buildResource 3 chainTables).map
        (fun res => res.nodeInstances.map (Option.map (fun n => n.Attributes))) =
      .ok [some [(lit "a", ⟨AttrByte, .uint8 9⟩), (lit "b", ⟨AttrByte, .uint8 8⟩)]] := by
  rfl

/-! ### Decoding of the tables, decompression, termination -/

theorem field_window (data : List Byte) (off w i n : Nat) (h : i + n ≤ w) :
    field ((data.drop off).take w) i n = field data (off + i) n := by
  unfold field
  rw [List.drop_take, List.take_take, List.drop_drop]
  congr 2
  omega

theorem readFull_short (r : Reader) (n : Nat) (h1 : r.pos < r.data.length)
    (h2 : r.data.length < r.pos + n) :
    (readFull r n).1 = .error .unexpectedEOF := by
  unfold readFull
  rw [if_neg (by omega), if_neg (by omega)]
  simp only
  rw [if_pos]
  simp only [List.length_take, List.length_drop]
  omega

/-- The loop of `readNodes` on `m` whole records followed by `t < 16` stray bytes: the `m`
records are decoded in order, and the stray bytes give `io.ErrUnexpectedEOF`. -/
theorem readNodesLoop_spec (data : List Byte) (m t : Nat) (ht : t < 16) :
    ∀ (pos fuel : Nat) (nodes : List LSFNodeInfo), pos + 16 * m + t = data.length →
      m + 1 ≤ fuel →
      readNodesLoop fuel ⟨data, pos⟩ nodes =
        (if t = 0 then none else some .unexpectedEOF,
          nodes ++ (List.range m).map (fun j =>
            ({ ParentIndex := toSigned 32 (field data (pos + 16 * j + 4) 4)
               NameIndex := field data (pos + 16 * j) 4 >>> 16
               NameOffset := field data (pos + 16 * j) 4 &&& 0xffff
               FirstAttributeIndex := toSigned 32 (field data (pos + 16 * j + 12) 4)
               KeyAttribute := [] } : LSFNodeInfo))) := by
  induction m with
  | zero =>
    intro pos fuel nodes hlen hfuel
    obtain ⟨fuel, rfl⟩ : ∃ f, fuel = f + 1 := ⟨fuel - 1, by omega⟩
    rw [readNodesLoop]
    by_cases h0 : t = 0
    · have : ¬ (Reader.Len ⟨data, pos⟩ > 0) := by simp [Reader.Len]; omega
      rw [if_neg this]
      simp [h0]
    · have : Reader.Len ⟨data, pos⟩ > 0 := by simp [Reader.Len]; omega
      rw [if_pos this]
      have hs := readFull_short ⟨data, pos⟩ 16 (by simp; omega) (by simp; omega)
      generalize readFull ⟨data, pos⟩ 16 = res at hs
      obtain ⟨a, b⟩ := res
      simp only at hs
      subst hs
      simp [h0]
  | succ m ih =>
    intro pos fuel nodes hlen hfuel
    obtain ⟨fuel, rfl⟩ : ∃ f, fuel = f + 1 := ⟨fuel - 1, by omega⟩
    rw [readNodesLoop]
    have : Reader.Len ⟨data, pos⟩ > 0 := by simp [Reader.Len]; omega
    rw [if_pos this, readFull_ok ⟨data, pos⟩ 16 (by decide) (by simp; omega)]
    simp only
    rw [ih (pos + 16) fuel _ (by omega) (by omega)]
    congr 1
    rw [List.range_succ_eq_map, List.map_cons, List.map_map, List.append_assoc]
    congr 1
    simp only [List.singleton_append, decodeNodeEntry]
    congr 1
    · simp only [field_window data pos 16 _ _ (by decide : 4 + 4 ≤ 16),
        field_window data pos 16 _ _ (by decide : 0 + 4 ≤ 16),
        field_window data pos 16 _ _ (by decide : 12 + 4 ≤ 16)]
    · apply List.map_congr_left
      intro j _
      simp only [Function.comp, Nat.succ_eq_add_one]
      have e : pos + 16 + 16 * j = pos + 16 * (j + 1) := by omega
      rw [e]

theorem readAttributesLoop_spec (data : List Byte) (m t : Nat) (ht : t < 16) :
    ∀ (pos fuel : Nat) (attributes : List LSFAttributeInfo), pos + 16 * m + t = data.length →
      m + 1 ≤ fuel →
      readAttributesLoop fuel ⟨data, pos⟩ attributes =
        (if t = 0 then none else some .unexpectedEOF,
          attributes ++ (List.range m).map (fun j =>
            ({ NameIndex := field data (pos + 16 * j) 4 >>> 16
               NameOffset := field data (pos + 16 * j) 4 &&& 0xffff
               TypeId := field data (pos + 16 * j + 4) 4 &&& 0x3f
               Length := field data (pos + 16 * j + 4) 4 >>> 6
               DataOffset := field data (pos + 16 * j + 12) 4
               NextAttributeIndex := toSigned 32 (field data (pos + 16 * j + 8) 4) } :
              LSFAttributeInfo))) := by
  induction m with
  | zero =>
    intro pos fuel attributes hlen hfuel
    obtain ⟨fuel, rfl⟩ : ∃ f, fuel = f + 1 := ⟨fuel - 1, by omega⟩
    rw [readAttributesLoop]
    by_cases h0 : t = 0
    · have : ¬ (Reader.Len ⟨data, pos⟩ > 0) := by simp [Reader.Len]; omega
      rw [if_neg this]
      simp [h0]
    · have : Reader.Len ⟨data, pos⟩ > 0 := by simp [Reader.Len]; omega
      rw [if_pos this]
      have hs := readFull_short ⟨data, pos⟩ 16 (by simp; omega) (by simp; omega)
      generalize readFull ⟨data, pos⟩ 16 = res at hs
      obtain ⟨a, b⟩ := res
      simp only at hs
      subst hs
      simp [h0]
  | succ m ih =>
    intro pos fuel attributes hlen hfuel
    obtain ⟨fuel, rfl⟩ : ∃ f, fuel = f + 1 := ⟨fuel - 1, by omega⟩
    rw [readAttributesLoop]
    have : Reader.Len ⟨data, pos⟩ > 0 := by simp [Reader.Len]; omega
    rw [if_pos this, readFull_ok ⟨data, pos⟩ 16 (by decide) (by simp; omega)]
    simp only
    rw [ih (pos + 16) fuel _ (by omega) (by omega)]
    congr 1
    rw [List.range_succ_eq_map, List.map_cons, List.map_map, List.append_assoc]
    congr 1
    simp only [List.singleton_append, decodeAttributeEntry]
    congr 1
    · simp only [field_window data pos 16 _ _ (by decide : 4 + 4 ≤ 16),
        field_window data pos 16 _ _ (by decide : 0 + 4 ≤ 16),
        field_window data pos 16 _ _ (by decide : 8 + 4 ≤ 16),
        field_window data pos 16 _ _ (by decide : 12 + 4 ≤ 16)]
    · apply List.map_congr_left
      intro j _
      simp only [Function.comp, Nat.succ_eq_add_one]
      have e : pos + 16 + 16 * j = pos + 16 * (j + 1) := by omega
      rw [e]

theorem le_lt (bs : List Byte) : le bs < 256 ^ bs.length := by
  induction bs with
  | nil => simp [le]
  | cons b bs ih =>
    simp only [le, List.length_cons, pow_succ]
    have := b.isLt
    omega

theorem field_lt (data : List Byte) (off n : Nat) : field data off n < 256 ^ n := by
  unfold field
  refine lt_of_lt_of_le (le_lt _) ?_
  apply Nat.pow_le_pow_right (by decide)
  simp [List.length_take]

theorem mask16 (w : Nat) : w &&& 0xffff = w % 65536 := Nat.and_pow_two_sub_one_eq_mod w 16

theorem shift16 (w : Nat) : w >>> 16 = w / 65536 := Nat.shiftRight_eq_div_pow w 16

theorem mask6 (w : Nat) : w &&& 0x3f = w % 64 := Nat.and_pow_two_sub_one_eq_mod w 6

theorem shift6 (w : Nat) : w >>> 6 = w / 64 := Nat.shiftRight_eq_div_pow w 6

theorem window_congr (data data2 : List Byte) (off n : Nat)
    (h : ∀ i, off ≤ i → i < off + n → data2[i]? = data[i]?) :
    field data2 off n = field data off n := by
  unfold field
  congr 1
  apply List.ext_getElem?
  intro i
  rw [List.getElem?_take, List.getElem?_take]
  split_ifs with hi
  · rw [List.getElem?_drop, List.getElem?_drop]
    exact h _ (by omega) (by omega)
  · rfl

theorem getElem?_map_range {α : Type} (f : Nat → α) (n k : Nat) (hk : k < n) :
    ((List.range n).map f)[k]? = some (f k) := by
  rw [List.getElem?_map, List.getElem?_range hk]
  rfl

theorem readNodes_eq (r : LSFReader) (data : List Byte) (n : Nat) (hlen : data.length = 16 * n) :
    readNodes r data =
      (none, { r with nodes := (List.range n).map (fun j =>
        ({ ParentIndex := toSigned 32 (field data (16 * j + 4) 4)
           NameIndex := field data (16 * j) 4 >>> 16
           NameOffset := field data (16 * j) 4 &&& 0xffff
           FirstAttributeIndex := toSigned 32 (field data (16 * j + 12) 4)
           KeyAttribute := [] } : LSFNodeInfo)) }) := by
  unfold readNodes newBinaryReaderFromBytes
  rw [readNodesLoop_spec data n 0 (by decide) 0 _ [] (by omega) (by omega)]
  simp

theorem readAttributesV3_eq (r : LSFReader) (data : List Byte) (n : Nat)
    (hlen : data.length = 16 * n) :
    readAttributesV3 r data =
      (none, { r with attributes := (List.range n).map (fun j =>
        ({ NameIndex := field data (16 * j) 4 >>> 16
           NameOffset := field data (16 * j) 4 &&& 0xffff
           TypeId := field data (16 * j + 4) 4 &&& 0x3f
           Length := field data (16 * j + 4) 4 >>> 6
           DataOffset := field data (16 * j + 12) 4
           NextAttributeIndex := toSigned 32 (field data (16 * j + 8) 4) } :
          LSFAttributeInfo)) }) := by
  unfold readAttributesV3 newBinaryReaderFromBytes
  rw [readAttributesLoop_spec data n 0 (by decide) 0 _ [] (by omega) (by omega)]
  simp

theorem readKeys_one (r : LSFReader) (data : List Byte) (hlen : data.length = 8) :
    readKeys r data =
      match lookupName r.names (field data 4 4 >>> 16) (field data 4 4 &&& 0xffff) with
      | .error e => .error e
      | .ok keyAttribute =>
        .ok (none, { r with nodes := setKeyAttribute r.nodes (field data 0 4) keyAttribute }) := by
  unfold readKeys newBinaryReaderFromBytes
  rw [hlen]
  rw [readKeysLoop]
  have : Reader.Len ⟨data, 0⟩ > 0 := by simp [Reader.Len]; omega
  rw [if_pos this, readFull_ok ⟨data, 0⟩ 8 (by decide) (by simp; omega)]
  simp only [decodeKeyEntry, List.drop_zero]
  have e1 : field (List.take 8 data) 4 4 = field data 4 4 := by
    have := field_window data 0 8 4 4 (by decide)
    simpa using this
  have e2 : field (List.take 8 data) 0 4 = field data 0 4 := by
    have := field_window data 0 8 0 4 (by decide)
    simpa using this
  rw [e1, e2]
  cases lookupName r.names (field data 4 4 >>> 16) (field data 4 4 &&& 0xffff) with
  | error e => rfl
  | ok key =>
    simp only
    rw [readKeysLoop]
    have : ¬ (Reader.Len ⟨data, 0 + 8⟩ > 0) := by simp [Reader.Len]; omega
    rw [if_neg this]

/-- C19: on a buffer of exactly `16 * n` bytes `readNodes` returns no error and `n` records in
buffer order; record `k` has name bucket = (uint32 at byte `16k`) `>> 16`, name offset = that
word `& 0xffff` (so bucket * 65536 + offset is the word), parent index = the signed int32 at
byte `16k + 4`, first-attribute index = the signed int32 at byte `16k + 12`, and an empty key
attribute.  Two buffers that differ only in the sibling fields (bytes `16k + 8 .. 16k + 11`)
give the same records.  `readAttributesV3` splits the name reference of its records in the
same way, and `readKeys` that of a key record, which it resolves in the name table. -/
theorem readNodes_records (r : LSFReader) (data : List Byte) (n : Nat)
    (hlen : data.length = 16 * n) :
    (readNodes r data).1 = none ∧
    (readNodes r data).2.nodes.length = n ∧
    (∀ k, k < n → ∃ nd, (readNodes r data).2.nodes[k]? = some nd ∧
      nd.NameIndex = field data (16 * k) 4 >>> 16 ∧
      nd.NameOffset = field data (16 * k) 4 &&& 0xffff ∧
      nd.NameIndex * 65536 + nd.NameOffset = field data (16 * k) 4 ∧
      nd.ParentIndex = toSigned 32 (field data (16 * k + 4) 4) ∧
      nd.FirstAttributeIndex = toSigned 32 (field data (16 * k + 12) 4) ∧
      nd.KeyAttribute = []) ∧
    (∀ data2 : List Byte, data2.length = data.length →
      (∀ i, (i % 16 < 8 ∨ 12 ≤ i % 16) → data2[i]? = data[i]?) →
      (readNodes r data2).2.nodes = (readNodes r data).2.nodes) ∧
    (∀ k, k < n → ∃ a, (readAttributesV3 r data).2.attributes[k]? = some a ∧
      a.NameIndex = field data (16 * k) 4 >>> 16 ∧
      a.NameOffset = field data (16 * k) 4 &&& 0xffff ∧
      a.NameIndex * 65536 + a.NameOffset = field data (16 * k) 4) ∧
    (∀ kdata : List Byte, kdata.length = 8 →
      readKeys r kdata =
        match lookupName r.names (field kdata 4 4 >>> 16) (field kdata 4 4 &&& 0xffff) with
        | .error e => .error e
        | .ok keyAttribute =>
          .ok (none,
            { r with nodes := setKeyAttribute r.nodes (field kdata 0 4) keyAttribute })) := by
  have hsplit : ∀ w : Nat, (w >>> 16) * 65536 + (w &&& 0xffff) = w := by
    intro w
    rw [mask16, shift16]
    omega
  refine ⟨by rw [readNodes_eq r data n hlen], by rw [readNodes_eq r data n hlen]; simp,
    ?_, ?_, ?_, fun kdata hk => readKeys_one r kdata hk⟩
  · intro k hk
    rw [readNodes_eq r data n hlen]
    exact ⟨_, getElem?_map_range _ n k hk, rfl, rfl, hsplit _, rfl, rfl, rfl⟩
  · intro data2 hlen2 hagree
    rw [readNodes_eq r data n hlen, readNodes_eq r data2 n (hlen2.trans hlen)]
    simp only
    apply List.map_congr_left
    intro j _
    have e0 : field data2 (16 * j) 4 = field data (16 * j) 4 :=
      window_congr _ _ _ _ (fun i h1 h2 => hagree i (by omega))
    have e4 : field data2 (16 * j + 4) 4 = field data (16 * j + 4) 4 :=
      window_congr _ _ _ _ (fun i h1 h2 => hagree i (by omega))
    have e12 : field data2 (16 * j + 12) 4 = field data (16 * j + 12) 4 :=
      window_congr _ _ _ _ (fun i h1 h2 => hagree i (by omega))
    rw [e0, e4, e12]
  · intro k hk
    rw [readAttributesV3_eq r data n hlen]
    exact ⟨_, getElem?_map_range _ n k hk, rfl, rfl, hsplit _⟩

/-- C19, witness: one node record with name reference (2, 3), parent -1, sibling 5 and first
attribute 1. -/
theorem readNodes_records_witness :
    (nodeRecord (2 * 65536 + 3) 0xffffffff 5 1).length = 16 * 1 ∧
    (readNodes LSFReader.new (nodeRecord (2 * 65536 + 3) 0xffffffff 5 1)).2.nodes.length = 1 :=
  ⟨rfl, (readNodes_records LSFReader.new (nodeRecord (2 * 65536 + 3) 0xffffffff 5 1) 1 rfl).2.1⟩

/-- C20: on a buffer of exactly `16 * n` bytes `readAttributesV3` returns no error and `n`
records; for record `k` with packed type-and-length word `w` (the uint32 at byte `16k + 4`)
the type tag is `w mod 2^6` and the length `w / 2^6`, so tag < 64, length < 2^26 and
length * 64 + tag = `w`; the next-attribute index is the signed int32 at byte `16k + 8` and
the value offset the uint32 at byte `16k + 12`. -/
theorem readAttributesV3_records (r : LSFReader) (data : List Byte) (n : Nat)
    (hlen : data.length = 16 * n) :
    (readAttributesV3 r data).1 = none ∧
    (readAttributesV3 r data).2.attributes.length = n ∧
    (∀ k, k < n → ∃ a, (readAttributesV3 r data).2.attributes[k]? = some a ∧
      a.TypeId = field data (16 * k + 4) 4 % 2 ^ 6 ∧
      a.Length = field data (16 * k + 4) 4 / 2 ^ 6 ∧
      a.TypeId < 64 ∧ a.Length < 2 ^ 26 ∧
      a.Length * 64 + a.TypeId = field data (16 * k + 4) 4 ∧
      a.NextAttributeIndex = toSigned 32 (field data (16 * k + 8) 4) ∧
      a.DataOffset = field data (16 * k + 12) 4) := by
  refine ⟨by rw [readAttributesV3_eq r data n hlen],
    by rw [readAttributesV3_eq r data n hlen]; simp, ?_⟩
  intro k hk
  rw [readAttributesV3_eq r data n hlen]
  have hw := field_lt data (16 * k + 4) 4
  refine ⟨_, getElem?_map_range _ n k hk, mask6 _, shift6 _, ?_, ?_, ?_, rfl, rfl⟩
  · show _ &&& 0x3f < 64
    rw [mask6]; omega
  · show _ >>> 6 < 2 ^ 26
    rw [shift6]; omega
  · show (_ >>> 6) * 64 + (_ &&& 0x3f) = _
    rw [mask6, shift6]; omega

/-- C20, witness: one attribute record of type `uint8` and length 1. -/
theorem readAttributesV3_records_witness :
    (attributeRecord 0 (1 * 64 + AttrByte) 0xffffffff 0).length = 16 * 1 ∧
    (readAttributesV3 LSFReader.new
      (attributeRecord 0 (1 * 64 + AttrByte) 0xffffffff 0)).2.attributes.length = 1 :=
  ⟨rfl, (readAttributesV3_records LSFReader.new
    (attributeRecord 0 (1 * 64 + AttrByte) 0xffffffff 0) 1 rfl).2.1⟩

/-- C16: for every 64-bit word `p`, read as a signed `int64`, `unpackVersion64` returns
Major = bits 55..61 of `p`, Minor = bits 47..54, Revision = bits 31..46 and Build = bits 0..30;
so Major < 2^7, Minor < 2^8, Revision < 2^16, Build < 2^31, and
Major * 2^55 + Minor * 2^47 + Revision * 2^31 + Build is `p` with bits 62 and 63 cleared. -/
theorem unpackVersion64_fields (p : Nat) :
    (unpackVersion64 (toSigned 64 p)).Major = p / 2 ^ 55 % 2 ^ 7 ∧
    (unpackVersion64 (toSigned 64 p)).Minor = p / 2 ^ 47 % 2 ^ 8 ∧
    (unpackVersion64 (toSigned 64 p)).Revision = p / 2 ^ 31 % 2 ^ 16 ∧
    (unpackVersion64 (toSigned 64 p)).Build = p % 2 ^ 31 ∧
    (unpackVersion64 (toSigned 64 p)).Major < 2 ^ 7 ∧
    (unpackVersion64 (toSigned 64 p)).Minor < 2 ^ 8 ∧
    (unpackVersion64 (toSigned 64 p)).Revision < 2 ^ 16 ∧
    (unpackVersion64 (toSigned 64 p)).Build < 2 ^ 31 ∧
    (unpackVersion64 (toSigned 64 p)).Major * 2 ^ 55 +
        (unpackVersion64 (toSigned 64 p)).Minor * 2 ^ 47 +
        (unpackVersion64 (toSigned 64 p)).Revision * 2 ^ 31 +
        (unpackVersion64 (toSigned 64 p)).Build = p % 2 ^ 62 := by
  simp only [unpackVersion64, toSigned]
  norm_num
  split_ifs <;> omega

theorem readFull_ok_inv (r : Reader) (n : Nat) (hn : 0 < n) (bs : List Byte) (r1 : Reader)
    (h : readFull r n = (.ok bs, r1)) :
    r.pos + n ≤ r.data.length ∧ bs = (r.data.drop r.pos).take n ∧ r1 = ⟨r.data, r.pos + n⟩ := by
  unfold readFull at h
  rw [if_neg (by omega)] at h
  by_cases h1 : r.data.length ≤ r.pos
  · rw [if_pos h1] at h
    simp at h
  · rw [if_neg h1] at h
    simp only at h
    by_cases h2 : ((r.data.drop r.pos).take n).length < n
    · rw [if_pos h2] at h
      simp at h
    · rw [if_neg h2] at h
      simp only [List.length_take, List.length_drop] at h2
      have hle : r.pos + n ≤ r.data.length := by omega
      have hl : ((r.data.drop r.pos).take n).length = n := by
        simp [List.length_take, List.length_drop]; omega
      rw [hl] at h
      simp only [Prod.mk.injEq, Except.ok.injEq] at h
      exact ⟨hle, h.1.symm, h.2.symm⟩

theorem readNames_gameVersion (r : LSFReader) (data : List Byte) :
    (readNames r data).2.gameVersion = r.gameVersion ∧
    (readNames r data).2.metadata = r.metadata := by
  unfold readNames
  split <;> exact ⟨rfl, rfl⟩

theorem readKeys_gameVersion (r : LSFReader) (data : List Byte)
    (res : Option Fault × LSFReader) (h : readKeys r data = .ok res) :
    res.2.gameVersion = r.gameVersion := by
  unfold readKeys at h
  split at h
  · cases h
  · cases h
    rfl

theorem readSections_gameVersion (c : Codecs) (r : LSFReader) (reader : Reader)
    (s : LSFReader) (rd : Reader) (h : readSections c r reader = (.ok s, rd)) :
    s.gameVersion = r.gameVersion := by
  unfold readSections at h
  cases hmd : r.metadata with
  | none => simp [hmd] at h
  | some md =>
    simp only [hmd] at h
    rcases h1 : decompress c r reader md.StringsSizeOnDisk md.StringsUncompressedSize false
      with ⟨_ | namesData, r1⟩
    · simp [h1] at h
    simp only [h1] at h
    rcases h2 : decompress c (readNames r namesData).2 r1 md.NodesSizeOnDisk
      md.NodesUncompressedSize true with ⟨_ | nodesData, r2⟩
    · simp [h2] at h
    simp only [h2] at h
    rcases h3 : decompress c (readNodes (readNames r namesData).2 nodesData).2 r2
      md.AttributesSizeOnDisk md.AttributesUncompressedSize true with ⟨_ | attrsData, r3⟩
    · simp [h3] at h
    simp only [h3] at h
    rcases h4 : decompress c
      (readAttributesV3 (readNodes (readNames r namesData).2 nodesData).2 attrsData).2 r3
      md.ValuesSizeOnDisk md.ValuesUncompressedSize true with ⟨_ | valuesData, r4⟩
    · simp [h4] at h
    simp only [h4] at h
    have hgv : (readAttributesV3 (readNodes (readNames r namesData).2 nodesData).2
        attrsData).2.gameVersion = r.gameVersion := by
      simp only [readAttributesV3, readNodes]
      exact (readNames_gameVersion r _).1
    by_cases hk : md.MetadataFormat = LSFMetadataKeysAndAdjacency ∧ md.KeysSizeOnDisk > 0
    · rw [if_pos hk] at h
      rcases h5 : decompress c
        { (readAttributesV3 (readNodes (readNames r namesData).2 nodesData).2 attrsData).2 with
          values := valuesData } r4 md.KeysSizeOnDisk md.KeysUncompressedSize true
        with ⟨_ | keysData, r5⟩
      · simp [h5] at h
      simp only [h5] at h
      cases h6 : readKeys
        { (readAttributesV3 (readNodes (readNames r namesData).2 nodesData).2 attrsData).2 with
          values := valuesData } keysData with
      | error e => simp [h6] at h
      | ok res =>
        simp only [h6, Prod.mk.injEq, Except.ok.injEq] at h
        rw [← h.1, readKeys_gameVersion _ _ _ h6]
        exact hgv
    · rw [if_neg hk] at h
      simp only [Prod.mk.injEq, Except.ok.injEq] at h
      rw [← h.1]
      exact hgv

theorem buildNode_Metadata (r : LSFReader) (valueReader : Reader) (fuel : Nat)
    (res : Arena.Resource) (i : Nat) (nd : LSFNodeInfo) (res2 : Arena.Resource)
    (h : buildNode r valueReader fuel res i nd = .ok res2) : res2.Metadata = res.Metadata := by
  unfold buildNode at h
  split at h
  · cases h
  · simp only at h
    split at h
    · cases h
    · rename_i res1 hres1
      split at h
      · cases h
      · cases h
        simp only
        split_ifs at hres1
        · cases hres1
          rfl
        · split at hres1
          · cases hres1
          · split at hres1
            · cases hres1
              rfl
            · cases hres1

theorem buildNodes_Metadata (r : LSFReader) (valueReader : Reader) (fuel : Nat)
    (rest : List LSFNodeInfo) : ∀ (i : Nat) (res res2 : Arena.Resource),
      buildNodes r valueReader fuel rest i res = .ok res2 → res2.Metadata = res.Metadata := by
  induction rest with
  | nil =>
    intro i res res2 h
    simp only [buildNodes] at h
    cases h
    rfl
  | cons nd rest ih =>
    intro i res res2 h
    simp only [buildNodes] at h
    split at h
    · cases h
    · rename_i res1 h1
      rw [ih _ _ _ h, buildNode_Metadata _ _ _ _ _ _ _ h1]

theorem buildResource_Metadata (fuel : Nat) (r : LSFReader) (res : Arena.Resource)
    (h : buildResource fuel r = .ok res) :
    res.Metadata = ⟨0, r.gameVersion.Major, r.gameVersion.Minor, r.gameVersion.Revision,
      r.gameVersion.Build⟩ := by
  unfold buildResource at h
  simp only at h
  split at h
  · cases h
  · rw [buildNodes_Metadata _ _ _ _ _ _ _ h]

theorem readMagic_ok_inv (reader : Reader) (magic : LSFMagic) (r1 : Reader)
    (h : readMagic reader = (.ok magic, r1)) :
    r1 = ⟨reader.data, reader.pos + 8⟩ ∧ magic.Version = field reader.data (reader.pos + 4) 4 := by
  unfold readMagic at h
  rcases hf : readFull reader 8 with ⟨_ | bs, r2⟩
  · simp [hf] at h
  simp only [hf] at h
  obtain ⟨_, hbs, hr2⟩ := readFull_ok_inv _ _ (by decide) _ _ hf
  split_ifs at h with hsig hv
  · simp at h
  · simp at h
  simp only [Prod.mk.injEq, Except.ok.injEq] at h
  rw [← h.1, ← h.2, hr2, hbs]
  refine ⟨rfl, ?_⟩
  simp only [field, List.drop_take, List.drop_drop]

theorem readHeader_ok_inv (r : LSFReader) (reader : Reader) (s : LSFReader) (rd : Reader)
    (h : readHeader r reader = (.ok s, rd)) :
    s.gameVersion =
      (if (unpackVersion64 (toSigned 64 (field reader.data reader.pos 8))).Major = 0
       then ⟨4, 0, 9, 0⟩
       else unpackVersion64 (toSigned 64 (field reader.data reader.pos 8))) := by
  unfold readHeader at h
  rcases hf : readFull reader 8 with ⟨_ | bs, r2⟩
  · simp [hf] at h
  simp only [hf] at h
  obtain ⟨_, hbs, _⟩ := readFull_ok_inv _ _ (by decide) _ _ hf
  rw [hbs] at h
  change (if (unpackVersion64 (toSigned 64 (field reader.data reader.pos 8))).Major = 0 then _
    else _) = _ at h
  split_ifs at h with h0
  · simp only [Prod.mk.injEq, Except.ok.injEq] at h
    rw [← h.1, if_pos h0]
  · simp only [Prod.mk.injEq, Except.ok.injEq] at h
    rw [← h.1, if_neg h0]
    rfl

theorem readMetadata_gameVersion (r : LSFReader) (reader : Reader) (s : LSFReader)
    (rd : Reader) (h : readMetadata r reader = (.ok s, rd)) :
    s.gameVersion = r.gameVersion := by
  unfold readMetadata at h
  rcases hf : readFull reader metadataSize with ⟨_ | bs, r2⟩
  · simp [hf] at h
  simp only [hf, Prod.mk.injEq, Except.ok.injEq] at h
  rw [← h.1]

/-- C17: when `Read` returns a Resource for the input `data`, `readHeader` has read the packed
engine version from bytes 8..15, and the version quadruple of the Resource is (4, 0, 9, 0)
when the unpacked major component is zero and the unpacked (major, minor, revision, build)
otherwise; the major version of the Resource is never 0. -/
theorem engine_version_in_resource (c : Codecs) (fuel : Nat) (data : List Byte)
    (res : Arena.Resource) (h : Read c fuel ⟨data, 0⟩ = .ok res) :
    (∃ s rd, (readHeader { LSFReader.new with version := field data 4 4 } ⟨data, 8⟩) =
        (.ok s, rd) ∧
      s.gameVersion =
        (if (unpackVersion64 (toSigned 64 (field data 8 8))).Major = 0 then ⟨4, 0, 9, 0⟩
         else unpackVersion64 (toSigned 64 (field data 8 8))) ∧
      res.Metadata = ⟨0, s.gameVersion.Major, s.gameVersion.Minor, s.gameVersion.Revision,
        s.gameVersion.Build⟩) ∧
    ((unpackVersion64 (toSigned 64 (field data 8 8))).Major = 0 →
      res.Metadata = ⟨0, 4, 0, 9, 0⟩) ∧
    ((unpackVersion64 (toSigned 64 (field data 8 8))).Major ≠ 0 →
      res.Metadata = ⟨0, (unpackVersion64 (toSigned 64 (field data 8 8))).Major,
        (unpackVersion64 (toSigned 64 (field data 8 8))).Minor,
        (unpackVersion64 (toSigned 64 (field data 8 8))).Revision,
        (unpackVersion64 (toSigned 64 (field data 8 8))).Build⟩) ∧
    res.Metadata.MajorVersion ≠ 0 := by
  unfold Read at h
  rcases hm : readMagic ⟨data, 0⟩ with ⟨_ | magic, r1⟩
  · simp [hm] at h
  simp only [hm] at h
  obtain ⟨hr1, hver⟩ := readMagic_ok_inv _ _ _ hm
  simp only [Nat.zero_add] at hr1 hver
  subst hr1
  rw [hver] at h
  rcases hh : readHeader { LSFReader.new with version := field data 4 4 } ⟨data, 8⟩
    with ⟨_ | s1, r2⟩
  · simp [hh] at h
  simp only [hh] at h
  have hgv1 := readHeader_ok_inv _ _ _ _ hh
  simp only at hgv1
  rcases hmeta : readMetadata s1 r2 with ⟨_ | s2, r3⟩
  · simp [hmeta] at h
  simp only [hmeta] at h
  have hgv2 := readMetadata_gameVersion _ _ _ _ hmeta
  rcases hsec : readSections c s2 r3 with ⟨_ | s3, r4⟩
  · simp [hsec] at h
  simp only [hsec] at h
  have hgv3 := readSections_gameVersion _ _ _ _ _ hsec
  have hmd := buildResource_Metadata _ _ _ h
  rw [hgv3, hgv2] at hmd
  refine ⟨⟨s1, r2, rfl, hgv1, hmd⟩, ?_, ?_, ?_⟩
  · intro h0
    rw [hmd, hgv1, if_pos h0]
  · intro h0
    rw [hmd, hgv1, if_neg h0]
  · rw [hmd, hgv1]
    simp only
    split_ifs with h0
    · decide
    · exact h0

/-- C17, witness: the file whose engine version word packs 4.0.9.330. -/
theorem engine_version_in_resource_witness :
    Read noCodecs 0 ⟨versionedFile, 0⟩ =
      .ok ⟨⟨0, 4, 0, 9, 330⟩, [(lit "Root", ⟨0, lit "Root"⟩)],
        [some ⟨lit "Root", none, [], [], []⟩]⟩ ∧
    (⟨0, 4, 0, 9, 330⟩ : LSMetadata).MajorVersion ≠ 0 :=
  ⟨rfl, (engine_version_in_resource noCodecs 0 versionedFile
    ⟨⟨0, 4, 0, 9, 330⟩, [(lit "Root", ⟨0, lit "Root"⟩)], [some ⟨lit "Root", none, [], [], []⟩]⟩
    rfl).2.2.2⟩

/-- C13, the code at the failing inputs: a node table, an attribute table and a key table that
end one byte into a record.  The table reader returns `io.ErrUnexpectedEOF` each time, yet
`Read` succeeds on the file and yields the Resource built from the records read so far. -/
theorem truncated_tables_are_converted :
    (readNodes LSFReader.new
      (nodeRecord 0 0xffffffff 0xffffffff 0xffffffff ++ [0])).1 = some .unexpectedEOF ∧
    (∀ (c : Codecs) (fuel : Nat), Read c fuel ⟨truncatedNodeTableFile, 0⟩ =
      .ok ⟨⟨0, 4, 0, 9, 0⟩, [(lit "Root", ⟨0, lit "Root"⟩)],
        [some ⟨lit "Root", none, [], [], []⟩]⟩) ∧
    (readAttributesV3 LSFReader.new
      (attributeRecord 0 (1 * 64 + AttrByte) 0xffffffff 0 ++ [0])).1 = some .unexpectedEOF ∧
    (∀ (c : Codecs) (fuel : Nat), Read c (fuel + 1) ⟨truncatedAttributeTableFile, 0⟩ =
      .ok ⟨⟨0, 4, 0, 9, 0⟩, [(lit "Root", ⟨0, lit "Root"⟩)],
        [some ⟨lit "Root", none, [(lit "Root", ⟨AttrByte, .uint8 7⟩)], [], []⟩]⟩) ∧
    (readKeys { LSFReader.new with names := [[lit "Root"]] } (keyRecord 0 0 ++ [0])).map
      Prod.fst = .ok (some .unexpectedEOF) ∧
    (∀ (c : Codecs) (fuel : Nat), Read c fuel ⟨truncatedKeyTableFile, 0⟩ =
      .ok ⟨⟨0, 4, 0, 9, 0⟩, [(lit "Root", ⟨0, lit "Root"⟩)],
        [some ⟨lit "Root", none, [], [], lit "Root"⟩]⟩) := by
  refine ⟨rfl, fun c fuel => ?_, rfl, fun c fuel => ?_, rfl, fun c fuel => ?_⟩
  · cases fuel <;> rfl
  · cases fuel <;> rfl
  · cases fuel <;> rfl

theorem Read_length (r : Reader) (n : Nat) : (r.Read n).1.1.length = n := by
  unfold Reader.Read
  split_ifs
  · simp
  · simp only [List.length_append, List.length_replicate, List.length_take, List.length_drop]
    omega

theorem ReadFile_length (r : Reader) (n : Nat) : (r.ReadFile n).1.1.length = n := by
  unfold Reader.ReadFile
  split_ifs with h
  · simp [h]
  · exact Read_length r n

theorem readFullStream_length (s : List Byte × Fault) (n : Nat) :
    (readFullStream s n).1.length = n := by
  unfold readFullStream
  by_cases h1 : n = 0
  · simp [h1]
  · rw [if_neg h1]
    by_cases h2 : n ≤ s.1.length
    · simp [h2]
    · rw [if_neg h2]
      simp only [List.length_append, List.length_replicate]
      omega

theorem decompressData_length (c : Codecs) (compressed : List Byte) (n flags : Nat)
    (chunked : Bool) (bs : List Byte)
    (hraw : CompressionFlags.Method flags = CompressionNone → compressed.length = n)
    (h : decompressData c compressed n flags chunked = .ok bs) : bs.length = n := by
  unfold decompressData at h
  simp only at h
  split_ifs at h with h0 h1 h2 hc h3
  · simp only [Except.ok.injEq] at h
    rw [← h]
    exact hraw h0
  · rcases hz : c.zlibNewReader compressed with e | s
    · simp [hz] at h
    · simp only [hz] at h
      have hl := readFullStream_length s n
      rcases hs : readFullStream s n with ⟨d, _ | e⟩
      · simp only [hs, Except.ok.injEq] at h
        rw [hs] at hl
        rw [← h]
        exact hl
      · simp only [hs] at h
        rw [hs] at hl
        split_ifs at h
        simp only [Except.ok.injEq] at h
        rw [← h]
        exact hl
  · have hl := readFullStream_length (c.lz4NewReader compressed) n
    rcases hs : readFullStream (c.lz4NewReader compressed) n with ⟨d, _ | e⟩
    · simp only [hs, Except.ok.injEq] at h
      rw [hs] at hl
      rw [← h]
      exact hl
    · simp only [hs] at h
      rw [hs] at hl
      split_ifs at h
      simp only [Except.ok.injEq] at h
      rw [← h]
      exact hl
  · rcases hz : c.lz4UncompressBlock compressed n with e | w
    · simp [hz] at h
    · simp only [hz] at h
      split_ifs at h with hw
      simp only [Except.ok.injEq] at h
      rw [← h]
      exact not_not.mp hw
  · rcases hz : c.zstdDecompress compressed with e | w
    · simp [hz] at h
    · simp only [hz] at h
      split_ifs at h with hw
      simp only [Except.ok.injEq] at h
      rw [← h]
      exact not_not.mp hw

theorem decompress_length (c : Codecs) (r : LSFReader) (reader : Reader)
    (sizeOnDisk uncompressedSize : Nat) (allowChunked : Bool) (bs : List Byte)
    (h : (decompress c r reader sizeOnDisk uncompressedSize allowChunked).1 = .ok bs) :
    bs.length = uncompressedSize := by
  unfold decompress at h
  split_ifs at h with h1 h2
  · have hl := ReadFile_length reader uncompressedSize
    rcases hr : reader.ReadFile uncompressedSize with ⟨⟨buf, _ | e⟩, r1⟩
    · simp only [hr, Except.ok.injEq] at h
      rw [hr] at hl
      rw [← h]
      exact hl
    · simp [hr] at h
  · simp only [Except.ok.injEq] at h
    rw [← h, h2.2]
    rfl
  · rcases hm : r.metadata with _ | md
    · simp [hm] at h
    · simp only [hm] at h
      split at h
      · simp at h
      · rename_i compressed r1 hr
        have hl := congrArg (fun x => x.1.1.length) hr
        simp only [ReadFile_length] at hl
        refine decompressData_length c compressed uncompressedSize md.CompressionFlags
          allowChunked bs (fun h0 => ?_) h
        rw [← hl]
        simp [h0]

/-- C11: for every codec behaviour, reader state (so every compression-flags byte, or no
metadata at all), input stream, section descriptor and chunked flag, `decompress` returns an
error or a byte sequence whose length is exactly the declared uncompressed size. -/
theorem decompress_returns_declared_size (c : Codecs) (r : LSFReader) (reader : Reader)
    (sizeOnDisk uncompressedSize : Nat) (allowChunked : Bool) :
    (∃ e, (decompress c r reader sizeOnDisk uncompressedSize allowChunked).1 = .error e) ∨
    (∃ bs, (decompress c r reader sizeOnDisk uncompressedSize allowChunked).1 = .ok bs ∧
      bs.length = uncompressedSize) := by
  rcases h : (decompress c r reader sizeOnDisk uncompressedSize allowChunked).1 with e | bs
  · exact Or.inl ⟨e, rfl⟩
  · exact Or.inr ⟨bs, rfl, decompress_length c r reader sizeOnDisk uncompressedSize
      allowChunked bs h⟩

/-- C12, the code at the failing input: with two bytes left in the input, a raw-stored
section declaring four bytes, and a method-none section declaring four bytes, are returned
without error as the two bytes followed by two zero bytes; a compressed section of on-disk
size four hands the zero-padded buffer to the codec.  In general a raw-stored section that
declares more bytes than remain, at least one remaining, is returned zero-padded.  End to
end: the file whose value section is the `uint16` 263 (`07 01`) converts to that value, and
the same file without its last byte converts without error to the value 7. -/
theorem decompress_zero_pads_short_input :
    (∀ (c : Codecs) (r : LSFReader) (chunked : Bool),
      decompress c r ⟨[1, 2], 0⟩ 0 4 chunked = (.ok [1, 2, 0, 0], ⟨[1, 2], 2⟩)) ∧
    (∀ (c : Codecs) (chunked : Bool),
      decompress c { LSFReader.new with metadata := some (decodeMetadata []) } ⟨[1, 2], 0⟩ 4 4
        chunked = (.ok [1, 2, 0, 0], ⟨[1, 2], 2⟩)) ∧
    (∀ (c : Codecs) (chunked : Bool),
      decompress c
          { LSFReader.new with
            metadata := some { decodeMetadata [] with CompressionFlags := CompressionZstd } }
          ⟨[1, 2], 0⟩ 4 9 chunked =
        (decompressData c [1, 2, 0, 0] 9 CompressionZstd chunked, ⟨[1, 2], 2⟩)) ∧
    (∀ (c : Codecs) (r : LSFReader) (reader : Reader) (n : Nat) (chunked : Bool),
      reader.pos < reader.data.length → reader.data.length < reader.pos + n →
      decompress c r reader 0 n chunked =
        (.ok (reader.data.drop reader.pos ++
            List.replicate (n - (reader.data.length - reader.pos)) 0),
          ⟨reader.data, reader.data.length⟩)) ∧
    (∀ (c : Codecs) (fuel : Nat), Read c (fuel + 1) ⟨twoByteValueFile, 0⟩ =
      .ok ⟨⟨0, 4, 0, 9, 0⟩, [(lit "Root", ⟨0, lit "Root"⟩)],
        [some ⟨lit "Root", none, [(lit "Root", ⟨AttrUShort, .uint16 263⟩)], [], []⟩]⟩) ∧
    (∀ (c : Codecs) (fuel : Nat), Read c (fuel + 1) ⟨twoByteValueFile.dropLast, 0⟩ =
      .ok ⟨⟨0, 4, 0, 9, 0⟩, [(lit "Root", ⟨0, lit "Root"⟩)],
        [some ⟨lit "Root", none, [(lit "Root", ⟨AttrUShort, .uint16 7⟩)], [], []⟩]⟩) := by
  refine ⟨fun c r chunked => rfl, fun c chunked => rfl, fun c chunked => rfl, ?_,
    fun c fuel => by cases fuel <;> rfl, fun c fuel => by cases fuel <;> rfl⟩
  intro c r reader n chunked h1 h2
  have hn : n ≠ 0 := by omega
  have htake : List.take n (List.drop reader.pos reader.data) =
      List.drop reader.pos reader.data :=
    List.take_of_length_le (by rw [List.length_drop]; omega)
  unfold decompress
  rw [if_pos ⟨rfl, hn⟩]
  unfold Reader.ReadFile
  rw [if_neg hn]
  unfold Reader.Read
  rw [if_neg (by omega)]
  simp only [htake, List.length_drop]
  congr 2
  omega

/-- C18, the code at the failing input: the name table with one bucket holding the empty
string serializes to `01 00 00 00 01 00 00 00`; on it `readNames` returns `io.EOF` and leaves
bucket 0 empty, so `names[0][0]` does not exist.  The same table followed by one more byte
is read without error. -/
theorem readNames_fails_on_trailing_empty_string :
    (readNames LSFReader.new (leBytes 4 1 ++ leBytes 2 1 ++ leBytes 2 0)).1 = some .eof ∧
    (readNames LSFReader.new (leBytes 4 1 ++ leBytes 2 1 ++ leBytes 2 0)).2.names = [[]] ∧
    lookupName (readNames LSFReader.new (leBytes 4 1 ++ leBytes 2 1 ++ leBytes 2 0)).2.names
      0 0 = .error .indexOutOfRange ∧
    (readNames LSFReader.new (leBytes 4 1 ++ leBytes 2 1 ++ leBytes 2 0 ++ [0])).1 = none ∧
    (readNames LSFReader.new (leBytes 4 1 ++ leBytes 2 1 ++ leBytes 2 0 ++ [0])).2.names =
      [[[]]] := by
  refine ⟨rfl, rfl, rfl, rfl, rfl⟩

theorem Read_eq_readTables (c : Codecs) (fuel : Nat) (stream : Reader) :
    Read c fuel stream = (readTables c stream).bind (buildResource fuel) := by
  unfold Read readTables
  rcases readMagic stream with ⟨_ | magic, r1⟩
  · rfl
  simp only
  rcases readHeader { LSFReader.new with version := magic.Version } r1 with ⟨_ | s1, r2⟩
  · rfl
  simp only
  rcases readMetadata s1 r2 with ⟨_ | s2, r3⟩
  · rfl
  simp only
  rcases readSections c s2 r3 with ⟨_ | s3, r4⟩
  · rfl
  rfl

theorem lookupName_error (names : List (List GoString)) (i j : Nat) (e : Fault)
    (h : lookupName names i j = .error e) : e = .indexOutOfRange := by
  unfold lookupName at h
  rcases h1 : names[i]? with _ | bucket
  · simp only [h1, Except.error.injEq] at h
    exact h.symm
  · simp only [h1] at h
    rcases h2 : bucket[j]? with _ | name
    · simp only [h2, Except.error.injEq] at h
      exact h.symm
    · simp [h2] at h

theorem readString_abort (reader : Reader) (length : Int) (e : Fault)
    (h : readString reader length = .error e) : e.isAbort := by
  unfold readString at h
  split_ifs at h
  · simp only [Except.error.injEq] at h
    rw [← h]
    exact Or.inl rfl

theorem readTranslatedFSStringArgs_abort
    (nested : Reader → Except Fault (TranslatedFSString × Reader))
    (hn : ∀ rd e, nested rd = .error e → e.isAbort) :
    ∀ (count : Nat) (reader : Reader) (args : List TranslatedFSStringArgument) (e : Fault),
      readTranslatedFSStringArgs nested count reader args = .error e → e.isAbort := by
  intro count
  induction count with
  | zero =>
    intro reader args e h
    simp [readTranslatedFSStringArgs] at h
  | succ count ih =>
    intro reader args e h
    unfold readTranslatedFSStringArgs at h
    simp only at h
    rcases h1 : readString (readInt32 reader).2 (readInt32 reader).1.1 with e1 | ⟨key, r1⟩
    · simp only [h1, Except.error.injEq] at h
      rw [← h]
      exact readString_abort _ _ _ h1
    simp only [h1] at h
    rcases h2 : nested r1 with e2 | ⟨str, r2⟩
    · simp only [h2, Except.error.injEq] at h
      rw [← h]
      exact hn _ _ h2
    simp only [h2] at h
    rcases h3 : readString (readInt32 r2).2 (readInt32 r2).1.1 with e3 | ⟨value, r3⟩
    · simp only [h3, Except.error.injEq] at h
      rw [← h]
      exact readString_abort _ _ _ h3
    simp only [h3] at h
    exact ih _ _ _ h

theorem readTranslatedFSString_abort :
    ∀ (fuel : Nat) (reader : Reader) (e : Fault),
      readTranslatedFSString fuel reader = .error e → e.isAbort := by
  intro fuel
  induction fuel with
  | zero =>
    intro reader e h
    simp only [readTranslatedFSString, Except.error.injEq] at h
    rw [← h]
    exact Or.inr rfl
  | succ fuel ih =>
    intro reader e h
    unfold readTranslatedFSString at h
    simp only at h
    rcases h1 : readString (readInt32 (readUint16 reader).2).2
        (readInt32 (readUint16 reader).2).1.1 with e1 | ⟨handle, r1⟩
    · simp only [h1, Except.error.injEq] at h
      rw [← h]
      exact readString_abort _ _ _ h1
    simp only [h1] at h
    split_ifs at h with hneg
    · simp only [Except.error.injEq] at h
      rw [← h]
      exact Or.inl rfl
    · rcases h2 : readTranslatedFSStringArgs (readTranslatedFSString fuel)
          (readInt32 r1).1.1.toNat (readInt32 r1).2 [] with e2 | ⟨args, r2⟩
      · simp only [h2, Except.error.injEq] at h
        rw [← h]
        exact readTranslatedFSStringArgs_abort _ ih _ _ _ _ h2
      · simp [h2] at h

theorem readAttribute_abort (depth attrType : Nat) (reader : Reader) (length : Nat) (e : Fault)
    (h : readAttribute depth attrType reader length = .error e) : e.isAbort := by
  unfold readAttribute at h
  split_ifs at h
  · rcases h1 : readString reader (length : Int) with e1 | ⟨v, r1⟩
    · simp only [h1, Except.error.injEq] at h
      rw [← h]
      exact readString_abort _ _ _ h1
    · simp [h1] at h
  · simp only at h
    rcases h1 : readString (readInt32 (readUint16 reader).2).2
        (readInt32 (readUint16 reader).2).1.1 with e1 | ⟨v, r1⟩
    · simp only [h1, Except.error.injEq] at h
      rw [← h]
      exact readString_abort _ _ _ h1
    · simp [h1] at h
  · rcases h1 : readTranslatedFSString depth reader with e1 | ⟨v, r1⟩
    · simp only [h1, Except.error.injEq] at h
      rw [← h]
      exact readTranslatedFSString_abort _ _ _ h1
    · simp [h1] at h

theorem readNodeAttributes_abort (r : LSFReader) (valueReader : Reader) (depth : Nat) :
    ∀ (fuel : Nat) (attrIdx : Int) (attrs : GoMap NodeAttribute) (e : Fault),
      readNodeAttributes r valueReader depth fuel attrIdx attrs = .error e → e.isAbort := by
  intro fuel
  induction fuel with
  | zero =>
    intro attrIdx attrs e h
    unfold readNodeAttributes at h
    split_ifs at h
    simp only [Except.error.injEq] at h
    rw [← h]
    exact Or.inr rfl
  | succ fuel ih =>
    intro attrIdx attrs e h
    unfold readNodeAttributes at h
    split_ifs at h
    rcases h1 : indexInt r.attributes attrIdx with _ | a
    · simp only [h1, Except.error.injEq] at h
      rw [← h]
      exact Or.inl rfl
    simp only [h1] at h
    rcases h2 : lookupName r.names a.NameIndex a.NameOffset with e2 | name
    · simp only [h2, Except.error.injEq] at h
      rw [← h, lookupName_error _ _ _ _ h2]
      exact Or.inl rfl
    simp only [h2] at h
    rcases h3 : readAttribute depth a.TypeId (valueReader.Seek a.DataOffset) a.Length
      with e3 | ⟨v, r3⟩
    · simp only [h3, Except.error.injEq] at h
      rw [← h]
      exact readAttribute_abort _ _ _ _ _ h3
    simp only [h3] at h
    exact ih _ _ _ h

theorem setAttributes_length (mem : List (Option Arena.Node)) (i : Nat)
    (attrs : GoMap NodeAttribute) : (setAttributes mem i attrs).length = mem.length := by
  unfold setAttributes
  split <;> simp

theorem indexInt_some_nonneg {α : Type} (xs : List α) (i : Int) (a : α)
    (h : indexInt xs i = some a) : 0 ≤ i ∧ i.toNat < xs.length := by
  unfold indexInt at h
  split_ifs at h with hneg
  refine ⟨by omega, ?_⟩
  exact (List.getElem?_eq_some_iff.mp h).1

theorem buildNode_ok_inv (r : LSFReader) (valueReader : Reader) (fuel : Nat)
    (res : Arena.Resource) (i : Nat) (nd : LSFNodeInfo) (res2 : Arena.Resource)
    (h : buildNode r valueReader fuel res i nd = .ok res2) :
    (∃ name, lookupName r.names nd.NameIndex nd.NameOffset = .ok name) ∧
    (nd.ParentIndex = -1 ∨ ∃ p, indexInt res.nodeInstances nd.ParentIndex = some p) ∧
    (∃ attrs, readNodeAttributes r valueReader fuel fuel nd.FirstAttributeIndex [] =
      .ok attrs) ∧
    res2.nodeInstances.length = res.nodeInstances.length := by
  unfold buildNode at h
  split at h
  · cases h
  · rename_i name hname
    simp only at h
    split at h
    · cases h
    · rename_i res1 hres1
      split at h
      · cases h
      · rename_i attrs hattrs
        cases h
        refine ⟨⟨name, hname⟩, ?_, ⟨attrs, hattrs⟩, ?_⟩
        · split_ifs at hres1 with hp
          · exact Or.inl hp
          · split at hres1
            · cases hres1
            · rename_i parent hparent
              exact Or.inr ⟨parent, hparent⟩
        · simp only [setAttributes_length]
          split_ifs at hres1 with hp
          · cases hres1
            simp
          · split at hres1
            · cases hres1
            · split at hres1
              · cases hres1
                simp
              · cases hres1

theorem buildNode_abort (r : LSFReader) (valueReader : Reader) (fuel : Nat)
    (res : Arena.Resource) (i : Nat) (nd : LSFNodeInfo) (e : Fault)
    (h : buildNode r valueReader fuel res i nd = .error e) : e.isAbort := by
  unfold buildNode at h
  split at h
  · rename_i e1 hname
    cases h
    rw [lookupName_error _ _ _ _ hname]
    exact Or.inl rfl
  · simp only at h
    split at h
    · rename_i e1 hres1
      cases h
      split_ifs at hres1 with hp
      · split at hres1
        · cases hres1
          exact Or.inl rfl
        · split at hres1
          · cases hres1
          · cases hres1
            exact Or.inl rfl
    · split at h
      · rename_i e1 hattrs
        cases h
        exact readNodeAttributes_abort _ _ _ _ _ _ _ hattrs
      · cases h

theorem buildNodes_abort (r : LSFReader) (valueReader : Reader) (fuel : Nat)
    (rest : List LSFNodeInfo) : ∀ (i : Nat) (res : Arena.Resource) (e : Fault),
      buildNodes r valueReader fuel rest i res = .error e → e.isAbort := by
  induction rest with
  | nil =>
    intro i res e h
    simp [buildNodes] at h
  | cons nd rest ih =>
    intro i res e h
    simp only [buildNodes] at h
    split at h
    · rename_i e1 h1
      cases h
      exact buildNode_abort _ _ _ _ _ _ _ h1
    · exact ih _ _ _ h

theorem buildResource_abort (fuel : Nat) (r : LSFReader) (e : Fault)
    (h : buildResource fuel r = .error e) : e.isAbort := by
  unfold buildResource at h
  simp only at h
  split at h
  · cases h
    exact Or.inl rfl
  · exact buildNodes_abort _ _ _ _ _ _ _ h

theorem readNodeAttributes_dangles (r : LSFReader) (valueReader : Reader) (depth : Nat)
    (idx : Int) (hd : ChainDangles r idx) :
    ∀ (fuel : Nat) (attrs : GoMap NodeAttribute),
      ∃ e, readNodeAttributes r valueReader depth fuel idx attrs = .error e := by
  induction hd with
  | index idx hne hnone =>
    intro fuel attrs
    cases fuel with
    | zero => exact ⟨.outOfFuel, by simp [readNodeAttributes, hne]⟩
    | succ fuel => exact ⟨.indexOutOfRange, by simp [readNodeAttributes, hne, hnone]⟩
  | name idx a hsome hname =>
    intro fuel attrs
    have hne : idx ≠ -1 := by
      have := (indexInt_some_nonneg _ _ _ hsome).1
      omega
    cases fuel with
    | zero => exact ⟨.outOfFuel, by simp [readNodeAttributes, hne]⟩
    | succ fuel =>
      exact ⟨.indexOutOfRange, by simp [readNodeAttributes, hne, hsome, hname]⟩
  | next idx a hsome _ ih =>
    intro fuel attrs
    have hne : idx ≠ -1 := by
      have := (indexInt_some_nonneg _ _ _ hsome).1
      omega
    cases fuel with
    | zero => exact ⟨.outOfFuel, by simp [readNodeAttributes, hne]⟩
    | succ fuel =>
      unfold readNodeAttributes
      rw [if_neg hne]
      simp only [hsome]
      rcases h2 : lookupName r.names a.NameIndex a.NameOffset with e2 | name
      · exact ⟨e2, rfl⟩
      simp only
      rcases h3 : readAttribute depth a.TypeId (valueReader.Seek a.DataOffset) a.Length
        with e3 | ⟨v, r3⟩
      · exact ⟨e3, rfl⟩
      simp only
      exact ih fuel _

theorem buildNode_dangles (r : LSFReader) (valueReader : Reader) (fuel : Nat)
    (res : Arena.Resource) (i : Nat) (nd : LSFNodeInfo) (hd : NodeDangles r nd)
    (hlen : res.nodeInstances.length = r.nodes.length) (res2 : Arena.Resource) :
    buildNode r valueReader fuel res i nd ≠ .ok res2 := by
  intro h
  obtain ⟨⟨name, hname⟩, hparent, ⟨attrs, hattrs⟩, _⟩ := buildNode_ok_inv _ _ _ _ _ _ _ h
  rcases hd with hd | ⟨hne, hrange⟩ | hd
  · rw [hd] at hname
    cases hname
  · rcases hparent with hp | ⟨p, hp⟩
    · exact hne hp
    · have := indexInt_some_nonneg _ _ _ hp
      rw [hlen] at this
      omega
  · obtain ⟨e, he⟩ := readNodeAttributes_dangles r valueReader fuel _ hd fuel []
    rw [he] at hattrs
    cases hattrs

theorem buildNodes_dangles (r : LSFReader) (valueReader : Reader) (fuel : Nat)
    (rest : List LSFNodeInfo) : ∀ (i : Nat) (res : Arena.Resource),
      (∃ nd ∈ rest, NodeDangles r nd) → res.nodeInstances.length = r.nodes.length →
      ∀ res2, buildNodes r valueReader fuel rest i res ≠ .ok res2 := by
  induction rest with
  | nil =>
    intro i res hex
    obtain ⟨nd, hmem, _⟩ := hex
    cases hmem
  | cons nd rest ih =>
    intro i res hex hlen res2 h
    simp only [buildNodes] at h
    split at h
    · cases h
    · rename_i res1 h1
      obtain ⟨nd2, hmem, hd⟩ := hex
      rcases List.mem_cons.mp hmem with heq | hin
      · subst heq
        exact buildNode_dangles _ _ _ _ _ _ hd hlen _ h1
      · have hl1 := (buildNode_ok_inv _ _ _ _ _ _ _ h1).2.2.2
        exact ih _ _ ⟨nd2, hin, hd⟩ (hl1.trans hlen) _ h

theorem buildResource_dangles (fuel : Nat) (r : LSFReader) (nd : LSFNodeInfo)
    (hmem : nd ∈ r.nodes) (hd : NodeDangles r nd) :
    ∃ e, buildResource fuel r = .error e ∧ e.isAbort := by
  rcases h : buildResource fuel r with e | res
  · exact ⟨e, rfl, buildResource_abort _ _ _ h⟩
  · exfalso
    unfold buildResource at h
    simp only at h
    split at h
    · cases h
    · exact buildNodes_dangles _ _ _ _ _ _ ⟨nd, hmem, hd⟩ (by simp) _ h

theorem setKeyAttribute_skip (nodes : List LSFNodeInfo) (nodeIdx : Nat) (key : GoString)
    (h : nodes.length ≤ nodeIdx) : setKeyAttribute nodes nodeIdx key = nodes := by
  unfold setKeyAttribute
  rw [if_neg (by omega)]

/-- C14, counterexample: a key record whose node index (7) is outside the one-record node
table, and an attribute record on no chain whose name reference is outside the name table,
are ignored: `Read` succeeds on both files with the Resource of the region "Root". -/
theorem dangling_key_index_is_ignored :
    (decodeKeyEntry (keyRecord 7 0)).NodeIndex = 7 ∧
    (∀ (c : Codecs) (fuel : Nat), Read c fuel ⟨danglingKeyFile, 0⟩ =
      .ok ⟨⟨0, 4, 0, 9, 0⟩, [(lit "Root", ⟨0, lit "Root"⟩)],
        [some ⟨lit "Root", none, [], [], []⟩]⟩) ∧
    lookupName [[lit "Root"]] 9 9 = .error .indexOutOfRange ∧
    (∀ (c : Codecs) (fuel : Nat), Read c fuel ⟨danglingUnusedAttributeFile, 0⟩ =
      .ok ⟨⟨0, 4, 0, 9, 0⟩, [(lit "Root", ⟨0, lit "Root"⟩)],
        [some ⟨lit "Root", none, [], [], []⟩]⟩) := by
  refine ⟨rfl, fun c fuel => ?_, rfl, fun c fuel => ?_⟩
  · cases fuel <;> rfl
  · cases fuel <;> rfl

/-- C14, amended: when the tables loaded from the input hold a node record whose name
reference is outside the name table, whose parent index is neither -1 nor an index of the
node table, or whose attribute chain meets an index outside the attribute table or an entry
with a name reference outside the name table, `Read` yields no Resource for any fuel: it
aborts with a run-time panic (or never leaves an attribute loop), not with a returned error.
A key record whose name reference is outside the name table panics with index out of range;
a key record whose node index is outside the node table is skipped and `readKeys` goes on
without error, the node table unchanged. -/
theorem dangling_references_abort_or_are_skipped (c : Codecs) (stream : Reader)
    (s : LSFReader) (nodeInfo : LSFNodeInfo) (hs : readTables c stream = .ok s)
    (hmem : nodeInfo ∈ s.nodes) (hd : NodeDangles s nodeInfo) :
    (∀ fuel, ∃ e, Read c fuel stream = .error e ∧ e.isAbort) ∧
    (∀ (r : LSFReader) (data : List Byte), data.length = 8 →
      lookupName r.names (field data 4 4 >>> 16) (field data 4 4 &&& 0xffff) =
        .error .indexOutOfRange →
      readKeys r data = .error .indexOutOfRange) ∧
    (∀ (r : LSFReader) (data : List Byte) (key : GoString), data.length = 8 →
      lookupName r.names (field data 4 4 >>> 16) (field data 4 4 &&& 0xffff) = .ok key →
      r.nodes.length ≤ field data 0 4 →
      readKeys r data = .ok (none, r)) ∧
    (∀ (nodes : List LSFNodeInfo) (nodeIdx : Nat) (key : GoString),
      nodes.length ≤ nodeIdx → setKeyAttribute nodes nodeIdx key = nodes) := by
  refine ⟨fun fuel => ?_, fun r data hlen hname => ?_, fun r data key hlen hname hidx => ?_,
    setKeyAttribute_skip⟩
  · rw [Read_eq_readTables, hs]
    exact buildResource_dangles fuel s nodeInfo hmem hd
  · rw [readKeys_one r data hlen, hname]
  · rw [readKeys_one r data hlen, hname]
    simp only [setKeyAttribute_skip _ _ _ hidx]

/-- C14, witness: the file whose only node record names node 5 as its parent. -/
theorem dangling_references_abort_or_are_skipped_witness :
    NodeDangles danglingParentTables
      { ParentIndex := 5, NameIndex := 0, NameOffset := 0, FirstAttributeIndex := -1,
        KeyAttribute := [] } ∧
    ∀ fuel, ∃ e, Read noCodecs fuel ⟨danglingParentFile, 0⟩ = .error e ∧ e.isAbort :=
  ⟨Or.inr (Or.inl ⟨by decide, Or.inr (by decide)⟩),
   (dangling_references_abort_or_are_skipped noCodecs ⟨danglingParentFile, 0⟩
      danglingParentTables
      { ParentIndex := 5, NameIndex := 0, NameOffset := 0, FirstAttributeIndex := -1,
        KeyAttribute := [] }
      rfl (List.mem_singleton.mpr rfl)
      (Or.inr (Or.inl ⟨by decide, Or.inr (by decide)⟩))).1⟩

theorem Reader.After.refl (r : Reader) : r.After r := ⟨rfl, Nat.le_refl _⟩

theorem Reader.After.trans {r1 r2 r3 : Reader} (h1 : r1.After r2) (h2 : r2.After r3) :
    r1.After r3 := ⟨h2.1.trans h1.1, Nat.le_trans h1.2 h2.2⟩

theorem Reader.After.Len_le {r1 r2 : Reader} (h : r1.After r2) : r2.Len ≤ r1.Len := by
  unfold Reader.Len
  rw [h.1]
  have := h.2
  omega

theorem readFull_after (r : Reader) (n : Nat) : r.After (readFull r n).2 := by
  unfold readFull
  by_cases h0 : n = 0
  · rw [if_pos h0]
    exact Reader.After.refl r
  · rw [if_neg h0]
    by_cases h1 : r.data.length ≤ r.pos
    · rw [if_pos h1]
      exact Reader.After.refl r
    · rw [if_neg h1]
      simp only
      split_ifs <;> exact ⟨rfl, Nat.le_add_right _ _⟩

theorem Read_after (r : Reader) (n : Nat) : r.After (r.Read n).2 := by
  unfold Reader.Read
  split_ifs
  · exact Reader.After.refl r
  · exact ⟨rfl, Nat.le_add_right _ _⟩

theorem readUint_after (n : Nat) (r : Reader) : r.After (readUint n r).2 := by
  have := readFull_after r n
  unfold readUint
  rcases h : readFull r n with ⟨_ | bs, r1⟩ <;> rw [h] at this <;> exact this

theorem readInt_after (n : Nat) (r : Reader) : r.After (readInt n r).2 := by
  have := readFull_after r n
  unfold readInt
  rcases h : readFull r n with ⟨_ | bs, r1⟩ <;> rw [h] at this <;> exact this

theorem readInt_consumed (n : Nat) (hn : 0 < n) (r : Reader) (h : (readInt n r).1.1 ≠ 0) :
    (readInt n r).2.Len + n ≤ r.Len := by
  unfold readInt at h ⊢
  rcases hf : readFull r n with ⟨_ | bs, r1⟩
  · simp [hf] at h
  · obtain ⟨hle, _, hr1⟩ := readFull_ok_inv r n hn bs r1 hf
    simp only [hr1, Reader.Len]
    omega

theorem readString_returned (reader : Reader) (length : Int) :
    Returned reader (readString reader length) := by
  unfold readString
  split_ifs
  · exact Reader.After.refl reader
  · intro h
    cases h
  · exact (Read_after _ _).trans (Read_after _ _)

theorem readTranslatedFSStringArgs_returned (fuel : Nat)
    (nested : Reader → Except Fault (TranslatedFSString × Reader))
    (hn : ∀ rd : Reader, rd.Len < fuel → Returned rd (nested rd)) :
    ∀ (count : Nat) (reader : Reader) (args : List TranslatedFSStringArgument),
      reader.Len < fuel →
      Returned reader (readTranslatedFSStringArgs nested count reader args) := by
  intro count
  induction count with
  | zero =>
    intro reader args _
    exact Reader.After.refl reader
  | succ count ih =>
    intro reader args hlen
    unfold readTranslatedFSStringArgs
    simp only
    have a0 := readInt_after 4 reader
    have s1 := readString_returned (readInt32 reader).2 (readInt32 reader).1.1
    rcases h1 : readString (readInt32 reader).2 (readInt32 reader).1.1 with e1 | ⟨key, r1⟩
    · rw [h1] at s1
      exact s1
    rw [h1] at s1
    have a1 : reader.After r1 := a0.trans s1
    simp only
    have s2 := hn r1 (Nat.lt_of_le_of_lt a1.Len_le hlen)
    rcases h2 : nested r1 with e2 | ⟨str, r2⟩
    · rw [h2] at s2
      exact s2
    rw [h2] at s2
    have a2 : reader.After r2 := a1.trans s2
    simp only
    have s3 := readString_returned (readInt32 r2).2 (readInt32 r2).1.1
    rcases h3 : readString (readInt32 r2).2 (readInt32 r2).1.1 with e3 | ⟨value, r3⟩
    · rw [h3] at s3
      exact s3
    rw [h3] at s3
    have a3 : reader.After r3 := (a2.trans (readInt_after 4 r2)).trans s3
    simp only
    have s4 := ih r3 (args ++ [.mk key value str]) (Nat.lt_of_le_of_lt a3.Len_le hlen)
    rcases h4 : readTranslatedFSStringArgs nested count r3 (args ++ [.mk key value str])
      with e4 | ⟨res, r4⟩
    · rw [h4] at s4 ⊢
      exact s4
    · rw [h4] at s4 ⊢
      exact a3.trans s4

theorem readTranslatedFSString_returned :
    ∀ (fuel : Nat) (reader : Reader), reader.Len < fuel →
      Returned reader (readTranslatedFSString fuel reader) := by
  intro fuel
  induction fuel with
  | zero =>
    intro reader h
    omega
  | succ fuel ih =>
    intro reader hlen
    unfold readTranslatedFSString
    simp only
    have a0 : reader.After (readInt32 (readUint16 reader).2).2 :=
      (readUint_after 2 reader).trans (readInt_after 4 _)
    have s1 := readString_returned (readInt32 (readUint16 reader).2).2
      (readInt32 (readUint16 reader).2).1.1
    rcases h1 : readString (readInt32 (readUint16 reader).2).2
        (readInt32 (readUint16 reader).2).1.1 with e1 | ⟨handle, r1⟩
    · rw [h1] at s1
      exact s1
    rw [h1] at s1
    have a1 : reader.After r1 := a0.trans s1
    simp only
    split_ifs with hneg
    · intro h
      cases h
    · have a2 : reader.After (readInt32 r1).2 := a1.trans (readInt_after 4 r1)
      rcases hc : (readInt32 r1).1.1.toNat with _ | k
      · exact a2
      · have hne : (readInt 4 r1).1.1 ≠ 0 := by
          intro h0
          have : (readInt32 r1).1.1 = 0 := h0
          rw [this] at hc
          cases hc
        have hcons := readInt_consumed 4 (by decide) r1 hne
        have hlt : (readInt32 r1).2.Len < fuel := by
          have h1len := a1.Len_le
          have : (readInt32 r1).2.Len + 4 ≤ r1.Len := hcons
          omega
        have s2 := readTranslatedFSStringArgs_returned fuel (readTranslatedFSString fuel) ih
          (k + 1) (readInt32 r1).2 [] hlt
        rcases h2 : readTranslatedFSStringArgs (readTranslatedFSString fuel) (k + 1)
            (readInt32 r1).2 [] with e2 | ⟨args, r2⟩
        · rw [h2] at s2
          exact s2
        · rw [h2] at s2
          exact a2.trans s2

theorem readAttribute_fuel (depth attrType : Nat) (reader : Reader) (length : Nat)
    (hlen : reader.Len < depth) :
    readAttribute depth attrType reader length ≠ .error .outOfFuel := by
  intro h
  unfold readAttribute at h
  split_ifs at h
  · have s1 := readString_returned reader (length : Int)
    rcases h1 : readString reader (length : Int) with e1 | ⟨v, r1⟩
    · rw [h1] at s1
      simp only [h1, Except.error.injEq] at h
      exact s1 h
    · simp [h1] at h
  · simp only at h
    have s1 := readString_returned (readInt32 (readUint16 reader).2).2
      (readInt32 (readUint16 reader).2).1.1
    rcases h1 : readString (readInt32 (readUint16 reader).2).2
        (readInt32 (readUint16 reader).2).1.1 with e1 | ⟨v, r1⟩
    · rw [h1] at s1
      simp only [h1, Except.error.injEq] at h
      exact s1 h
    · simp [h1] at h
  · have s1 := readTranslatedFSString_returned depth reader hlen
    rcases h1 : readTranslatedFSString depth reader with e1 | ⟨v, r1⟩
    · rw [h1] at s1
      simp only [h1, Except.error.injEq] at h
      exact s1 h
    · simp [h1] at h

theorem readNodeAttributes_done (r : LSFReader) (valueReader : Reader) (depth fuel : Nat)
    (attrs : GoMap NodeAttribute) :
    readNodeAttributes r valueReader depth fuel (-1) attrs = .ok attrs := by
  cases fuel <;> simp [readNodeAttributes]

theorem readNodeAttributes_fuel (r : LSFReader) (valueReader : Reader) (depth : Nat)
    (hdepth : valueReader.data.length < depth) :
    ∀ (n fuel : Nat) (idx : Int) (attrs : GoMap NodeAttribute),
      chainEndsWithin r.attributes n idx = true → n ≤ fuel →
      readNodeAttributes r valueReader depth fuel idx attrs ≠ .error .outOfFuel := by
  intro n
  induction n with
  | zero =>
    intro fuel idx attrs hc _
    simp only [chainEndsWithin, decide_eq_true_eq] at hc
    rw [hc, readNodeAttributes_done]
    intro h
    cases h
  | succ n ih =>
    intro fuel idx attrs hc hfuel
    by_cases hidx : idx = -1
    · rw [hidx, readNodeAttributes_done]
      intro h
      cases h
    · obtain ⟨fuel, rfl⟩ : ∃ f, fuel = f + 1 := ⟨fuel - 1, by omega⟩
      simp only [chainEndsWithin, hidx, decide_False, Bool.false_or] at hc
      unfold readNodeAttributes
      rw [if_neg hidx]
      rcases h1 : indexInt r.attributes idx with _ | a
      · intro h
        cases h
      simp only [h1] at hc ⊢
      rcases h2 : lookupName r.names a.NameIndex a.NameOffset with e2 | name
      · rw [lookupName_error _ _ _ _ h2]
        intro h
        cases h
      simp only
      have hlen : (valueReader.Seek a.DataOffset).Len < depth := by
        simp only [Reader.Seek, Reader.Len]
        omega
      have s3 := readAttribute_fuel depth a.TypeId (valueReader.Seek a.DataOffset) a.Length hlen
      rcases h3 : readAttribute depth a.TypeId (valueReader.Seek a.DataOffset) a.Length
        with e3 | ⟨v, r3⟩
      · rw [h3] at s3
        simp only
        intro h
        exact s3 (by rw [Except.error.inj h])
      simp only
      exact ih fuel _ _ hc (by omega)

theorem buildNode_error_inv (r : LSFReader) (valueReader : Reader) (fuel : Nat)
    (res : Arena.Resource) (i : Nat) (nd : LSFNodeInfo) (e : Fault)
    (h : buildNode r valueReader fuel res i nd = .error e) :
    e = .indexOutOfRange ∨ e = .nilDereference ∨
    readNodeAttributes r valueReader fuel fuel nd.FirstAttributeIndex [] = .error e := by
  unfold buildNode at h
  split at h
  · rename_i e1 hname
    cases h
    exact Or.inl (lookupName_error _ _ _ _ hname)
  · simp only at h
    split at h
    · rename_i e1 hres1
      cases h
      split_ifs at hres1 with hp
      · split at hres1
        · cases hres1
          exact Or.inl rfl
        · split at hres1
          · cases hres1
          · cases hres1
            exact Or.inr (Or.inl rfl)
    · split at h
      · rename_i e1 hattrs
        cases h
        exact Or.inr (Or.inr hattrs)
      · cases h

theorem buildNodes_fuel (r : LSFReader) (fuel bound : Nat)
    (hfuel : bound + r.values.length + 1 ≤ fuel) (rest : List LSFNodeInfo) :
    ∀ (i : Nat) (res : Arena.Resource),
      (∀ nd ∈ rest, chainEndsWithin r.attributes bound nd.FirstAttributeIndex = true) →
      buildNodes r (newBinaryReaderFromBytes r.values) fuel rest i res ≠ .error .outOfFuel := by
  induction rest with
  | nil =>
    intro i res _ h
    simp [buildNodes] at h
  | cons nd rest ih =>
    intro i res hc h
    simp only [buildNodes] at h
    split at h
    · rename_i e1 h1
      cases h
      rcases buildNode_error_inv _ _ _ _ _ _ _ h1 with h2 | h2 | h2
      · cases h2
      · cases h2
      · exact readNodeAttributes_fuel r (newBinaryReaderFromBytes r.values) fuel
          (by simp only [newBinaryReaderFromBytes]; omega) bound fuel _ _
          (hc nd (List.mem_cons_self _ _)) (by omega) h2
    · exact ih _ _ (fun nd2 hmem => hc nd2 (List.mem_cons_of_mem _ hmem)) h

theorem buildResource_fuel (r : LSFReader) (fuel bound : Nat)
    (hfuel : bound + r.values.length + 1 ≤ fuel)
    (hc : ∀ nd ∈ r.nodes, chainEndsWithin r.attributes bound nd.FirstAttributeIndex = true) :
    buildResource fuel r ≠ .error .outOfFuel := by
  intro h
  unfold buildResource at h
  simp only at h
  split at h
  · cases h
  · exact buildNodes_fuel r fuel bound hfuel _ _ _ hc h

theorem readKeysLoop_fuel (names : List (List GoString)) :
    ∀ (fuel : Nat) (reader : Reader) (nodes : List LSFNodeInfo), reader.Len < fuel →
      readKeysLoop names fuel reader nodes ≠ .error .outOfFuel := by
  intro fuel
  induction fuel with
  | zero =>
    intro reader nodes h
    omega
  | succ fuel ih =>
    intro reader nodes hlen
    unfold readKeysLoop
    split_ifs with hpos
    · rcases hf : readFull reader 8 with ⟨_ | bs, r1⟩
      · simp
      · simp only
        obtain ⟨hle, _, hr1⟩ := readFull_ok_inv reader 8 (by decide) bs r1 hf
        rcases h2 : lookupName names ((decodeKeyEntry bs).KeyName >>> 16)
            ((decodeKeyEntry bs).KeyName &&& 0xffff) with e2 | key
        · simp only
          rw [lookupName_error _ _ _ _ h2]
          intro h
          cases h
        · simp only
          apply ih
          rw [hr1]
          simp only [Reader.Len] at hlen ⊢
          omega
    · simp

theorem readKeys_fuel (r : LSFReader) (data : List Byte) :
    readKeys r data ≠ .error .outOfFuel := by
  unfold readKeys
  have := readKeysLoop_fuel r.names (data.length + 1) (newBinaryReaderFromBytes data) r.nodes
    (by simp [newBinaryReaderFromBytes, Reader.Len])
  rcases h : readKeysLoop r.names (data.length + 1) (newBinaryReaderFromBytes data) r.nodes
    with e | res
  · rw [h] at this
    simp only
    intro h2
    exact this (by rw [Except.error.inj h2])
  · simp

theorem cyclicChain_loops (valueReader : Reader) (depth : Nat) :
    ∀ (fuel : Nat) (attrs : GoMap NodeAttribute),
      readNodeAttributes cyclicChainTables valueReader depth fuel 0 attrs =
        .error .outOfFuel := by
  intro fuel
  induction fuel with
  | zero =>
    intro attrs
    rfl
  | succ fuel ih =>
    intro attrs
    unfold readNodeAttributes
    rw [if_neg (by decide)]
    have h1 : indexInt cyclicChainTables.attributes 0 = some ⟨0, 0, 0, 0, 0, 0⟩ := rfl
    have h2 : lookupName cyclicChainTables.names 0 0 = .ok (lit "Root") := rfl
    simp only [h1, h2]
    have h3 : readAttribute depth 0 (valueReader.Seek 0) 0 =
        .ok (⟨0, .nil⟩, valueReader.Seek 0) := rfl
    simp only [h3]
    exact ih _

theorem buildNode_region_attr_error (r : LSFReader) (valueReader : Reader) (fuel : Nat)
    (res : Arena.Resource) (i : Nat) (nd : LSFNodeInfo) (name : GoString) (e : Fault)
    (hname : lookupName r.names nd.NameIndex nd.NameOffset = .ok name)
    (hp : nd.ParentIndex = -1)
    (hattrs : readNodeAttributes r valueReader fuel fuel nd.FirstAttributeIndex [] = .error e) :
    buildNode r valueReader fuel res i nd = .error e := by
  unfold buildNode
  simp only [hname, hp, if_true, hattrs]

theorem cyclicChain_buildResource (fuel : Nat) :
    buildResource fuel cyclicChainTables = .error .outOfFuel := by
  unfold buildResource
  have hm : cyclicChainTables.metadata =
    some (decodeMetadata ((cyclicChainFile.drop 16).take 48)) := rfl
  have hn : cyclicChainTables.nodes = [⟨-1, 0, 0, 0, []⟩] := rfl
  simp only [hm, hn, buildNodes]
  rw [buildNode_region_attr_error cyclicChainTables _ fuel _ 0 ⟨-1, 0, 0, 0, []⟩ (lit "Root")
    .outOfFuel rfl rfl (cyclicChain_loops _ _ _ _)]

/-- C15, counterexample: in `cyclicChainFile` the only attribute record names itself as the
next attribute; on this input `Read` leaves the attribute loop for no amount of fuel, that
is, the conversion does not terminate. -/
theorem cyclic_attribute_chain_never_ends :
    (decodeAttributeEntry (attributeRecord 0 0 0 0)).NextAttributeIndex = 0 ∧
    ∀ (c : Codecs) (fuel : Nat), Read c fuel ⟨cyclicChainFile, 0⟩ = .error .outOfFuel := by
  refine ⟨rfl, fun c fuel => ?_⟩
  have hs : readTables c ⟨cyclicChainFile, 0⟩ = .ok cyclicChainTables := rfl
  rw [Read_eq_readTables, hs]
  exact cyclicChain_buildResource fuel

theorem readNodes_fuel (r : LSFReader) (data : List Byte) :
    (readNodes r data).1 ≠ some .outOfFuel := by
  unfold readNodes newBinaryReaderFromBytes
  rw [readNodesLoop_spec data (data.length / 16) (data.length % 16) (Nat.mod_lt _ (by decide))
    0 _ [] (by omega) (by omega)]
  simp only
  split_ifs <;> simp

theorem readAttributesV3_fuel (r : LSFReader) (data : List Byte) :
    (readAttributesV3 r data).1 ≠ some .outOfFuel := by
  unfold readAttributesV3 newBinaryReaderFromBytes
  rw [readAttributesLoop_spec data (data.length / 16) (data.length % 16)
    (Nat.mod_lt _ (by decide)) 0 _ [] (by omega) (by omega)]
  simp only
  split_ifs <;> simp

/-- C15, amended: when the tables loaded from the input are such that the attribute chain of
every node record leaves the loop within `bound` entries (it reaches -1 or an index outside
the attribute table), the conversion terminates: for every fuel of at least
`bound + len(values) + 1`, `Read` returns a Resource or fails otherwise than by running out
of fuel.  When loading the tables fails, `Read` fails with that error for every fuel, and
the loops of `readNodes`, `readAttributesV3` and `readKeys` never run out of their fuel. -/
theorem conversion_terminates_when_chains_end (c : Codecs) (stream : Reader) (s : LSFReader)
    (bound : Nat) (hs : readTables c stream = .ok s)
    (hc : ∀ nodeInfo ∈ s.nodes,
      chainEndsWithin s.attributes bound nodeInfo.FirstAttributeIndex = true) :
    (∀ fuel, bound + s.values.length + 1 ≤ fuel → Read c fuel stream ≠ .error .outOfFuel) ∧
    (∀ (c2 : Codecs) (stream2 : Reader) (e : Fault), readTables c2 stream2 = .error e →
      ∀ fuel, Read c2 fuel stream2 = .error e) ∧
    (∀ (r : LSFReader) (data : List Byte), (readNodes r data).1 ≠ some .outOfFuel ∧
      (readAttributesV3 r data).1 ≠ some .outOfFuel ∧ readKeys r data ≠ .error .outOfFuel) := by
  refine ⟨fun fuel hfuel => ?_, fun c2 stream2 e he fuel => ?_, fun r data =>
    ⟨readNodes_fuel r data, readAttributesV3_fuel r data, readKeys_fuel r data⟩⟩
  · rw [Read_eq_readTables, hs]
    exact buildResource_fuel s fuel bound hfuel hc
  · rw [Read_eq_readTables, he]
    rfl

/-- C15, witness: the file with the region "Root" and its one attribute, whose chain ends
after one entry. -/
theorem conversion_terminates_when_chains_end_witness :
    (∀ nodeInfo ∈ oneAttributeTables.nodes,
      chainEndsWithin oneAttributeTables.attributes 1 nodeInfo.FirstAttributeIndex = true) ∧
    Read noCodecs 3 ⟨oneAttributeFile, 0⟩ ≠ .error .outOfFuel :=
  ⟨by decide,
   (conversion_terminates_when_chains_end noCodecs ⟨oneAttributeFile, 0⟩ oneAttributeTables 1
      rfl (by decide)).1 3 (by decide)⟩

/-- C27, counterexample: on the 49 bytes 0, 1, ..., 48 `readMetadata` consumes 48 bytes, not
47, and the format discriminator it decodes is the word at offset 44 (`2c 2d 2e 2f`), not the
word at offset 43; on 47 bytes it fails. -/
theorem metadata_record_is_not_47_bytes :
    metadataSize = 48 ∧
    (readMetadata LSFReader.new ⟨(List.range 49).map Fin.ofNat, 0⟩).2.pos = 48 ∧
    ((readMetadata LSFReader.new ⟨(List.range 49).map Fin.ofNat, 0⟩).1.toOption.bind
        (fun s => s.metadata.map (fun md => md.MetadataFormat))) = some 0x2f2e2d2c ∧
    field ((List.range 49).map Fin.ofNat) 43 4 = 0x2e2d2c2b ∧
    (readMetadata LSFReader.new ⟨(List.range 47).map Fin.ofNat, 0⟩).1.toOption.isNone = true := by
  refine ⟨rfl, rfl, rfl, rfl, rfl⟩

/-- C27, amended: the metadata record parsed by `readMetadata` consists of ten little-endian
uint32 size fields (offsets 0, 4, ..., 36), the compression-flags byte at offset 40, three
reserved bytes (a byte at offset 41 and a uint16 at offset 42) and the little-endian uint32
format discriminator at offset 44; with at least 48 bytes left `readMetadata` succeeds and
consumes exactly 48 bytes, and with fewer it fails. -/
theorem readMetadata_layout (r : LSFReader) (reader : Reader)
    (h : reader.pos + 48 ≤ reader.data.length) :
    (∃ md, readMetadata r reader =
        (.ok { r with metadata := some md }, ⟨reader.data, reader.pos + 48⟩) ∧
      md.StringsUncompressedSize = field reader.data (reader.pos + 0) 4 ∧
      md.StringsSizeOnDisk = field reader.data (reader.pos + 4) 4 ∧
      md.KeysUncompressedSize = field reader.data (reader.pos + 8) 4 ∧
      md.KeysSizeOnDisk = field reader.data (reader.pos + 12) 4 ∧
      md.NodesUncompressedSize = field reader.data (reader.pos + 16) 4 ∧
      md.NodesSizeOnDisk = field reader.data (reader.pos + 20) 4 ∧
      md.AttributesUncompressedSize = field reader.data (reader.pos + 24) 4 ∧
      md.AttributesSizeOnDisk = field reader.data (reader.pos + 28) 4 ∧
      md.ValuesUncompressedSize = field reader.data (reader.pos + 32) 4 ∧
      md.ValuesSizeOnDisk = field reader.data (reader.pos + 36) 4 ∧
      md.CompressionFlags = field reader.data (reader.pos + 40) 1 ∧
      md.Unknown2 = field reader.data (reader.pos + 41) 1 ∧
      md.Unknown3 = field reader.data (reader.pos + 42) 2 ∧
      md.MetadataFormat = field reader.data (reader.pos + 44) 4) ∧
    (∀ (r2 : LSFReader) (reader2 : Reader), reader2.data.length < reader2.pos + 48 →
      ∃ e, (readMetadata r2 reader2).1 = .error e) := by
  refine ⟨⟨decodeMetadata ((reader.data.drop reader.pos).take 48), ?_,
    field_window _ _ _ _ _ (by decide), field_window _ _ _ _ _ (by decide),
    field_window _ _ _ _ _ (by decide), field_window _ _ _ _ _ (by decide),
    field_window _ _ _ _ _ (by decide), field_window _ _ _ _ _ (by decide),
    field_window _ _ _ _ _ (by decide), field_window _ _ _ _ _ (by decide),
    field_window _ _ _ _ _ (by decide), field_window _ _ _ _ _ (by decide),
    field_window _ _ _ _ _ (by decide), field_window _ _ _ _ _ (by decide),
    field_window _ _ _ _ _ (by decide), field_window _ _ _ _ _ (by decide)⟩, ?_⟩
  · unfold readMetadata
    rw [show metadataSize = 48 from rfl, readFull_ok reader 48 (by decide) h]
  · intro r2 reader2 h2
    unfold readMetadata
    rcases hf : readFull reader2 metadataSize with ⟨e | bs, r1⟩
    · exact ⟨e, rfl⟩
    · have := (readFull_ok_inv reader2 metadataSize (by decide) bs r1 hf).1
      rw [show metadataSize = 48 from rfl] at this
      omega

/-- C27, witness: a reader over 49 bytes. -/
theorem readMetadata_layout_witness :
    (0 : Nat) + 48 ≤ ((List.range 49).map (Fin.ofNat : Nat → Byte)).length ∧
    ∃ md, readMetadata LSFReader.new ⟨(List.range 49).map Fin.ofNat, 0⟩ =
        (.ok { LSFReader.new with metadata := some md },
          ⟨(List.range 49).map Fin.ofNat, 0 + 48⟩) ∧
      md.MetadataFormat = field ((List.range 49).map Fin.ofNat) (0 + 44) 4 :=
  ⟨by decide,
   match (readMetadata_layout LSFReader.new ⟨(List.range 49).map Fin.ofNat, 0⟩
      (by decide)).1 with
   | ⟨md, h1, h2⟩ => ⟨md, h1, h2.2.2.2.2.2.2.2.2.2.2.2.2.2⟩⟩

theorem hexDigit_mem (n : Nat) (h : n < 16) : hexDigit n ∈ lit "0123456789abcdef" := by
  interval_cases n <;> decide

theorem list_of_length_16 (v : List Byte) (h : v.length = 16) :
    ∃ a0 a1 a2 a3 a4 a5 a6 a7 a8 a9 a10 a11 a12 a13 a14 a15,
      v = [a0, a1, a2, a3, a4, a5, a6, a7, a8, a9, a10, a11, a12, a13, a14, a15] := by
  match v, h with
  | [a0, a1, a2, a3, a4, a5, a6, a7, a8, a9, a10, a11, a12, a13, a14, a15], _ =>
    exact ⟨a0, a1, a2, a3, a4, a5, a6, a7, a8, a9, a10, a11, a12, a13, a14, a15, rfl⟩

theorem formatUUID_swapped (a0 a1 a2 a3 a4 a5 a6 a7 a8 a9 a10 a11 a12 a13 a14 a15 : Byte) :
    formatUUID [a0, a1, a2, a3, a4, a5, a6, a7, a8, a9, a10, a11, a12, a13, a14, a15] true =
      hexByte a3 ++ hexByte a2 ++ hexByte a1 ++ hexByte a0 ++ lit "-" ++ hexByte a5 ++
        hexByte a4 ++ lit "-" ++ hexByte a7 ++ hexByte a6 ++ lit "-" ++ hexByte a9 ++
        hexByte a8 ++ lit "-" ++ hexByte a11 ++ hexByte a10 ++ hexByte a13 ++ hexByte a12 ++
        hexByte a15 ++ hexByte a14 := by
  rfl

/-- C26: for every 16-byte identifier value, `attributeValueToString` on a guid attribute
returns 36 characters; those at positions 8, 13, 18 and 23 are "-" and each of the other 32 is
one of the lowercase hexadecimal digits "0123456789abcdef".  A bool value renders as exactly
"True" or "False". -/
theorem guid_and_bool_rendering (lib : Lib) (v : List Byte) (hv : v.length = 16) :
    (attributeValueToString lib ⟨AttrUUID, .bytes v⟩).length = 36 ∧
    (∀ i, i = 8 ∨ i = 13 ∨ i = 18 ∨ i = 23 →
      (attributeValueToString lib ⟨AttrUUID, .bytes v⟩)[i]? = (lit "-").head?) ∧
    (∀ i, i < 36 → i ≠ 8 → i ≠ 13 → i ≠ 18 → i ≠ 23 →
      ∃ c, (attributeValueToString lib ⟨AttrUUID, .bytes v⟩)[i]? = some c ∧
        c ∈ lit "0123456789abcdef") ∧
    (∀ (t : Nat) (b : Bool),
      attributeValueToString lib ⟨t, .bool b⟩ = if b then lit "True" else lit "False") := by
  obtain ⟨a0, a1, a2, a3, a4, a5, a6, a7, a8, a9, a10, a11, a12, a13, a14, a15, rfl⟩ :=
    list_of_length_16 v hv
  have hs : attributeValueToString lib
      ⟨AttrUUID, .bytes [a0, a1, a2, a3, a4, a5, a6, a7, a8, a9, a10, a11, a12, a13, a14, a15]⟩ =
      formatUUID [a0, a1, a2, a3, a4, a5, a6, a7, a8, a9, a10, a11, a12, a13, a14, a15] true :=
    rfl
  have hdash : lit "-" = [45] := rfl
  have hd : ∀ a : Byte, hexDigit (a.val / 16) ∈ lit "0123456789abcdef" := fun a =>
    hexDigit_mem _ (by have := a.isLt; omega)
  have hm : ∀ a : Byte, hexDigit (a.val % 16) ∈ lit "0123456789abcdef" := fun a =>
    hexDigit_mem _ (by omega)
  rw [hs, formatUUID_swapped, hdash]
  simp only [hexByte, List.cons_append, List.nil_append]
  refine ⟨rfl, ?_, ?_, fun t b => rfl⟩
  · intro i hi
    rcases hi with rfl | rfl | rfl | rfl <;> rfl
  · intro i hi h8 h13 h18 h23
    interval_cases i <;> first
      | exact absurd rfl h8
      | exact absurd rfl h13
      | exact absurd rfl h18
      | exact absurd rfl h23
      | exact ⟨_, rfl, hd _⟩
      | exact ⟨_, rfl, hm _⟩

/-- C26, witness: the identifier 00 11 22 ... ff renders as 36 characters. -/
theorem guid_and_bool_rendering_witness :
    (attributeValueToString refLib ⟨AttrUUID, .bytes
      [0x00, 0x11, 0x22, 0x33, 0x44, 0x55, 0x66, 0x77, 0x88, 0x99, 0xAA, 0xBB, 0xCC, 0xDD, 0xEE,
        0xFF]⟩).length = 36 :=
  (guid_and_bool_rendering refLib
    [0x00, 0x11, 0x22, 0x33, 0x44, 0x55, 0x66, 0x77, 0x88, 0x99, 0xAA, 0xBB, 0xCC, 0xDD, 0xEE, 0xFF]
    rfl).1

theorem readUint_ok (n : Nat) (data : List Byte) (pos : Nat) (hn : 0 < n)
    (h : pos + n ≤ data.length) :
    readUint n ⟨data, pos⟩ = ((field data pos n, none), ⟨data, pos + n⟩) := by
  unfold readUint
  rw [readFull_ok ⟨data, pos⟩ n hn h]
  rfl

theorem readInt_ok (n : Nat) (data : List Byte) (pos : Nat) (hn : 0 < n)
    (h : pos + n ≤ data.length) :
    readInt n ⟨data, pos⟩ = ((toSigned (8 * n) (field data pos n), none), ⟨data, pos + n⟩) := by
  unfold readInt
  rw [readFull_ok ⟨data, pos⟩ n hn h]
  rfl

theorem readFloats_ok (data : List Byte) :
    ∀ (k pos : Nat) (vals : List Nat), pos + 4 * k ≤ data.length →
      readFloats k ⟨data, pos⟩ vals =
        (vals ++ (List.range k).map (fun j => field data (pos + 4 * j) 4),
          ⟨data, pos + 4 * k⟩) := by
  intro k
  induction k with
  | zero =>
    intro pos vals _
    simp [readFloats]
  | succ k ih =>
    intro pos vals h
    unfold readFloats
    simp only [readFloat32]
    rw [readUint_ok 4 data pos (by decide) (by omega)]
    simp only
    rw [ih (pos + 4) _ (by omega)]
    rw [List.range_succ_eq_map]
    simp only [List.map_cons, List.map_map, List.append_assoc, List.singleton_append,
      Nat.mul_zero, Nat.add_zero]
    refine congrArg₂ Prod.mk (congrArg _ (congrArg _ (List.map_congr_left ?_))) ?_
    · intro j _
      simp only [Function.comp]
      congr 1
      omega
    · congr 1
      omega

theorem window_floats (data : List Byte) (pos k : Nat) (h : pos + 4 * k ≤ data.length) :
    (List.range (((data.drop pos).take (4 * k)).length / 4)).map
        (fun j => field ((data.drop pos).take (4 * k)) (4 * j) 4) =
      (List.range k).map (fun j => field data (pos + 4 * j) 4) := by
  have hl : ((data.drop pos).take (4 * k)).length = 4 * k := by
    simp only [List.length_take, List.length_drop]
    omega
  rw [hl, Nat.mul_div_cancel_left k (by decide : 0 < 4)]
  apply List.map_congr_left
  intro j hj
  have hj2 := List.mem_range.mp hj
  exact field_window data pos (4 * k) (4 * j) 4 (by omega)

theorem readAttributeValue_matrix (t k : Nat) (data : List Byte) (pos : Nat)
    (hr : ∀ reader, readAttributeValue t reader =
      (.floats (readFloats k reader []).1, (readFloats k reader []).2))
    (hd : ∀ bs, decodePrimitive t bs =
      .floats ((List.range (bs.length / 4)).map (fun j => field bs (4 * j) 4)))
    (h : pos + 4 * k ≤ data.length) :
    readAttributeValue t ⟨data, pos⟩ =
      (decodePrimitive t ((data.drop pos).take (4 * k)), ⟨data, pos + 4 * k⟩) := by
  rw [hr, hd, readFloats_ok data k pos [] h, window_floats data pos k h]
  rfl

theorem primitiveWidth_lt (attrType w : Nat) (hw : primitiveWidth attrType = some w) :
    attrType < 33 := by
  by_contra hc
  unfold primitiveWidth at hw
  simp only [AttrByte, AttrShort, AttrUShort, AttrInt,
      AttrUInt, AttrFloat, AttrDouble, AttrBool, AttrULongLong, AttrInt64, AttrInt8,
      AttrIVec2, AttrIVec3, AttrIVec4, AttrVec2, AttrVec3, AttrVec4, AttrMat2, AttrMat3,
      AttrMat3x4, AttrMat4x3, AttrMat4, AttrUUID] at hw
  rw [if_neg (by omega), if_neg (by omega), if_neg (by omega), if_neg (by omega),
    if_neg (by omega), if_neg (by omega), if_neg (by omega), if_neg (by omega),
    if_neg (by omega), if_neg (by omega), if_neg (by omega), if_neg (by omega),
    if_neg (by omega)] at hw
  cases hw

theorem readAttributeValue_scalar (attrType w : Nat) (data : List Byte) (pos : Nat)
    (hlt : attrType < 14 ∨ attrType = AttrBool ∨ attrType = AttrULongLong ∨
      attrType = AttrInt8 ∨ attrType = AttrInt64)
    (hw : primitiveWidth attrType = some w) (h : pos + w ≤ data.length) :
    readAttributeValue attrType ⟨data, pos⟩ =
      (decodePrimitive attrType ((data.drop pos).take w), ⟨data, pos + w⟩) := by
  have hk : ∀ k, k ≤ w → pos + k ≤ data.length := fun k hk => by omega
  have ht : attrType < 33 := primitiveWidth_lt attrType w hw
  interval_cases attrType <;> simp [primitiveWidth, AttrByte, AttrShort, AttrUShort, AttrInt,
      AttrUInt, AttrFloat, AttrDouble, AttrBool, AttrULongLong, AttrInt64, AttrInt8,
      AttrIVec2, AttrIVec3, AttrIVec4, AttrVec2, AttrVec3, AttrVec4, AttrMat2, AttrMat3,
      AttrMat3x4, AttrMat4x3, AttrMat4, AttrUUID] at hw hlt <;> subst hw <;>
    simp [readAttributeValue, decodePrimitive, AttrByte, AttrShort, AttrUShort, AttrInt,
      AttrUInt, AttrFloat, AttrDouble, AttrBool, AttrULongLong, AttrInt64, AttrInt8,
      AttrIVec2, AttrIVec3, AttrIVec4, AttrVec2, AttrVec3, AttrVec4, AttrMat2, AttrMat3,
      AttrMat3x4, AttrMat4x3, AttrMat4, AttrUUID, readUint8, readUint16, readUint32,
      readUint64, readInt8, readInt16, readInt32, readInt64, readFloat32, readFloat64,
      readInt_ok, readUint_ok, hk, field_window, Nat.add_assoc]

/-- C25: for every primitive type tag with the width `w` the specification lists for it and
every cursor with at least `w` bytes remaining, `readAttributeValue` returns the value the
specification assigns to exactly the next `w` bytes (integers little-endian two's
complement, bool true iff the byte is nonzero, floats by their bits) and leaves the cursor
`w` bytes further. -/
theorem readAttributeValue_fixed_width (attrType w : Nat) (reader : Reader)
    (hw : primitiveWidth attrType = some w) (h : reader.pos + w ≤ reader.data.length) :
    readAttributeValue attrType reader =
      (decodePrimitive attrType ((reader.data.drop reader.pos).take w),
        ⟨reader.data, reader.pos + w⟩) := by
  obtain ⟨data, pos⟩ := reader
  have ht : attrType < 33 := primitiveWidth_lt attrType w hw
  by_cases hs : attrType < 14 ∨ attrType = AttrBool ∨ attrType = AttrULongLong ∨
      attrType = AttrInt8 ∨ attrType = AttrInt64
  · exact readAttributeValue_scalar attrType w data pos hs hw h
  · interval_cases attrType <;> simp [AttrByte, AttrShort, AttrUShort, AttrInt,
      AttrUInt, AttrFloat, AttrDouble, AttrBool, AttrULongLong, AttrInt64, AttrInt8,
      AttrIVec2, AttrIVec3, AttrIVec4, AttrVec2, AttrVec3, AttrVec4, AttrMat2, AttrMat3,
      AttrMat3x4, AttrMat4x3, AttrMat4, AttrUUID] at hs <;>
      simp [primitiveWidth, AttrByte, AttrShort, AttrUShort, AttrInt,
      AttrUInt, AttrFloat, AttrDouble, AttrBool, AttrULongLong, AttrInt64, AttrInt8,
      AttrIVec2, AttrIVec3, AttrIVec4, AttrVec2, AttrVec3, AttrVec4, AttrMat2, AttrMat3,
      AttrMat3x4, AttrMat4x3, AttrMat4, AttrUUID] at hw <;> subst hw
    · exact readAttributeValue_matrix AttrMat2 4 data pos (fun _ => rfl) (fun _ => rfl) h
    · exact readAttributeValue_matrix AttrMat3 9 data pos (fun _ => rfl) (fun _ => rfl) h
    · exact readAttributeValue_matrix AttrMat3x4 12 data pos (fun _ => rfl) (fun _ => rfl) h
    · exact readAttributeValue_matrix AttrMat4x3 12 data pos (fun _ => rfl) (fun _ => rfl) h
    · exact readAttributeValue_matrix AttrMat4 16 data pos (fun _ => rfl) (fun _ => rfl) h
    · have hr : readAttributeValue AttrUUID ⟨data, pos⟩ =
          (.bytes ((⟨data, pos⟩ : Reader).Read 16).1.1, ((⟨data, pos⟩ : Reader).Read 16).2) :=
        rfl
      have hp : pos < data.length := by
        simp only at h
        omega
      exact hr.trans (by rw [Read_ok ⟨data, pos⟩ 16 hp h]; rfl)

/-- C25, witness: an `int32` triple read at offset 1 of a 13-byte blob. -/
theorem readAttributeValue_fixed_width_witness :
    readAttributeValue AttrIVec3 ⟨[9, 1, 0, 0, 0, 0xfe, 0xff, 0xff, 0xff, 3, 0, 0, 0], 1⟩ =
      (.ivec3 1 (-2) 3, ⟨[9, 1, 0, 0, 0, 0xfe, 0xff, 0xff, 0xff, 3, 0, 0, 0], 13⟩) :=
  readAttributeValue_fixed_width AttrIVec3 12
    ⟨[9, 1, 0, 0, 0, 0xfe, 0xff, 0xff, 0xff, 3, 0, 0, 0], 1⟩ rfl (by decide)

theorem setKeyAttribute_length (nodes : List LSFNodeInfo) (idx : Nat) (key : GoString) :
    (setKeyAttribute nodes idx key).length = nodes.length := by
  unfold setKeyAttribute
  split_ifs
  · split <;> simp
  · rfl

theorem setKeyAttribute_getElem? (nodes : List LSFNodeInfo) (idx : Nat) (key : GoString)
    (i : Nat) :
    (setKeyAttribute nodes idx key)[i]? =
      if i = idx then (nodes[i]?).map (fun nd => { nd with KeyAttribute := key })
      else nodes[i]? := by
  unfold setKeyAttribute
  by_cases hlt : idx < nodes.length
  · rw [if_pos hlt, List.getElem?_eq_getElem hlt]
    simp only
    by_cases hi : i = idx
    · subst hi
      rw [if_pos rfl, List.getElem?_set_self hlt, List.getElem?_eq_getElem hlt]
      rfl
    · rw [if_neg hi, List.getElem?_set_ne (Ne.symm hi)]
  · rw [if_neg hlt]
    by_cases hi : i = idx
    · subst hi
      rw [if_pos rfl, List.getElem?_eq_none (by omega)]
      rfl
    · rw [if_neg hi]

theorem readKeysLoop_spec (names : List (List GoString)) (data : List Byte) (n : Nat)
    (hlen : data.length = 8 * n) (nodes : List LSFNodeInfo)
    (hnames : ∀ k, k < n → ∃ name, lookupName names (field data (8 * k + 4) 4 >>> 16)
      (field data (8 * k + 4) 4 &&& 0xffff) = .ok name) :
    ∀ (m k fuel : Nat), k + m = n → m + 1 ≤ fuel →
      readKeysLoop names fuel ⟨data, 8 * k⟩ (applyKeys names data nodes k) =
        .ok (none, applyKeys names data nodes n) := by
  intro m
  induction m with
  | zero =>
    intro k fuel hk hfuel
    obtain ⟨fuel, rfl⟩ : ∃ f, fuel = f + 1 := ⟨fuel - 1, by omega⟩
    have hkn : k = n := by omega
    subst hkn
    unfold readKeysLoop
    rw [if_neg (by simp [Reader.Len, hlen])]
  | succ m ih =>
    intro k fuel hk hfuel
    obtain ⟨fuel, rfl⟩ : ∃ f, fuel = f + 1 := ⟨fuel - 1, by omega⟩
    unfold readKeysLoop
    rw [if_pos (by simp only [Reader.Len, hlen]; omega),
      readFull_ok ⟨data, 8 * k⟩ 8 (by decide) (by simp only [hlen]; omega)]
    simp only [decodeKeyEntry]
    rw [field_window data (8 * k) 8 4 4 (by decide), field_window data (8 * k) 8 0 4 (by decide)]
    obtain ⟨name, hname⟩ := hnames k (by omega)
    simp only [hname, Nat.add_zero]
    have hres : resolveName names (field data (8 * k + 4) 4 >>> 16)
        (field data (8 * k + 4) 4 &&& 0xffff) = name := by
      unfold resolveName
      rw [hname]
    have hstep : setKeyAttribute (applyKeys names data nodes k) (field data (8 * k) 4) name =
        applyKeys names data nodes (k + 1) := by
      rw [← hres]
      rfl
    rw [hstep, show 8 * k + 8 = 8 * (k + 1) by omega]
    exact ih (k + 1) fuel (by omega) (by omega)

theorem readKeys_eq (r : LSFReader) (data : List Byte) (n : Nat) (hlen : data.length = 8 * n)
    (hnames : ∀ k, k < n → ∃ name, lookupName r.names (field data (8 * k + 4) 4 >>> 16)
      (field data (8 * k + 4) 4 &&& 0xffff) = .ok name) :
    readKeys r data = .ok (none, { r with nodes := applyKeys r.names data r.nodes n }) := by
  unfold readKeys newBinaryReaderFromBytes
  have := readKeysLoop_spec r.names data n hlen r.nodes hnames n 0 (data.length + 1)
    (by omega) (by omega)
  simp only [Nat.mul_zero, applyKeys] at this
  rw [this]

theorem applyKeys_length (names : List (List GoString)) (data : List Byte)
    (nodes : List LSFNodeInfo) (k : Nat) : (applyKeys names data nodes k).length = nodes.length := by
  induction k with
  | zero => rfl
  | succ k ih => rw [applyKeys, setKeyAttribute_length, ih]

theorem applyKeys_fields (names : List (List GoString)) (data : List Byte)
    (nodes : List LSFNodeInfo) (i : Nat) (nd : LSFNodeInfo) (h : nodes[i]? = some nd) (k : Nat) :
    ∃ key, (applyKeys names data nodes k)[i]? = some { nd with KeyAttribute := key } := by
  induction k with
  | zero => exact ⟨nd.KeyAttribute, h⟩
  | succ k ih =>
    obtain ⟨key, hkey⟩ := ih
    rw [applyKeys, setKeyAttribute_getElem?]
    split_ifs
    · exact ⟨_, by rw [hkey]; rfl⟩
    · exact ⟨key, hkey⟩

theorem applyKeys_untouched (names : List (List GoString)) (data : List Byte)
    (nodes : List LSFNodeInfo) (i : Nat) (n : Nat) (h : ∀ k, k < n → field data (8 * k) 4 ≠ i) :
    (applyKeys names data nodes n)[i]? = nodes[i]? := by
  induction n with
  | zero => rfl
  | succ n ih =>
    rw [applyKeys, setKeyAttribute_getElem?, if_neg (Ne.symm (h n (by omega)))]
    exact ih (fun k hk => h k (by omega))

theorem applyKeys_last (names : List (List GoString)) (data : List Byte)
    (nodes : List LSFNodeInfo) (i : Nat) (nd : LSFNodeInfo) (hnd : nodes[i]? = some nd)
    (k : Nat) (hk : field data (8 * k) 4 = i) :
    ∀ n, k < n → (∀ k2, k < k2 → k2 < n → field data (8 * k2) 4 ≠ i) →
      (applyKeys names data nodes n)[i]? =
        some { nd with
          KeyAttribute :=
            resolveName names (field data (8 * k + 4) 4 >>> 16)
              (field data (8 * k + 4) 4 &&& 0xffff) } := by
  intro n
  induction n with
  | zero =>
    intro h
    omega
  | succ n ih =>
    intro hkn hlater
    rw [applyKeys, setKeyAttribute_getElem?]
    by_cases hkn2 : k = n
    · subst hkn2
      rw [if_pos hk.symm]
      obtain ⟨key, hkey⟩ := applyKeys_fields names data nodes i nd hnd k
      rw [hkey]
      rfl
    · rw [if_neg (Ne.symm (hlater n (by omega) (by omega)))]
      exact ih (by omega) (fun k2 h1 h2 => hlater k2 h1 (by omega))

theorem readSections_ok_inv (c : Codecs) (r : LSFReader) (reader : Reader) (s : LSFReader)
    (rd : Reader) (md : LSFMetadataV6) (hmd : r.metadata = some md)
    (h : readSections c r reader = (.ok s, rd)) :
    ∃ namesData nodesData attrsData valuesData,
      (¬ (md.MetadataFormat = LSFMetadataKeysAndAdjacency ∧ md.KeysSizeOnDisk > 0) →
        s = { (readAttributesV3 (readNodes (readNames r namesData).2 nodesData).2
                attrsData).2 with values := valuesData }) ∧
      ((md.MetadataFormat = LSFMetadataKeysAndAdjacency ∧ md.KeysSizeOnDisk > 0) →
        ∃ keysData res,
          readKeys { (readAttributesV3 (readNodes (readNames r namesData).2 nodesData).2
                attrsData).2 with values := valuesData } keysData = .ok res ∧ s = res.2) := by
  unfold readSections at h
  simp only [hmd] at h
  rcases h1 : decompress c r reader md.StringsSizeOnDisk md.StringsUncompressedSize false
    with ⟨_ | namesData, r1⟩
  · simp [h1] at h
  simp only [h1] at h
  rcases h2 : decompress c (readNames r namesData).2 r1 md.NodesSizeOnDisk
    md.NodesUncompressedSize true with ⟨_ | nodesData, r2⟩
  · simp [h2] at h
  simp only [h2] at h
  rcases h3 : decompress c (readNodes (readNames r namesData).2 nodesData).2 r2
    md.AttributesSizeOnDisk md.AttributesUncompressedSize true with ⟨_ | attrsData, r3⟩
  · simp [h3] at h
  simp only [h3] at h
  rcases h4 : decompress c
    (readAttributesV3 (readNodes (readNames r namesData).2 nodesData).2 attrsData).2 r3
    md.ValuesSizeOnDisk md.ValuesUncompressedSize true with ⟨_ | valuesData, r4⟩
  · simp [h4] at h
  simp only [h4] at h
  refine ⟨namesData, nodesData, attrsData, valuesData, ?_, ?_⟩
  · intro hk
    rw [if_neg hk] at h
    simp only [Prod.mk.injEq, Except.ok.injEq] at h
    exact h.1.symm
  · intro hk
    rw [if_pos hk] at h
    rcases h5 : decompress c
      { (readAttributesV3 (readNodes (readNames r namesData).2 nodesData).2 attrsData).2 with
        values := valuesData } r4 md.KeysSizeOnDisk md.KeysUncompressedSize true
      with ⟨_ | keysData, r5⟩
    · simp [h5] at h
    simp only [h5] at h
    cases h6 : readKeys
      { (readAttributesV3 (readNodes (readNames r namesData).2 nodesData).2 attrsData).2 with
        values := valuesData } keysData with
    | error e => simp [h6] at h
    | ok res =>
      simp only [h6, Prod.mk.injEq, Except.ok.injEq] at h
      exact ⟨keysData, res, h6, h.1.symm⟩

theorem readNodes_keys_empty (r : LSFReader) (data : List Byte) :
    ∀ nd ∈ (readNodes r data).2.nodes, nd.KeyAttribute = [] := by
  unfold readNodes newBinaryReaderFromBytes
  rw [readNodesLoop_spec data (data.length / 16) (data.length % 16) (Nat.mod_lt _ (by decide))
    0 _ [] (by omega) (by omega)]
  intro nd hnd
  simp only [List.nil_append, List.mem_map] at hnd
  obtain ⟨j, _, rfl⟩ := hnd
  rfl

/-- C21: on a key table of `n` whole 8-byte records whose name references resolve, `readKeys`
returns without error, changes nothing but key attributes, leaves a node that no record
names as it was (its key attribute is empty after `readNodes`, which sets every key attribute
to the empty string), and gives a node named by a record the name-table string addressed by
the last record that names it.  When the metadata format is not 1 or the on-disk size of the
key section is 0, `readSections` does not call `readKeys` and every node record it leaves has
an empty key attribute. -/
theorem readKeys_assigns_last_key (r : LSFReader) (data : List Byte) (n : Nat)
    (hlen : data.length = 8 * n)
    (hnames : ∀ k, k < n → ∃ name, lookupName r.names (field data (8 * k + 4) 4 >>> 16)
      (field data (8 * k + 4) 4 &&& 0xffff) = .ok name) :
    (∃ s, readKeys r data = .ok (none, s) ∧ s.nodes.length = r.nodes.length ∧
      s.names = r.names ∧ s.attributes = r.attributes ∧ s.values = r.values ∧
      (∀ i, (∀ k, k < n → field data (8 * k) 4 ≠ i) → s.nodes[i]? = r.nodes[i]?) ∧
      (∀ i nd k, r.nodes[i]? = some nd → k < n → field data (8 * k) 4 = i →
        (∀ k2, k < k2 → k2 < n → field data (8 * k2) 4 ≠ i) →
        ∃ name, lookupName r.names (field data (8 * k + 4) 4 >>> 16)
            (field data (8 * k + 4) 4 &&& 0xffff) = .ok name ∧
          s.nodes[i]? = some { nd with KeyAttribute := name })) ∧
    (∀ (r2 : LSFReader) (data2 : List Byte),
      ∀ nd ∈ (readNodes r2 data2).2.nodes, nd.KeyAttribute = []) ∧
    (∀ (c : Codecs) (r0 : LSFReader) (reader : Reader) (s : LSFReader) (rd : Reader)
      (md : LSFMetadataV6), r0.metadata = some md →
      ¬ (md.MetadataFormat = LSFMetadataKeysAndAdjacency ∧ md.KeysSizeOnDisk > 0) →
      readSections c r0 reader = (.ok s, rd) → ∀ nd ∈ s.nodes, nd.KeyAttribute = []) := by
  refine ⟨⟨_, readKeys_eq r data n hlen hnames, applyKeys_length _ _ _ _, rfl, rfl, rfl,
    fun i hi => applyKeys_untouched _ _ _ i n hi, ?_⟩, readNodes_keys_empty, ?_⟩
  · intro i nd k hnd hk hki hlast
    obtain ⟨name, hname⟩ := hnames k hk
    refine ⟨name, hname, ?_⟩
    have := applyKeys_last r.names data r.nodes i nd hnd k hki n hk hlast
    rw [show resolveName r.names (field data (8 * k + 4) 4 >>> 16)
        (field data (8 * k + 4) 4 &&& 0xffff) = name by unfold resolveName; rw [hname]] at this
    exact this
  · intro c r0 reader s rd md hmd hk h
    obtain ⟨namesData, nodesData, attrsData, valuesData, hs, _⟩ :=
      readSections_ok_inv c r0 reader s rd md hmd h
    rw [hs hk]
    show ∀ nd ∈ (readNodes (readNames r0 namesData).2 nodesData).2.nodes, nd.KeyAttribute = []
    exact readNodes_keys_empty _ _

/-- C21, witness: two key records for node 0, the second one naming "b". -/
theorem readKeys_assigns_last_key_witness :
    (readKeys keyedTables (keyRecord 0 0 ++ keyRecord 0 1)).toOption.map
        (fun res => res.2.nodes) = some [⟨-1, 0, 0, -1, lit "b"⟩] ∧
    ∃ s, readKeys keyedTables (keyRecord 0 0 ++ keyRecord 0 1) = .ok (none, s) ∧
      s.nodes.length = 1 :=
  ⟨rfl,
   match (readKeys_assigns_last_key keyedTables (keyRecord 0 0 ++ keyRecord 0 1) 2 rfl
      (fun k hk => match k, hk with
        | 0, _ => ⟨lit "a", rfl⟩
        | 1, _ => ⟨lit "b", rfl⟩
        | k + 2, h => absurd h (by omega))).1 with
   | ⟨s, h1, h2, _⟩ => ⟨s, h1, h2⟩⟩

theorem nameAt_set (mem : List (Option Arena.Node)) (p : Nat) (c : Arena.Node) (j : Nat) :
    nameAt (mem.set p (some c)) j =
      if j = p ∧ p < mem.length then some c.Name else nameAt mem j := by
  unfold nameAt
  by_cases hj : j = p
  · subst hj
    by_cases hlt : j < mem.length
    · rw [List.getElem?_set_self hlt, if_pos ⟨rfl, hlt⟩]
    · rw [if_neg (fun h => hlt h.2), List.getElem?_eq_none (by simp; omega),
        List.getElem?_eq_none (by omega)]
  · rw [List.getElem?_set_ne (Ne.symm hj), if_neg (fun h => hj h.1)]

theorem nameAt_setAttributes (mem : List (Option Arena.Node)) (i : Nat)
    (attrs : GoMap NodeAttribute) (j : Nat) :
    nameAt (setAttributes mem i attrs) j = nameAt mem j := by
  unfold setAttributes
  split
  · rename_i node hnode
    rw [nameAt_set]
    split_ifs with h
    · obtain ⟨rfl, _⟩ := h
      unfold nameAt
      rw [hnode]
    · rfl
  · rfl

theorem nameAt_link (mem : List (Option Arena.Node)) (i : Nat) (idx : Int)
    (node p : Arena.Node) (hi : i < mem.length)
    (hp2 : indexInt (mem.set i (some node)) idx = some (some p)) (cname : GoString)
    (attrs : GoMap NodeAttribute) (j : Nat) :
    nameAt (setAttributes ((mem.set i (some node)).set idx.toNat
        (some (p.AppendChild i cname))) i attrs) j =
      if j = i then some node.Name else nameAt mem j := by
  have hpn : nameAt (mem.set i (some node)) idx.toNat = some p.Name := by
    unfold indexInt at hp2
    split_ifs at hp2
    unfold nameAt
    rw [hp2]
  have hname2 : (p.AppendChild i cname).Name = p.Name := rfl
  rw [nameAt_setAttributes, nameAt_set, hname2]
  by_cases hjp : j = idx.toNat ∧ idx.toNat < (mem.set i (some node)).length
  · rw [if_pos hjp, ← hpn, hjp.1, nameAt_set]
    by_cases hj : idx.toNat = i
    · rw [if_pos ⟨hj, hi⟩, if_pos hj]
    · rw [if_neg (fun h => hj h.1), if_neg hj]
  · rw [if_neg hjp, nameAt_set]
    by_cases hj : j = i
    · rw [if_pos ⟨hj, hi⟩, if_pos hj]
    · rw [if_neg (fun h => hj h.1), if_neg hj]

theorem buildNode_result (r : LSFReader) (valueReader : Reader) (fuel : Nat)
    (res : Arena.Resource) (i : Nat) (nd : LSFNodeInfo) (res2 : Arena.Resource)
    (h : buildNode r valueReader fuel res i nd = .ok res2) (hi : i < res.nodeInstances.length) :
    res2.Regions =
      (if nd.ParentIndex = -1 then
        GoMap.set res.Regions (resolveName r.names nd.NameIndex nd.NameOffset)
          ⟨i, resolveName r.names nd.NameIndex nd.NameOffset⟩
       else res.Regions) ∧
    ∀ j, nameAt res2.nodeInstances j =
      if j = i then some (resolveName r.names nd.NameIndex nd.NameOffset)
      else nameAt res.nodeInstances j := by
  unfold buildNode at h
  split at h
  · cases h
  · rename_i name hname
    have hres : resolveName r.names nd.NameIndex nd.NameOffset = name := by
      unfold resolveName
      rw [hname]
    rw [hres]
    simp only at h
    split at h
    · cases h
    · rename_i res1 hres1
      split at h
      · cases h
      · cases h
        simp only
        split_ifs at hres1 with hp
        · cases hres1
          refine ⟨by rw [if_pos hp], fun j => ?_⟩
          simp only
          rw [nameAt_setAttributes, nameAt_set]
          by_cases hj : j = i
          · rw [if_pos ⟨hj, hi⟩, if_pos hj]
          · rw [if_neg (fun h => hj h.1), if_neg hj]
        · split at hres1
          · cases hres1
          · split at hres1
            · rename_i p hp2
              cases hres1
              refine ⟨by rw [if_neg hp], fun j => ?_⟩
              exact nameAt_link _ _ _ _ _ hi hp2 _ _ _
            · cases hres1

theorem buildNodes_regions (r : LSFReader) (valueReader : Reader) (fuel : Nat)
    (rest : List LSFNodeInfo) :
    ∀ (k : Nat) (res res2 : Arena.Resource), r.nodes.drop k = rest →
      res.nodeInstances.length = r.nodes.length → res.Regions = regionsOf r k →
      (∀ j nd, j < k → r.nodes[j]? = some nd →
        nameAt res.nodeInstances j = some (resolveName r.names nd.NameIndex nd.NameOffset)) →
      buildNodes r valueReader fuel rest k res = .ok res2 →
      res2.Regions = regionsOf r r.nodes.length ∧
      ∀ j nd, r.nodes[j]? = some nd →
        nameAt res2.nodeInstances j = some (resolveName r.names nd.NameIndex nd.NameOffset) := by
  induction rest with
  | nil =>
    intro k res res2 hrest hlen hreg hnames h
    have hk : r.nodes.length ≤ k := List.drop_eq_nil_iff.1 hrest
    simp only [buildNodes, Except.ok.injEq] at h
    subst h
    have hreg2 : ∀ m, regionsOf r (r.nodes.length + m) = regionsOf r r.nodes.length := by
      intro m
      induction m with
      | zero => rfl
      | succ m ih =>
        rw [← Nat.add_assoc, regionsOf_succ, List.getElem?_eq_none (by omega)]
        exact ih
    refine ⟨?_, fun j nd hj => hnames j nd ?_ hj⟩
    · rw [hreg, ← hreg2 (k - r.nodes.length)]
      congr 1
      omega
    · have := (List.getElem?_eq_some_iff.1 hj).1
      omega
  | cons nd0 rest ih =>
    intro k res res2 hrest hlen hreg hnames h
    have hk : r.nodes[k]? = some nd0 := by
      rw [← List.head?_drop, hrest]
      rfl
    have hklt : k < r.nodes.length := (List.getElem?_eq_some_iff.1 hk).1
    simp only [buildNodes] at h
    split at h
    · cases h
    · rename_i res1 h1
      obtain ⟨hr1, hn1⟩ := buildNode_result _ _ _ _ _ _ _ h1 (by omega)
      have hl1 := (buildNode_ok_inv _ _ _ _ _ _ _ h1).2.2.2
      refine ih (k + 1) res1 res2 (by rw [← List.drop_drop]; simp [hrest]) (hl1.trans hlen)
        ?_ ?_ h
      · rw [hr1, regionsOf_succ, hk, hreg]
      · intro j nd hj hjnd
        rw [hn1]
        by_cases hjk : j = k
        · subst hjk
          rw [if_pos rfl]
          rw [hk] at hjnd
          cases hjnd
          rfl
        · rw [if_neg hjk]
          exact hnames j nd (by omega) hjnd

theorem buildResource_regions (fuel : Nat) (r : LSFReader) (res : Arena.Resource)
    (h : buildResource fuel r = .ok res) :
    res.Regions = regionsOf r r.nodes.length ∧
    ∀ j nd, r.nodes[j]? = some nd →
      nameAt res.nodeInstances j = some (resolveName r.names nd.NameIndex nd.NameOffset) := by
  unfold buildResource at h
  simp only at h
  split at h
  · cases h
  · exact buildNodes_regions r _ fuel r.nodes 0 _ res rfl (by simp) rfl
      (fun j nd hj => absurd hj (by omega)) h

theorem regionsOf_get (r : LSFReader) (name : GoString) :
    ∀ k, (∀ reg, GoMap.get (regionsOf r k) name = some reg →
        reg.RegionName = name ∧ reg.Node < k ∧
        ∃ nd, r.nodes[reg.Node]? = some nd ∧ nd.ParentIndex = -1 ∧
          resolveName r.names nd.NameIndex nd.NameOffset = name ∧
          ∀ j2 c2, reg.Node < j2 → j2 < k → r.nodes[j2]? = some c2 → c2.ParentIndex = -1 →
            resolveName r.names c2.NameIndex c2.NameOffset ≠ name) ∧
      (∀ j nd, j < k → r.nodes[j]? = some nd → nd.ParentIndex = -1 →
        resolveName r.names nd.NameIndex nd.NameOffset = name →
        ∃ reg, GoMap.get (regionsOf r k) name = some reg) := by
  intro k
  induction k with
  | zero =>
    refine ⟨fun reg h => ?_, fun j nd hj => absurd hj (by omega)⟩
    simp [regionsOf, GoMap.get] at h
  | succ k ih =>
    obtain ⟨ih1, ih2⟩ := ih
    rw [regionsOf_succ]
    rcases hk : r.nodes[k]? with _ | c
    · simp only
      refine ⟨fun reg h => ?_, fun j nd hj hjnd hroot hnm => ?_⟩
      · obtain ⟨g1, g2, nd, g3, g4, g5, g6⟩ := ih1 reg h
        refine ⟨g1, by omega, nd, g3, g4, g5, fun j2 c2 h1 h2 h3 => ?_⟩
        by_cases hj2 : j2 = k
        · subst hj2
          rw [hk] at h3
          cases h3
        · exact g6 j2 c2 h1 (by omega) h3
      · by_cases hjk : j = k
        · subst hjk
          rw [hk] at hjnd
          cases hjnd
        · exact ih2 j nd (by omega) hjnd hroot hnm
    · simp only
      by_cases hroot : c.ParentIndex = -1
      · rw [if_pos hroot]
        by_cases hname : resolveName r.names c.NameIndex c.NameOffset = name
        · rw [hname]
          refine ⟨fun reg h => ?_, fun j nd hj hjnd _ _ => ⟨_, GoMap.get_set_self _ _ _⟩⟩
          rw [GoMap.get_set_self] at h
          cases h
          exact ⟨rfl, by simp, c, hk, hroot, hname, fun j2 c2 h1 h2 => by simp at h1; omega⟩
        · refine ⟨fun reg h => ?_, fun j nd hj hjnd hroot2 hnm => ?_⟩
          · rw [GoMap.get_set_ne _ _ _ _ (Ne.symm hname)] at h
            obtain ⟨g1, g2, nd, g3, g4, g5, g6⟩ := ih1 reg h
            refine ⟨g1, by omega, nd, g3, g4, g5, fun j2 c2 h1 h2 h3 h4 => ?_⟩
            by_cases hj2 : j2 = k
            · subst hj2
              rw [hk] at h3
              cases h3
              exact hname
            · exact g6 j2 c2 h1 (by omega) h3 h4
          · rw [GoMap.get_set_ne _ _ _ _ (Ne.symm hname)]
            by_cases hjk : j = k
            · subst hjk
              rw [hk] at hjnd
              cases hjnd
              exact absurd hnm hname
            · exact ih2 j nd (by omega) hjnd hroot2 hnm
      · rw [if_neg hroot]
        refine ⟨fun reg h => ?_, fun j nd hj hjnd hroot2 hnm => ?_⟩
        · obtain ⟨g1, g2, nd, g3, g4, g5, g6⟩ := ih1 reg h
          refine ⟨g1, by omega, nd, g3, g4, g5, fun j2 c2 h1 h2 h3 h4 => ?_⟩
          by_cases hj2 : j2 = k
          · subst hj2
            rw [hk] at h3
            cases h3
            exact absurd h4 hroot
          · exact g6 j2 c2 h1 (by omega) h3 h4
        · by_cases hjk : j = k
          · subst hjk
            rw [hk] at hjnd
            cases hjnd
            exact absurd hroot2 hroot
          · exact ih2 j nd (by omega) hjnd hroot2 hnm

theorem region_of_last_root (r : LSFReader) (j : Nat) (nd : LSFNodeInfo)
    (hnd : r.nodes[j]? = some nd) (hroot : nd.ParentIndex = -1)
    (hlast : ∀ j2 c2, j < j2 → r.nodes[j2]? = some c2 → c2.ParentIndex = -1 →
      resolveName r.names c2.NameIndex c2.NameOffset ≠
        resolveName r.names nd.NameIndex nd.NameOffset) :
    GoMap.get (regionsOf r r.nodes.length) (resolveName r.names nd.NameIndex nd.NameOffset) =
      some ⟨j, resolveName r.names nd.NameIndex nd.NameOffset⟩ := by
  have hj : j < r.nodes.length := (List.getElem?_eq_some_iff.1 hnd).1
  obtain ⟨h1, h2⟩ := regionsOf_get r (resolveName r.names nd.NameIndex nd.NameOffset)
    r.nodes.length
  obtain ⟨reg, hreg⟩ := h2 j nd hj hnd hroot rfl
  obtain ⟨g1, g2, nd2, g3, g4, g5, g6⟩ := h1 reg hreg
  have hle : j ≤ reg.Node := by
    by_contra hc
    exact g6 j nd (by omega) hj hnd hroot rfl
  have hge : reg.Node ≤ j := by
    by_contra hc
    exact hlast reg.Node nd2 (by omega) g3 g4 g5
  rw [hreg]
  obtain ⟨node, rn⟩ := reg
  simp only at g1 hle hge
  rw [g1, show node = j by omega]

/-- C23: when `buildResource` returns a Resource, its region map is the result of registering
the records with parent index -1 in table order, each under its resolved name.  So every such
record has a region under its resolved name; every region has RegionName equal to its key and
to the name of its node, which is built from a record with parent index -1 of that name; and
the region under a name is the one built from the last record (highest table index) with
parent index -1 that resolves to this name. -/
theorem regions_last_one_wins (fuel : Nat) (r : LSFReader) (res : Arena.Resource)
    (h : buildResource fuel r = .ok res) :
    res.Regions = regionsOf r r.nodes.length ∧
    (∀ j nd, r.nodes[j]? = some nd → nd.ParentIndex = -1 →
      ∃ reg cell, GoMap.get res.Regions (resolveName r.names nd.NameIndex nd.NameOffset) =
          some reg ∧
        reg.RegionName = resolveName r.names nd.NameIndex nd.NameOffset ∧
        res.nodeInstances[reg.Node]? = some (some cell) ∧ cell.Name = reg.RegionName ∧
        j ≤ reg.Node) ∧
    (∀ name reg, GoMap.get res.Regions name = some reg →
      reg.RegionName = name ∧
      ∃ nd, r.nodes[reg.Node]? = some nd ∧ nd.ParentIndex = -1 ∧
        resolveName r.names nd.NameIndex nd.NameOffset = name ∧
        ∀ j2 c2, reg.Node < j2 → r.nodes[j2]? = some c2 → c2.ParentIndex = -1 →
          resolveName r.names c2.NameIndex c2.NameOffset ≠ name) ∧
    (∀ j nd, r.nodes[j]? = some nd → nd.ParentIndex = -1 →
      (∀ j2 c2, j < j2 → r.nodes[j2]? = some c2 → c2.ParentIndex = -1 →
        resolveName r.names c2.NameIndex c2.NameOffset ≠
          resolveName r.names nd.NameIndex nd.NameOffset) →
      GoMap.get res.Regions (resolveName r.names nd.NameIndex nd.NameOffset) =
        some ⟨j, resolveName r.names nd.NameIndex nd.NameOffset⟩) := by
  obtain ⟨hreg, hnames⟩ := buildResource_regions fuel r res h
  have hinv : ∀ name reg, GoMap.get res.Regions name = some reg →
      reg.RegionName = name ∧
      ∃ nd, r.nodes[reg.Node]? = some nd ∧ nd.ParentIndex = -1 ∧
        resolveName r.names nd.NameIndex nd.NameOffset = name ∧
        ∀ j2 c2, reg.Node < j2 → r.nodes[j2]? = some c2 → c2.ParentIndex = -1 →
          resolveName r.names c2.NameIndex c2.NameOffset ≠ name := by
    intro name reg hget
    rw [hreg] at hget
    obtain ⟨g1, g2, nd, g3, g4, g5, g6⟩ := (regionsOf_get r name r.nodes.length).1 reg hget
    exact ⟨g1, nd, g3, g4, g5, fun j2 c2 h1 h3 =>
      g6 j2 c2 h1 (List.getElem?_eq_some_iff.1 h3).1 h3⟩
  refine ⟨hreg, ?_, hinv, ?_⟩
  · intro j nd hnd hroot
    have hj : j < r.nodes.length := (List.getElem?_eq_some_iff.1 hnd).1
    obtain ⟨reg, hget⟩ := (regionsOf_get r _ r.nodes.length).2 j nd hj hnd hroot rfl
    rw [← hreg] at hget
    obtain ⟨g1, nd2, g3, g4, g5, g6⟩ := hinv _ reg hget
    have hn := hnames reg.Node nd2 g3
    unfold nameAt at hn
    have hle : j ≤ reg.Node := by
      by_contra hc
      exact g6 j nd (by omega) hnd hroot rfl
    rcases hcell : res.nodeInstances[reg.Node]? with _ | _ | cell
    · simp [hcell] at hn
    · simp [hcell] at hn
    · simp only [hcell, Option.some.injEq] at hn
      exact ⟨reg, cell, hget, g1, hcell, by rw [hn, g5, g1], hle⟩
  · intro j nd hnd hroot hlast
    rw [hreg]
    exact region_of_last_root r j nd hnd hroot hlast

/-- C23, witness: of the two region records named "Root" the second one is held. -/
theorem regions_last_one_wins_witness :
    (buildResource 0 twoRootsTables).map (fun res => res.Regions) =
      .ok [(lit "Root", ⟨1, lit "Root"⟩)] ∧
    GoMap.get [(lit "Root", (⟨1, lit "Root"⟩ : Arena.Region))] (lit "Root") =
      some ⟨1, lit "Root"⟩ :=
  ⟨rfl,
   (regions_last_one_wins 0 twoRootsTables
      ⟨⟨0, 0, 0, 0, 0⟩, [(lit "Root", ⟨1, lit "Root"⟩)],
        [some ⟨lit "Root", none, [], [], []⟩, some ⟨lit "Root", none, [], [], lit "second"⟩]⟩
      rfl).2.2.2 1 ⟨-1, 0, 0, -1, lit "second"⟩ rfl rfl
      (fun j2 c2 h1 h2 => absurd (List.getElem?_eq_some_iff.1 h2).1
        (by simp [twoRootsTables]; omega))⟩

theorem GoMap.length_set_fresh {V : Type} (m : GoMap V) (k : GoString) (v : V)
    (h : k ∉ GoMap.keys m) : (GoMap.set m k v).length = m.length + 1 := by
  induction m with
  | nil => simp [GoMap.set]
  | cons e rest ih =>
    obtain ⟨k1, v1⟩ := e
    simp only [GoMap.keys, List.map_cons, List.mem_cons, not_or] at h
    simp only [GoMap.set]
    rw [if_neg (fun hk => h.1 hk.symm)]
    simp only [List.length_cons]
    rw [ih h.2]

theorem regionsOf_length (r : LSFReader)
    (hdistinct : ∀ (i j : Nat) (ci cj : LSFNodeInfo), r.nodes[i]? = some ci → r.nodes[j]? = some cj →
      ci.ParentIndex = -1 → cj.ParentIndex = -1 →
      resolveName r.names ci.NameIndex ci.NameOffset =
        resolveName r.names cj.NameIndex cj.NameOffset → i = j) :
    ∀ k, k ≤ r.nodes.length →
      (regionsOf r k).length =
        ((r.nodes.take k).filter (fun c => decide (c.ParentIndex = -1))).length := by
  intro k
  induction k with
  | zero =>
    intro _
    rfl
  | succ k ih =>
    intro hk
    have hlt : k < r.nodes.length := by omega
    have hget : r.nodes[k]? = some r.nodes[k] := List.getElem?_eq_getElem hlt
    rw [regionsOf_succ, hget, List.take_succ, hget]
    simp only [Option.toList, List.filter_append, List.length_append]
    by_cases hroot : (r.nodes[k]).ParentIndex = -1
    · rw [if_pos hroot]
      have hfresh : resolveName r.names (r.nodes[k]).NameIndex (r.nodes[k]).NameOffset ∉
          GoMap.keys (regionsOf r k) := by
        intro hmem
        obtain ⟨reg, hreg⟩ := GoMap.get_of_mem_keys _ _ hmem
        obtain ⟨_, g2, nd, g3, g4, g5, _⟩ := (regionsOf_get r _ k).1 reg hreg
        have := hdistinct reg.Node k nd _ g3 hget g4 hroot g5
        omega
      rw [GoMap.length_set_fresh _ _ _ hfresh, ih (by omega)]
      simp [hroot]
    · rw [if_neg hroot, ih (by omega)]
      simp [hroot]

theorem reachable_of_cells (r : LSFReader) (fuel : Nat) (res : Arena.Resource)
    (hpar : ∀ (j : Nat) (c : LSFNodeInfo), r.nodes[j]? = some c →
      c.ParentIndex = -1 ∨ (0 ≤ c.ParentIndex ∧ c.ParentIndex < (j : Int)))
    (hdistinct : ∀ (i j : Nat) (ci cj : LSFNodeInfo), r.nodes[i]? = some ci →
      r.nodes[j]? = some cj → ci.ParentIndex = -1 → cj.ParentIndex = -1 →
      resolveName r.names ci.NameIndex ci.NameOffset =
        resolveName r.names cj.NameIndex cj.NameOffset → i = j)
    (hcells : CellsBuilt r fuel r.nodes.length res) :
    ∀ i, i < r.nodes.length → Reachable res i := by
  obtain ⟨_, hreg, hcell, _⟩ := hcells
  intro i
  induction i using Nat.strong_induction_on with
  | _ i ih =>
    intro hi
    have hnd : r.nodes[i]? = some r.nodes[i] := List.getElem?_eq_getElem hi
    rcases hpar i _ hnd with hroot | ⟨hp0, hpi⟩
    · have hget := region_of_last_root r i _ hnd hroot
        (fun j2 c2 h1 h2 h3 h4 => by
          have := hdistinct j2 i c2 _ h2 hnd h3 hroot h4
          omega)
      rw [← hreg] at hget
      exact Reachable.region _ ⟨i, _⟩ hget
    · have hplt : (r.nodes[i]).ParentIndex.toNat < i := by omega
      have hplen : (r.nodes[i]).ParentIndex.toNat < r.nodes.length := by omega
      have hpnd : r.nodes[(r.nodes[i]).ParentIndex.toNat]? =
          some r.nodes[(r.nodes[i]).ParentIndex.toNat] := List.getElem?_eq_getElem hplen
      obtain ⟨parent, g1, _, _, _, _, g6⟩ := hcell _ _ hplen hpnd
      have hmem : i ∈ childRecords r r.nodes.length (r.nodes[i]).ParentIndex.toNat
          (resolveName r.names (r.nodes[i]).NameIndex (r.nodes[i]).NameOffset) := by
        unfold childRecords
        rw [List.mem_filter]
        refine ⟨List.mem_range.2 hi, ?_⟩
        rw [hnd]
        simp only [decide_eq_true_eq, and_true]
        omega
      rw [← g6] at hmem
      rcases hc : GoMap.get parent.Children
          (resolveName r.names (r.nodes[i]).NameIndex (r.nodes[i]).NameOffset) with _ | l
      · rw [hc] at hmem
        simp at hmem
      · rw [hc] at hmem
        exact Reachable.child _ i parent _ l (ih _ hplt hplen) g1 hc hmem

/-- C22, counterexample: of two records with parent index -1 that both resolve to "Root",
`buildResource` keeps one region, and the node of the first record is reachable from no
region. -/
theorem duplicate_root_names_share_a_region :
    (twoRootsTables.nodes.filter (fun c => decide (c.ParentIndex = -1))).length = 2 ∧
    (buildResource 0 twoRootsTables).map (fun res => res.Regions.length) = .ok 1 ∧
    ∀ res, buildResource 0 twoRootsTables = .ok res → ¬ Reachable res 0 := by
  refine ⟨rfl, rfl, ?_⟩
  intro res hres
  have hres2 : buildResource 0 twoRootsTables =
      .ok ⟨⟨0, 0, 0, 0, 0⟩, [(lit "Root", ⟨1, lit "Root"⟩)],
        [some ⟨lit "Root", none, [], [], []⟩, some ⟨lit "Root", none, [], [], lit "second"⟩]⟩ :=
    rfl
  rw [hres2] at hres
  cases hres
  have hall : ∀ i, Reachable ⟨⟨0, 0, 0, 0, 0⟩, [(lit "Root", ⟨1, lit "Root"⟩)],
      [some ⟨lit "Root", none, [], [], []⟩, some ⟨lit "Root", none, [], [], lit "second"⟩]⟩ i →
      i = 1 := by
    intro i hi
    induction hi with
    | region name reg hget =>
      simp only [GoMap.get] at hget
      split_ifs at hget
      cases hget
      rfl
    | child p i parent name children _ hcell hget _ ihp =>
      subst ihp
      simp only [List.getElem?_cons_succ, List.getElem?_cons_zero, Option.some.injEq] at hcell
      subst hcell
      simp [GoMap.get] at hget
  intro h0
  have := hall 0 h0
  omega

/-- C22, amended: for every well-formed node table (every parent index is -1 or a smaller
record index, every name resolves, every attribute loop completes) in which the records with
parent index -1 resolve to pairwise distinct names, `buildResource` returns a Resource whose
number of regions equals the number of records with parent index -1, each such record having
its own region, and every node record is reachable from some region. -/
theorem one_region_per_root_name (r : LSFReader) (fuel : Nat) (md : LSFMetadataV6)
    (hmd : r.metadata = some md)
    (hpar : ∀ (j : Nat) (c : LSFNodeInfo), r.nodes[j]? = some c →
      c.ParentIndex = -1 ∨ (0 ≤ c.ParentIndex ∧ c.ParentIndex < (j : Int)))
    (hname : ∀ c ∈ r.nodes, ∃ name, lookupName r.names c.NameIndex c.NameOffset = .ok name)
    (hattr : ∀ c ∈ r.nodes, ∃ attrs,
      readNodeAttributes r (newBinaryReaderFromBytes r.values) fuel fuel
        c.FirstAttributeIndex [] = .ok attrs)
    (hdistinct : ∀ (i j : Nat) (ci cj : LSFNodeInfo), r.nodes[i]? = some ci →
      r.nodes[j]? = some cj → ci.ParentIndex = -1 → cj.ParentIndex = -1 →
      resolveName r.names ci.NameIndex ci.NameOffset =
        resolveName r.names cj.NameIndex cj.NameOffset → i = j) :
    ∃ res, buildResource fuel r = .ok res ∧
      res.Regions.length = (r.nodes.filter (fun c => decide (c.ParentIndex = -1))).length ∧
      (∀ j nd, r.nodes[j]? = some nd → nd.ParentIndex = -1 →
        GoMap.get res.Regions (resolveName r.names nd.NameIndex nd.NameOffset) =
          some ⟨j, resolveName r.names nd.NameIndex nd.NameOffset⟩) ∧
      ∀ i, i < r.nodes.length → Reachable res i := by
  obtain ⟨res, hres, hcells⟩ := buildResource_spec r fuel md hmd hpar hname hattr
  refine ⟨res, hres, ?_, ?_, reachable_of_cells r fuel res hpar hdistinct hcells⟩
  · rw [hcells.2.1, regionsOf_length r hdistinct r.nodes.length (Nat.le_refl _),
      List.take_length]
  · intro j nd hnd hroot
    rw [hcells.2.1]
    exact region_of_last_root r j nd hnd hroot (fun j2 c2 h1 h2 h3 h4 => by
      have := hdistinct j2 j c2 nd h2 hnd h3 hroot h4
      omega)

/-- C22, witness: the two-record table (Root with parent -1, Child with parent 0). -/
theorem one_region_per_root_name_witness :
    ∃ res, buildResource 0 twoRecordTables = .ok res ∧
      res.Regions.length =
        (twoRecordTables.nodes.filter (fun c => decide (c.ParentIndex = -1))).length ∧
      (∀ j nd, twoRecordTables.nodes[j]? = some nd → nd.ParentIndex = -1 →
        GoMap.get res.Regions (resolveName twoRecordTables.names nd.NameIndex nd.NameOffset) =
          some ⟨j, resolveName twoRecordTables.names nd.NameIndex nd.NameOffset⟩) ∧
      ∀ i, i < twoRecordTables.nodes.length → Reachable res i :=
  one_region_per_root_name twoRecordTables 0 (decodeMetadata []) rfl
    (by
      intro j c h
      match j, h with
      | 0, h => cases h; exact Or.inl rfl
      | 1, h => cases h; exact Or.inr ⟨by decide, by decide⟩
      | j + 2, h => cases h)
    (by
      intro c hc
      simp only [twoRecordTables, List.mem_cons, List.mem_singleton, List.not_mem_nil,
        or_false] at hc
      rcases hc with rfl | rfl
      · exact ⟨lit "Root", rfl⟩
      · exact ⟨lit "Child", rfl⟩)
    (by
      intro c hc
      simp only [twoRecordTables, List.mem_cons, List.mem_singleton, List.not_mem_nil,
        or_false] at hc
      rcases hc with rfl | rfl
      · exact ⟨[], rfl⟩
      · exact ⟨[], rfl⟩)
    (by
      intro i j ci cj hi hj hri hrj _
      match i, hi, j, hj with
      | 0, _, 0, _ => rfl
      | 0, _, 1, hj => cases hj; exact absurd hrj (by decide)
      | 1, hi, _, _ => cases hi; exact absurd hri (by decide)
      | 0, _, j + 2, hj => cases hj
      | i + 2, hi, _, _ => cases hi)

theorem readString_error (reader : Reader) (length : Int) (e : Fault)
    (h : readString reader length = .error e) : length < 0 ∧ e = .makeLenOutOfRange := by
  unfold readString at h
  split_ifs at h with h0 h1
  simp only [Except.error.injEq] at h
  exact ⟨by omega, h.symm⟩

theorem readString_ok_of_nonneg (reader : Reader) (length : Int) (h : 0 ≤ length) :
    ∃ s rd, readString reader length = .ok (s, rd) := by
  rcases hr : readString reader length with e | ⟨s, rd⟩
  · have := (readString_error reader length e hr).1
    omega
  · exact ⟨s, rd, rfl⟩

theorem readTranslatedFSStringArgs_error
    (nested : Reader → Except Fault (TranslatedFSString × Reader))
    (hn : ∀ rd e, nested rd = .error e → e = .makeLenOutOfRange ∨ e = .outOfFuel) :
    ∀ (count : Nat) (reader : Reader) (args : List TranslatedFSStringArgument) (e : Fault),
      readTranslatedFSStringArgs nested count reader args = .error e →
      e = .makeLenOutOfRange ∨ e = .outOfFuel := by
  intro count
  induction count with
  | zero =>
    intro reader args e h
    simp [readTranslatedFSStringArgs] at h
  | succ count ih =>
    intro reader args e h
    unfold readTranslatedFSStringArgs at h
    simp only at h
    rcases h1 : readString (readInt32 reader).2 (readInt32 reader).1.1 with e1 | ⟨key, r1⟩
    · simp only [h1, Except.error.injEq] at h
      rw [← h]
      exact Or.inl (readString_error _ _ _ h1).2
    simp only [h1] at h
    rcases h2 : nested r1 with e2 | ⟨str, r2⟩
    · simp only [h2, Except.error.injEq] at h
      rw [← h]
      exact hn _ _ h2
    simp only [h2] at h
    rcases h3 : readString (readInt32 r2).2 (readInt32 r2).1.1 with e3 | ⟨value, r3⟩
    · simp only [h3, Except.error.injEq] at h
      rw [← h]
      exact Or.inl (readString_error _ _ _ h3).2
    simp only [h3] at h
    exact ih _ _ _ h

theorem readTranslatedFSString_error :
    ∀ (fuel : Nat) (reader : Reader) (e : Fault),
      readTranslatedFSString fuel reader = .error e →
      e = .makeLenOutOfRange ∨ e = .outOfFuel := by
  intro fuel
  induction fuel with
  | zero =>
    intro reader e h
    simp only [readTranslatedFSString, Except.error.injEq] at h
    exact Or.inr h.symm
  | succ fuel ih =>
    intro reader e h
    unfold readTranslatedFSString at h
    simp only at h
    rcases h1 : readString (readInt32 (readUint16 reader).2).2
        (readInt32 (readUint16 reader).2).1.1 with e1 | ⟨handle, r1⟩
    · simp only [h1, Except.error.injEq] at h
      rw [← h]
      exact Or.inl (readString_error _ _ _ h1).2
    simp only [h1] at h
    split_ifs at h with hneg
    · simp only [Except.error.injEq] at h
      exact Or.inl h.symm
    · rcases h2 : readTranslatedFSStringArgs (readTranslatedFSString fuel)
          (readInt32 r1).1.1.toNat (readInt32 r1).2 [] with e2 | ⟨args, r2⟩
      · simp only [h2, Except.error.injEq] at h
        rw [← h]
        exact readTranslatedFSStringArgs_error _ ih _ _ _ _ h2
      · simp [h2] at h

theorem readAttribute_error (depth attrType : Nat) (reader : Reader) (length : Nat) (e : Fault)
    (h : readAttribute depth attrType reader length = .error e) :
    (attrType = AttrTranslatedString ∨ attrType = AttrTranslatedFSString) ∧
    (e = .makeLenOutOfRange ∨ e = .outOfFuel) := by
  unfold readAttribute at h
  split_ifs at h with c1 c2 c3
  · rcases h1 : readString reader (length : Int) with e1 | ⟨v, r1⟩
    · have := (readString_error _ _ _ h1).1
      omega
    · simp [h1] at h
  · simp only at h
    rcases h1 : readString (readInt32 (readUint16 reader).2).2
        (readInt32 (readUint16 reader).2).1.1 with e1 | ⟨v, r1⟩
    · simp only [h1, Except.error.injEq] at h
      rw [← h]
      exact ⟨Or.inl c2, Or.inl (readString_error _ _ _ h1).2⟩
    · simp [h1] at h
  · rcases h1 : readTranslatedFSString depth reader with e1 | ⟨v, r1⟩
    · simp only [h1, Except.error.injEq] at h
      rw [← h]
      exact ⟨Or.inr c3, readTranslatedFSString_error _ _ _ h1⟩
    · simp [h1] at h

theorem AttrChain.mem {attributes : List LSFAttributeInfo} {idx : Int}
    {chain : List LSFAttributeInfo} (h : AttrChain attributes idx chain) :
    ∀ a ∈ chain, a ∈ attributes := by
  induction h with
  | done =>
    intro a ha
    cases ha
  | step idx a rest _ hidx _ ih =>
    intro b hb
    rcases List.mem_cons.mp hb with rfl | hb
    · unfold indexInt at hidx
      split_ifs at hidx
      exact List.mem_iff_getElem?.2 ⟨_, hidx⟩
    · exact ih b hb

theorem readNodeAttributes_ok (r : LSFReader) (depth fuel : Nat) (idx : Int)
    (chain : List LSFAttributeInfo) (hchain : AttrChain r.attributes idx chain)
    (hfuel : chain.length ≤ fuel) (hdepth : r.values.length < depth)
    (hnames : ∀ a ∈ r.attributes, ∃ name,
      lookupName r.names a.NameIndex a.NameOffset = .ok name)
    (hlens : ∀ a ∈ r.attributes, ∀ depth,
      readAttribute depth a.TypeId ((newBinaryReaderFromBytes r.values).Seek a.DataOffset)
        a.Length ≠ .error .makeLenOutOfRange)
    (attrs : GoMap NodeAttribute) :
    ∃ res, readNodeAttributes r (newBinaryReaderFromBytes r.values) depth fuel idx attrs =
      .ok res := by
  refine ⟨_, readNodeAttributes_chain r (newBinaryReaderFromBytes r.values) depth
    (fun a => resolveName r.names a.NameIndex a.NameOffset)
    (fun a => match readAttribute depth a.TypeId
        ((newBinaryReaderFromBytes r.values).Seek a.DataOffset) a.Length with
      | .ok (v, _) => v
      | .error _ => ⟨0, .nil⟩) chain fuel idx attrs hchain hfuel ?_⟩
  intro a ha
  have hmem := hchain.mem a ha
  obtain ⟨name, hname⟩ := hnames a hmem
  refine ⟨by simp only [resolveName, hname], ?_⟩
  rcases hr : readAttribute depth a.TypeId
      ((newBinaryReaderFromBytes r.values).Seek a.DataOffset) a.Length with e | ⟨v, rd⟩
  · exfalso
    rcases (readAttribute_error _ _ _ _ _ hr).2 with he | he
    · subst he
      exact hlens a hmem depth hr
    · subst he
      exact readAttribute_fuel depth a.TypeId _ a.Length
        (by simp only [newBinaryReaderFromBytes, Reader.Seek, Reader.Len]; omega) hr
  · exact ⟨rd, by simp only [hr]⟩

theorem chains_bounded (attributes : List LSFAttributeInfo) (nodes : List LSFNodeInfo)
    (h : ∀ c ∈ nodes, ∃ l, AttrChain attributes c.FirstAttributeIndex l) :
    ∃ bound, ∀ c ∈ nodes, ∃ l, AttrChain attributes c.FirstAttributeIndex l ∧
      l.length ≤ bound := by
  induction nodes with
  | nil => exact ⟨0, fun c hc => absurd hc (List.not_mem_nil c)⟩
  | cons c rest ih =>
    obtain ⟨b, hb⟩ := ih (fun c2 hc2 => h c2 (List.mem_cons_of_mem _ hc2))
    obtain ⟨l, hl⟩ := h c (List.mem_cons_self _ _)
    refine ⟨max b l.length, fun c2 hc2 => ?_⟩
    rcases List.mem_cons.mp hc2 with rfl | hc2
    · exact ⟨l, hl, le_max_right _ _⟩
    · obtain ⟨l2, h1, h2⟩ := hb c2 hc2
      exact ⟨l2, h1, le_trans h2 (le_max_left _ _)⟩

theorem readKeysLoop_ok (names : List (List GoString)) (data : List Byte)
    (hnames : ∀ k, 8 * k + 8 ≤ data.length →
      ∃ name, lookupName names (field data (8 * k + 4) 4 >>> 16)
        (field data (8 * k + 4) 4 &&& 0xffff) = .ok name) :
    ∀ (fuel k : Nat) (nodes : List LSFNodeInfo), data.length ≤ 8 * k + fuel →
      ∃ res, readKeysLoop names (fuel + 1) ⟨data, 8 * k⟩ nodes = .ok res := by
  intro fuel
  induction fuel with
  | zero =>
    intro k nodes h
    unfold readKeysLoop
    rw [if_neg (by simp only [Reader.Len]; omega)]
    exact ⟨_, rfl⟩
  | succ fuel ih =>
    intro k nodes h
    unfold readKeysLoop
    split_ifs with hpos
    · rcases hf : readFull ⟨data, 8 * k⟩ 8 with ⟨_ | bs, r1⟩
      · exact ⟨_, rfl⟩
      · obtain ⟨hle, hbs, hr1⟩ := readFull_ok_inv ⟨data, 8 * k⟩ 8 (by decide) bs r1 hf
        simp only at hle hbs hr1
        subst hbs hr1
        simp only [decodeKeyEntry]
        rw [field_window data (8 * k) 8 4 4 (by decide)]
        obtain ⟨name, hname⟩ := hnames k hle
        simp only [hname]
        rw [show 8 * k + 8 = 8 * (k + 1) by omega]
        exact ih (k + 1) _ (by omega)
    · exact ⟨_, rfl⟩

theorem readKeys_ok (r : LSFReader) (data : List Byte)
    (hnames : ∀ k, 8 * k + 8 ≤ data.length →
      ∃ name, lookupName r.names (field data (8 * k + 4) 4 >>> 16)
        (field data (8 * k + 4) 4 &&& 0xffff) = .ok name) :
    ∃ res, readKeys r data = .ok res := by
  unfold readKeys newBinaryReaderFromBytes
  obtain ⟨res, hres⟩ := readKeysLoop_ok r.names data hnames data.length 0 r.nodes (by omega)
  simp only [Nat.mul_zero] at hres
  rw [hres]
  exact ⟨_, rfl⟩

theorem readInt32_nonneg (data : List Byte)
    (hnn : ∀ pos, 0 ≤ (readInt32 ⟨data, pos⟩).1.1) (rd : Reader) (hrd : rd.data = data) :
    0 ≤ (readInt32 rd).1.1 := by
  obtain ⟨d, pos⟩ := rd
  simp only at hrd
  subst hrd
  exact hnn pos

theorem readString_nonneg (data : List Byte) (rd : Reader) (hrd : rd.data = data)
    (length : Int) (h : 0 ≤ length) :
    ∃ s r2, readString rd length = .ok (s, r2) ∧ r2.data = data := by
  obtain ⟨s, r2, hs⟩ := readString_ok_of_nonneg rd length h
  have := readString_returned rd length
  rw [hs] at this
  exact ⟨s, r2, hs, this.1.trans hrd⟩

theorem readTranslatedFSStringArgs_nonneg (data : List Byte)
    (hnn : ∀ pos, 0 ≤ (readInt32 ⟨data, pos⟩).1.1)
    (nested : Reader → Except Fault (TranslatedFSString × Reader))
    (hn : ∀ rd : Reader, rd.data = data → MetNoNegativeLength data (nested rd)) :
    ∀ (count : Nat) (reader : Reader) (args : List TranslatedFSStringArgument),
      reader.data = data →
      MetNoNegativeLength data (readTranslatedFSStringArgs nested count reader args) := by
  intro count
  induction count with
  | zero =>
    intro reader args hrd
    exact hrd
  | succ count ih =>
    intro reader args hrd
    unfold readTranslatedFSStringArgs
    simp only
    have d0 : (readInt32 reader).2.data = data := (readInt_after 4 reader).1.trans hrd
    obtain ⟨key, r1, h1, d1⟩ := readString_nonneg data (readInt32 reader).2 d0
      (readInt32 reader).1.1 (readInt32_nonneg data hnn reader hrd)
    rw [h1]
    simp only
    have s2 := hn r1 d1
    rcases h2 : nested r1 with e2 | ⟨str, r2⟩
    · rw [h2] at s2
      exact s2
    rw [h2] at s2
    have d2 : r2.data = data := s2
    simp only
    have d3 : (readInt32 r2).2.data = data := (readInt_after 4 r2).1.trans d2
    obtain ⟨value, r3, h3, d4⟩ := readString_nonneg data (readInt32 r2).2 d3
      (readInt32 r2).1.1 (readInt32_nonneg data hnn r2 d2)
    rw [h3]
    simp only
    exact ih r3 _ d4

theorem readTranslatedFSString_nonneg (data : List Byte)
    (hnn : ∀ pos, 0 ≤ (readInt32 ⟨data, pos⟩).1.1) :
    ∀ (fuel : Nat) (reader : Reader), reader.data = data →
      MetNoNegativeLength data (readTranslatedFSString fuel reader) := by
  intro fuel
  induction fuel with
  | zero =>
    intro reader _
    rfl
  | succ fuel ih =>
    intro reader hrd
    unfold readTranslatedFSString
    simp only
    have d0 : (readUint16 reader).2.data = data := (readUint_after 2 reader).1.trans hrd
    have d1 : (readInt32 (readUint16 reader).2).2.data = data :=
      (readInt_after 4 _).1.trans d0
    obtain ⟨handle, r1, h1, d2⟩ := readString_nonneg data _ d1
      (readInt32 (readUint16 reader).2).1.1 (readInt32_nonneg data hnn _ d0)
    rw [h1]
    simp only
    rw [if_neg (by have := readInt32_nonneg data hnn r1 d2; omega)]
    have d3 : (readInt32 r1).2.data = data := (readInt_after 4 r1).1.trans d2
    have s2 := readTranslatedFSStringArgs_nonneg data hnn (readTranslatedFSString fuel) ih
      (readInt32 r1).1.1.toNat (readInt32 r1).2 [] d3
    rcases h2 : readTranslatedFSStringArgs (readTranslatedFSString fuel)
        (readInt32 r1).1.1.toNat (readInt32 r1).2 [] with e2 | ⟨args, r2⟩
    · rw [h2] at s2
      exact s2
    · rw [h2] at s2
      exact s2

theorem readAttribute_nonneg (data : List Byte)
    (hnn : ∀ pos, 0 ≤ (readInt32 ⟨data, pos⟩).1.1) (depth attrType : Nat) (reader : Reader)
    (hrd : reader.data = data) (length : Nat) :
    readAttribute depth attrType reader length ≠ .error .makeLenOutOfRange := by
  intro h
  have hcases := (readAttribute_error _ _ _ _ _ h).1
  unfold readAttribute at h
  split_ifs at h with c1 c2 c3
  · rcases hcases with hc | hc <;> rw [hc] at c1 <;> revert c1 <;> decide
  · simp only at h
    have d0 : (readUint16 reader).2.data = data := (readUint_after 2 reader).1.trans hrd
    have d1 : (readInt32 (readUint16 reader).2).2.data = data :=
      (readInt_after 4 _).1.trans d0
    obtain ⟨handle, r1, h1, _⟩ := readString_nonneg data _ d1
      (readInt32 (readUint16 reader).2).1.1 (readInt32_nonneg data hnn _ d0)
    simp [h1] at h
  · have s1 := readTranslatedFSString_nonneg data hnn depth reader hrd
    rcases h1 : readTranslatedFSString depth reader with e1 | ⟨v, r1⟩
    · rw [h1] at s1
      simp only [h1, Except.error.injEq] at h
      have : e1 = Fault.outOfFuel := s1
      rw [this] at h
      cases h
    · simp [h1] at h

/-- C29: for flat tables with metadata in which every node and attribute name reference
resolves, every parent index is -1 or a smaller record index, the attribute chain of every
node record reaches -1 inside the attribute table, and decoding no attribute meets a negative
string length or argument count (the only way `readAttribute` stops with a negative-size
allocation), `buildResource` returns a Resource for every fuel from some bound on: none of
its panics is reached, whatever the value offsets are.  `readKeys` does not panic on any key
table whose whole records have resolving name references.  `readString` fails exactly for a
negative length; `readAttribute` can fail only for the two translated-string tags, and only
by such an allocation (or by the fuel of the model); and a value blob none of whose 4-byte
windows is a negative `int32` never leads to one. -/
theorem well_formed_tables_never_panic (r : LSFReader) (md : LSFMetadataV6)
    (hmd : r.metadata = some md)
    (hpar : ∀ (j : Nat) (c : LSFNodeInfo), r.nodes[j]? = some c →
      c.ParentIndex = -1 ∨ (0 ≤ c.ParentIndex ∧ c.ParentIndex < (j : Int)))
    (hnodeNames : ∀ c ∈ r.nodes, ∃ name,
      lookupName r.names c.NameIndex c.NameOffset = .ok name)
    (hattrNames : ∀ a ∈ r.attributes, ∃ name,
      lookupName r.names a.NameIndex a.NameOffset = .ok name)
    (hchains : ∀ c ∈ r.nodes, ∃ chain, AttrChain r.attributes c.FirstAttributeIndex chain)
    (hlens : ∀ a ∈ r.attributes, ∀ depth,
      readAttribute depth a.TypeId ((newBinaryReaderFromBytes r.values).Seek a.DataOffset)
        a.Length ≠ .error .makeLenOutOfRange) :
    (∃ fuel0, ∀ fuel, fuel0 ≤ fuel → ∃ res, buildResource fuel r = .ok res) ∧
    (∀ data : List Byte,
      (∀ k, 8 * k + 8 ≤ data.length →
        ∃ name, lookupName r.names (field data (8 * k + 4) 4 >>> 16)
          (field data (8 * k + 4) 4 &&& 0xffff) = .ok name) →
      ∃ res, readKeys r data = .ok res) ∧
    (∀ (rd : Reader) (len : Int), (∃ e, readString rd len = .error e) ↔ len < 0) ∧
    (∀ (depth t : Nat) (rd : Reader) (len : Nat) (e : Fault),
      readAttribute depth t rd len = .error e →
      (t = AttrTranslatedString ∨ t = AttrTranslatedFSString) ∧
      (e = .makeLenOutOfRange ∨ e = .outOfFuel)) ∧
    ((∀ pos, 0 ≤ (readInt32 ⟨r.values, pos⟩).1.1) →
      ∀ (depth t off len : Nat),
        readAttribute depth t ((newBinaryReaderFromBytes r.values).Seek off) len ≠
          .error .makeLenOutOfRange) := by
  refine ⟨?_, fun data hk => readKeys_ok r data hk, fun rd len => ⟨?_, ?_⟩,
    readAttribute_error, fun hnn depth t off len =>
      readAttribute_nonneg r.values hnn depth t _ rfl len⟩
  · obtain ⟨bound, hb⟩ := chains_bounded r.attributes r.nodes hchains
    refine ⟨bound + r.values.length + 1, fun fuel hfuel => ?_⟩
    obtain ⟨res, hres, _⟩ := buildResource_spec r fuel md hmd hpar hnodeNames
      (fun c hc => by
        obtain ⟨chain, hchain, hlen⟩ := hb c hc
        exact readNodeAttributes_ok r fuel fuel _ chain hchain (by omega) (by omega)
          hattrNames hlens [])
    exact ⟨res, hres⟩
  · rintro ⟨e, he⟩
    exact (readString_error rd len e he).1
  · intro hneg
    refine ⟨.makeLenOutOfRange, ?_⟩
    unfold readString
    rw [if_neg (by omega), if_pos (by omega)]

/-- C29, witness: the table with one region whose attribute chain has three `uint8`
entries. -/
theorem well_formed_tables_never_panic_witness :
    ∃ fuel0, ∀ fuel, fuel0 ≤ fuel → ∃ res, buildResource fuel chainTables = .ok res :=
  (well_formed_tables_never_panic chainTables (decodeMetadata []) rfl
    (by
      intro j c h
      match j, h with
      | 0, h => cases h; exact Or.inl rfl
      | j + 1, h => cases h)
    (by
      intro c hc
      simp only [chainTables, List.mem_singleton] at hc
      subst hc
      exact ⟨lit "R", rfl⟩)
    (by
      intro a ha
      simp only [chainTables, List.mem_cons, List.mem_singleton, List.not_mem_nil,
        or_false] at ha
      rcases ha with rfl | rfl | rfl
      · exact ⟨lit "a", rfl⟩
      · exact ⟨lit "b", rfl⟩
      · exact ⟨lit "a", rfl⟩)
    (by
      intro c hc
      simp only [chainTables, List.mem_singleton] at hc
      subst hc
      exact ⟨[⟨0, 1, AttrByte, 1, 0, 1⟩, ⟨0, 2, AttrByte, 1, 1, 2⟩, ⟨0, 1, AttrByte, 1, 2, -1⟩],
        AttrChain.step _ _ _ (by decide) rfl
          (AttrChain.step _ _ _ (by decide) rfl
            (AttrChain.step _ _ _ (by decide) rfl AttrChain.done))⟩)
    (by
      intro a ha depth h
      have ht := (readAttribute_error _ _ _ _ _ h).1
      simp only [chainTables, List.mem_cons, List.mem_singleton, List.not_mem_nil,
        or_false] at ha
      rcases ha with rfl | rfl | rfl <;> revert ht <;> decide)).1

theorem leBytes_length (n v : Nat) : (leBytes n v).length = n := by
  induction n generalizing v with
  | zero => rfl
  | succ n ih => simp [leBytes, ih]

theorem le_leBytes (n v : Nat) (h : v < 256 ^ n) : le (leBytes n v) = v := by
  induction n generalizing v with
  | zero =>
    simp only [pow_zero, Nat.lt_one_iff] at h
    subst h
    rfl
  | succ n ih =>
    simp only [leBytes, le]
    rw [ih (v / 256) (by rw [pow_succ] at h; exact Nat.div_lt_of_lt_mul (by omega))]
    have : (Fin.ofNat (v % 256) : Byte).val = v % 256 := by
      simp [Fin.ofNat, Nat.mod_mod]
    rw [this]
    omega

theorem drop_after_head (data : List Byte) (pos : Nat) (x rest : List Byte)
    (h : data.drop pos = x ++ rest) : data.drop (pos + x.length) = rest := by
  rw [← List.drop_drop, h]
  simp

theorem length_of_drop (data : List Byte) (pos : Nat) (x rest : List Byte)
    (h : data.drop pos = x ++ rest) (hx : 0 < x.length) : pos + x.length ≤ data.length := by
  have := congrArg List.length h
  simp only [List.length_drop, List.length_append] at this
  omega

theorem readUint_at (n v : Nat) (data : List Byte) (pos : Nat) (rest : List Byte)
    (hn : 0 < n) (hv : v < 256 ^ n) (h : data.drop pos = leBytes n v ++ rest) :
    readUint n ⟨data, pos⟩ = ((v, none), ⟨data, pos + n⟩) := by
  have hlen := length_of_drop data pos _ rest h (by rw [leBytes_length]; exact hn)
  rw [leBytes_length] at hlen
  rw [readUint_ok n data pos hn hlen]
  unfold field
  rw [h, List.take_left' (leBytes_length n v), le_leBytes n v hv]

theorem readInt32_at (v : Nat) (data : List Byte) (pos : Nat) (rest : List Byte)
    (hv : v < 2 ^ 31) (h : data.drop pos = leBytes 4 v ++ rest) :
    readInt32 ⟨data, pos⟩ = (((v : Int), none), ⟨data, pos + 4⟩) := by
  have hlen := length_of_drop data pos _ rest h (by rw [leBytes_length]; decide)
  rw [leBytes_length] at hlen
  unfold readInt32
  rw [readInt_ok 4 data pos (by decide) hlen]
  unfold field
  rw [h, List.take_left' (leBytes_length 4 v), le_leBytes 4 v (by omega)]
  unfold toSigned
  rw [if_pos (by norm_num; omega)]

theorem rdropWhile_noTrailingNul (s : GoString) (h : noTrailingNul s) :
    s.rdropWhile (fun b => b == 0) = s := by
  unfold noTrailingNul at h
  rcases List.eq_nil_or_concat s with rfl | ⟨l, b, rfl⟩
  · rfl
  · rw [List.concat_eq_append] at h ⊢
    rw [List.rdropWhile_concat]
    have hb : b ≠ 0 := by
      intro hb
      apply h
      simp [hb]
    simp [hb]

theorem readString_at (s : GoString) (data : List Byte) (pos : Nat) (rest : List Byte)
    (hs : noTrailingNul s) (h : data.drop pos = s ++ [0] ++ rest) :
    readString ⟨data, pos⟩ (((s.length + 1 : Nat)) : Int) =
      .ok (s, ⟨data, pos + (s.length + 1)⟩) := by
  have hlen := length_of_drop data pos _ rest h (by simp)
  simp only [List.length_append, List.length_singleton] at hlen
  rw [(readString_spec data pos (s.length + 1) (by omega) hlen).1]
  simp only [Nat.add_sub_cancel]
  rw [h, List.append_assoc, List.take_left' rfl, rdropWhile_noTrailingNul s hs]

theorem readArgs_roundtrip (fuel : Nat)
    (ih : ∀ (t : TranslatedFSString) (data : List Byte) (pos : Nat) (rest : List Byte),
      fsDepth t ≤ fuel → FSWellFormed t → data.drop pos = serializeFS t ++ rest →
      readTranslatedFSString fuel ⟨data, pos⟩ =
        .ok (t, ⟨data, pos + (serializeFS t).length⟩)) :
    ∀ (args acc : List TranslatedFSStringArgument) (data : List Byte) (pos : Nat)
      (rest : List Byte), argsDepth args ≤ fuel → ArgsWellFormed args →
      data.drop pos = serializeArgs args ++ rest →
      readTranslatedFSStringArgs (readTranslatedFSString fuel) args.length ⟨data, pos⟩ acc =
        .ok (acc ++ args, ⟨data, pos + (serializeArgs args).length⟩) := by
  intro args
  induction args with
  | nil =>
    intro acc data pos rest _ _ _
    simp [readTranslatedFSStringArgs, serializeArgs]
  | cons arg args iha =>
    intro acc data pos rest hdepth hwf hdrop
    obtain ⟨key, value, str⟩ := arg
    simp only [argsDepth, argDepth] at hdepth
    simp only [ArgsWellFormed, ArgWellFormed] at hwf
    obtain ⟨⟨hk, hkl, hv, hvl, hstr⟩, hrest⟩ := hwf
    simp only [serializeArgs, serializeArg, List.append_assoc] at hdrop
    simp only [List.length_cons, readTranslatedFSStringArgs]
    -- the key length
    rw [readInt32_at (key.length + 1) data pos _ hkl hdrop]
    have d1 := drop_after_head data pos _ _ hdrop
    rw [leBytes_length] at d1
    simp only
    -- the key
    rw [readString_at key data (pos + 4) _ hk (by rw [List.append_assoc]; exact d1)]
    have d2 := drop_after_head data (pos + 4) (key ++ [0]) _
      (by rw [List.append_assoc]; exact d1)
    simp only [List.length_append, List.length_singleton] at d2
    simp only
    -- the nested string
    rw [ih str data (pos + 4 + (key.length + 1)) _ (by omega) hstr d2]
    have d3 := drop_after_head data _ _ _ d2
    simp only
    -- the value length
    rw [readInt32_at (value.length + 1) data _ _ hvl d3]
    have d4 := drop_after_head data _ _ _ d3
    rw [leBytes_length] at d4
    simp only
    -- the value
    rw [readString_at value data _ _ hv (by rw [List.append_assoc]; exact d4)]
    have d5 := drop_after_head data _ (value ++ [0]) _
      (by rw [List.append_assoc]; exact d4)
    simp only [List.length_append, List.length_singleton] at d5
    simp only
    rw [iha _ data _ rest (by omega) hrest d5]
    simp only [serializeArgs, serializeArg, List.length_append, leBytes_length,
      List.length_singleton, List.append_assoc, List.singleton_append, List.length_cons]
    refine congrArg (fun p => Except.ok (_, (⟨data, p⟩ : Reader))) ?_
    omega

theorem readTranslatedFSString_roundtrip_aux :
    ∀ (fuel : Nat) (t : TranslatedFSString) (data : List Byte) (pos : Nat) (rest : List Byte),
      fsDepth t ≤ fuel → FSWellFormed t → data.drop pos = serializeFS t ++ rest →
      readTranslatedFSString fuel ⟨data, pos⟩ =
        .ok (t, ⟨data, pos + (serializeFS t).length⟩) := by
  intro fuel
  induction fuel with
  | zero =>
    intro t data pos rest hdepth
    obtain ⟨version, handle, value, args⟩ := t
    simp only [fsDepth] at hdepth
    omega
  | succ fuel ih =>
    intro t data pos rest hdepth hwf hdrop
    obtain ⟨version, handle, value, args⟩ := t
    simp only [fsDepth] at hdepth
    simp only [FSWellFormed] at hwf
    obtain ⟨hver, hval, hh, hhl, hn, hargs⟩ := hwf
    subst hval
    simp only [serializeFS, List.append_assoc] at hdrop
    unfold readTranslatedFSString
    simp only [readUint16]
    rw [readUint_at 2 version data pos _ (by decide) (by norm_num; omega) hdrop]
    have d1 := drop_after_head data pos _ _ hdrop
    rw [leBytes_length] at d1
    simp only
    rw [readInt32_at (handle.length + 1) data _ _ hhl d1]
    have d2 := drop_after_head data _ _ _ d1
    rw [leBytes_length] at d2
    simp only
    rw [readString_at handle data _ _ hh (by rw [List.append_assoc]; exact d2)]
    have d3 := drop_after_head data _ (handle ++ [0]) _
      (by rw [List.append_assoc]; exact d2)
    simp only [List.length_append, List.length_singleton] at d3
    simp only
    rw [readInt32_at args.length data _ _ hn d3]
    have d4 := drop_after_head data _ _ _ d3
    rw [leBytes_length] at d4
    simp only
    rw [if_neg (by omega), Int.toNat_ofNat,
      readArgs_roundtrip fuel ih args [] data _ rest (by omega) hargs d4]
    simp only [serializeFS, List.length_append, leBytes_length, List.length_singleton,
      List.nil_append, List.length_cons, List.length_nil]
    refine congrArg (fun p => Except.ok (_, (⟨data, p⟩ : Reader))) ?_
    omega

/-- C24: for every translated FS string `t`, arbitrarily nested, whose `Value` fields are
empty, whose handle, key and value strings have no trailing NUL byte and whose version,
lengths and argument counts fit their fields, `readTranslatedFSString` applied at the start
of the serialization of `t` (with any bytes before and after it) returns `t`, the arguments
in source order, and leaves the cursor exactly behind the serialization, for every depth
bound that covers the nesting of `t`. -/
theorem readTranslatedFSString_roundtrip (t : TranslatedFSString) (hwf : FSWellFormed t)
    (fuel : Nat) (hfuel : fsDepth t ≤ fuel) (pre post : List Byte) :
    readTranslatedFSString fuel ⟨pre ++ serializeFS t ++ post, pre.length⟩ =
      .ok (t, ⟨pre ++ serializeFS t ++ post, pre.length + (serializeFS t).length⟩) :=
  readTranslatedFSString_roundtrip_aux fuel t _ _ post hfuel hwf
    (by rw [List.append_assoc, List.drop_left])

/-- C24, witness: a string with one argument whose nested string has no arguments, read
between two foreign bytes. -/
theorem readTranslatedFSString_roundtrip_witness :
    readTranslatedFSString 2 ⟨[9] ++ serializeFS nestedFS ++ [7], 1⟩ =
      .ok (nestedFS, ⟨[9] ++ serializeFS nestedFS ++ [7], 1 + (serializeFS nestedFS).length⟩) :=
  readTranslatedFSString_roundtrip nestedFS
    (by
      simp only [nestedFS, FSWellFormed, ArgsWellFormed, ArgWellFormed, noTrailingNul]
      decide)
    2 (by decide) [9] [7]

theorem hashNodes_eq (lib : Lib) (l : List Node) :
    hashNodes lib l = l.map (fun c => (c, nodeHashString lib c)) := by
  induction l with
  | nil => simp [hashNodes]
  | cons c rest ih => simp [hashNodes, ih]

theorem get_hashGroups (lib : Lib) (children : List (GoString × List Node)) (name : GoString) :
    GoMap.get (hashGroups lib children) name =
      (GoMap.get children name).map (hashNodes lib) := by
  induction children with
  | nil => simp [hashGroups, GoMap.get]
  | cons g rest ih =>
    obtain ⟨k, l⟩ := g
    simp only [hashGroups, GoMap.get]
    split_ifs
    · rfl
    · exact ih

theorem GoMap.get_map {V W : Type} (f : V → W) (m : GoMap V) (k : GoString) :
    GoMap.get (m.map (fun e => (e.1, f e.2))) k = (GoMap.get m k).map f := by
  induction m with
  | nil => simp [GoMap.get]
  | cons e rest ih =>
    obtain ⟨k1, v⟩ := e
    simp only [List.map_cons, GoMap.get]
    split_ifs
    · rfl
    · exact ih

theorem perm_short {α : Type} (l1 l2 : List α) (hp : l1.Perm l2) (h : ¬ l1.length > 1) :
    l1 = l2 := by
  match l1, h with
  | [], _ => exact (List.Perm.nil_eq hp)
  | [a], _ => exact (List.perm_singleton.mp hp.symm).symm
  | _ :: _ :: _, h => simp at h

/-- The text a child group contributes to the hash of its parent. -/
theorem childPart_eq (lib : Lib) (hs : SortSliceSpec lib.sortSlice) (childName : GoString)
    (l1 l2 : List (Node × GoString)) (hp : (l1.map Prod.snd).Perm (l2.map Prod.snd)) :
    (if l1.length > 1 then
      (lib.sortSlice (Node × GoString) (fun a b => strLess a.2 b.2) l1).flatMap
        (fun ch => childName ++ lit ":" ++ ch.2 ++ lit "|")
     else l1.flatMap (fun ch => childName ++ lit ":" ++ ch.2 ++ lit "|")) =
    (if l2.length > 1 then
      (lib.sortSlice (Node × GoString) (fun a b => strLess a.2 b.2) l2).flatMap
        (fun ch => childName ++ lit ":" ++ ch.2 ++ lit "|")
     else l2.flatMap (fun ch => childName ++ lit ":" ++ ch.2 ++ lit "|")) := by
  have hflat : ∀ l : List (Node × GoString),
      l.flatMap (fun ch => childName ++ lit ":" ++ ch.2 ++ lit "|") =
        (l.map Prod.snd).flatMap (fun h => childName ++ lit ":" ++ h ++ lit "|") := by
    intro l
    induction l with
    | nil => rfl
    | cons a rest ih =>
      simp only [List.flatMap_cons, List.map_cons]
      rw [ih]
  have hlen : l1.length = l2.length := by
    have := hp.length_eq
    simpa using this
  rw [hflat, hflat, hflat, hflat]
  by_cases h1 : l1.length > 1
  · rw [if_pos h1, if_pos (by omega)]
    have s1 := hs (Node × GoString) (fun a b => strLess a.2 b.2) l1
    have s2 := hs (Node × GoString) (fun a b => strLess a.2 b.2) l2
    have hsorted : ∀ l : List (Node × GoString),
        (lib.sortSlice (Node × GoString) (fun a b => strLess a.2 b.2) l).Pairwise
          (fun a b => strLess b.2 a.2 = false) :=
      fun l => (hs (Node × GoString) (fun a b => strLess a.2 b.2) l).2
        (fun a => strLess_irrefl _) (fun a b c => strLess_trans _ _ _)
        (fun a b c => strLess_false_trans _ _ _)
    have heq : (lib.sortSlice (Node × GoString) (fun a b => strLess a.2 b.2) l1).map Prod.snd =
        (lib.sortSlice (Node × GoString) (fun a b => strLess a.2 b.2) l2).map Prod.snd := by
      apply sorted_perm_unique
      · exact ((s1.1.map Prod.snd).trans hp).trans (s2.1.map Prod.snd).symm
      · exact List.pairwise_map.mpr (hsorted l1)
      · exact List.pairwise_map.mpr (hsorted l2)
    rw [heq]
  · rw [if_neg h1, if_neg (by omega)]
    have : l1.map Prod.snd = l2.map Prod.snd :=
      perm_short _ _ hp (by simpa using h1)
    rw [this]

theorem hashNodes_snd (lib : Lib) (l : List Node) :
    (hashNodes lib l).map Prod.snd = l.map (nodeHashString lib) := by
  rw [hashNodes_eq, List.map_map]
  rfl

theorem get_hashGroups_getD (lib : Lib) (children : List (GoString × List Node))
    (name : GoString) :
    (GoMap.get (hashGroups lib children) name).getD [] =
      hashNodes lib ((GoMap.get children name).getD []) := by
  rw [get_hashGroups]
  cases GoMap.get children name with
  | none => simp [hashNodes]
  | some l => rfl

theorem keys_map_snd {V W : Type} (f : V → W) (m : GoMap V) :
    GoMap.keys (m.map (fun e => (e.1, f e.2))) = GoMap.keys m := by
  unfold GoMap.keys
  rw [List.map_map]
  rfl

theorem nodeHashString_congr (lib : Lib) (hs : SortSliceSpec lib.sortSlice) (n1 n2 : Node)
    (hkey : n1.KeyAttribute = n2.KeyAttribute)
    (hnd : (GoMap.keys n1.Attributes).Nodup)
    (hattrs : (n1.Attributes.map (fun e => (e.1, attributeValueToString lib e.2))).Perm
      (n2.Attributes.map (fun e => (e.1, attributeValueToString lib e.2))))
    (hgroups : (GoMap.keys n1.Children).Perm (GoMap.keys n2.Children))
    (hhash : ∀ name,
      (((GoMap.get n1.Children name).getD []).map (nodeHashString lib)).Perm
        (((GoMap.get n2.Children name).getD []).map (nodeHashString lib))) :
    nodeHashString lib n1 = nodeHashString lib n2 := by
  obtain ⟨name1, key1, attrs1, ch1⟩ := n1
  obtain ⟨name2, key2, attrs2, ch2⟩ := n2
  simp only [Node.KeyAttribute, Node.Attributes, Node.Children] at hkey hnd hattrs hgroups hhash
  subst hkey
  have hkeys : (GoMap.keys attrs1).Perm (GoMap.keys attrs2) := by
    have := keys_perm _ _ hattrs
    rwa [keys_map_snd, keys_map_snd] at this
  have hrender : ∀ name,
      (GoMap.get attrs1 name).map (attributeValueToString lib) =
        (GoMap.get attrs2 name).map (attributeValueToString lib) := by
    intro name
    rw [← GoMap.get_map, ← GoMap.get_map]
    exact GoMap.get_of_perm _ _ hattrs (by rw [keys_map_snd]; exact hnd) name
  have hmatch : ∀ name,
      (match GoMap.get attrs1 name with
        | some attr => attributeValueToString lib attr
        | none => []) =
      (match GoMap.get attrs2 name with
        | some attr => attributeValueToString lib attr
        | none => []) := by
    intro name
    have := hrender name
    cases h1 : GoMap.get attrs1 name <;> cases h2 : GoMap.get attrs2 name <;>
      simp only [h1, h2, Option.map_some', Option.map_none'] at this ⊢
    · cases this
    · cases this
    · exact Option.some.inj this
  simp only [nodeHashString]
  rw [sortStrings_of_perm _ _ hkeys, sortStrings_of_perm _ _ hgroups]
  congr 1
  · congr 1
    apply congrArg
    funext attrName
    rw [hmatch attrName]
  · apply congrArg
    funext childName
    rw [get_hashGroups_getD, get_hashGroups_getD]
    exact childPart_eq lib hs childName _ _
      (by rw [hashNodes_snd, hashNodes_snd]; exact hhash childName)

theorem GoMap.get_eq_none_of_not_mem {V : Type} (m : GoMap V) (k : GoString)
    (h : k ∉ GoMap.keys m) : GoMap.get m k = none := by
  induction m with
  | nil => rfl
  | cons e rest ih =>
    obtain ⟨k1, v⟩ := e
    simp only [GoMap.keys, List.map_cons, List.mem_cons, not_or] at h
    simp only [GoMap.get]
    rw [if_neg (fun hk => h.1 hk.symm)]
    exact ih h.2

theorem flatMap_filter_nonempty (f : GoString → GoString) (l : List GoString) :
    l.flatMap f = (l.filter (fun k => decide (f k ≠ []))).flatMap f := by
  induction l with
  | nil => rfl
  | cons a rest ih =>
    by_cases ha : f a = []
    · simp only [List.flatMap_cons, ha, List.nil_append, List.filter_cons, ne_eq,
        not_true_eq_false, decide_False, Bool.false_eq_true, if_false]
      exact ih
    · simp only [List.flatMap_cons, List.filter_cons, ne_eq, ha, not_false_eq_true,
        decide_True, if_true]
      rw [ih]

theorem flatMap_sorted_support (f : GoString → GoString) (l1 l2 : List GoString)
    (h1 : l1.Pairwise (fun a b => strLess a b = true))
    (h2 : l2.Pairwise (fun a b => strLess a b = true))
    (h12 : ∀ k ∈ l1, k ∉ l2 → f k = []) (h21 : ∀ k ∈ l2, k ∉ l1 → f k = []) :
    l1.flatMap f = l2.flatMap f := by
  rw [flatMap_filter_nonempty f l1, flatMap_filter_nonempty f l2]
  have hstrict : ∀ l : List GoString, l.Pairwise (fun a b => strLess a b = true) →
      (l.filter (fun k => decide (f k ≠ []))).Pairwise (fun a b => strLess b a = false) ∧
      (l.filter (fun k => decide (f k ≠ []))).Nodup := by
    intro l hl
    have hf := List.Pairwise.filter (fun k => decide (f k ≠ [])) hl
    refine ⟨hf.imp (fun {a b} hab => strLess_asymm a b hab), hf.imp (fun {a b} hab heq => ?_)⟩
    rw [heq, strLess_irrefl] at hab
    exact absurd hab (by decide)
  congr 1
  refine sorted_perm_unique _ _ ?_ (hstrict l1 h1).1 (hstrict l2 h2).1
  refine (List.perm_ext_iff_of_nodup (hstrict l1 h1).2 (hstrict l2 h2).2).2 (fun k => ?_)
  simp only [List.mem_filter, decide_eq_true_eq]
  constructor
  · rintro ⟨hk, hne⟩
    exact ⟨by_contra (fun hn => hne (h12 k hk hn)), hne⟩
  · rintro ⟨hk, hne⟩
    exact ⟨by_contra (fun hn => hne (h21 k hk hn)), hne⟩

theorem nodeHashString_determined (lib : Lib) (hs : SortSliceSpec lib.sortSlice) (n1 n2 : Node)
    (hkey : n1.KeyAttribute = n2.KeyAttribute)
    (hnd : (GoMap.keys n1.Attributes).Nodup)
    (hattrs : (n1.Attributes.map (fun e => (e.1, attributeValueToString lib e.2))).Perm
      (n2.Attributes.map (fun e => (e.1, attributeValueToString lib e.2))))
    (hnd1 : (GoMap.keys n1.Children).Nodup) (hnd2 : (GoMap.keys n2.Children).Nodup)
    (hhash : ∀ name,
      (((GoMap.get n1.Children name).getD []).map (nodeHashString lib)).Perm
        (((GoMap.get n2.Children name).getD []).map (nodeHashString lib))) :
    nodeHashString lib n1 = nodeHashString lib n2 := by
  obtain ⟨name1, key1, attrs1, ch1⟩ := n1
  obtain ⟨name2, key2, attrs2, ch2⟩ := n2
  simp only [Node.KeyAttribute, Node.Attributes, Node.Children] at hkey hnd hattrs hnd1 hnd2 hhash
  subst hkey
  have hkeys : (GoMap.keys attrs1).Perm (GoMap.keys attrs2) := by
    have := keys_perm _ _ hattrs
    rwa [keys_map_snd, keys_map_snd] at this
  have hrender : ∀ name,
      (GoMap.get attrs1 name).map (attributeValueToString lib) =
        (GoMap.get attrs2 name).map (attributeValueToString lib) := by
    intro name
    rw [← GoMap.get_map, ← GoMap.get_map]
    exact GoMap.get_of_perm _ _ hattrs (by rw [keys_map_snd]; exact hnd) name
  have hmatch : ∀ name,
      (match GoMap.get attrs1 name with
        | some attr => attributeValueToString lib attr
        | none => []) =
      (match GoMap.get attrs2 name with
        | some attr => attributeValueToString lib attr
        | none => []) := by
    intro name
    have := hrender name
    cases h1 : GoMap.get attrs1 name <;> cases h2 : GoMap.get attrs2 name <;>
      simp only [h1, h2, Option.map_some', Option.map_none'] at this ⊢
    · cases this
    · cases this
    · exact Option.some.inj this
  have hsame : ∀ childName,
      (if ((GoMap.get (hashGroups lib ch1) childName).getD []).length > 1 then
        (lib.sortSlice (Node × GoString) (fun a b => strLess a.2 b.2)
          ((GoMap.get (hashGroups lib ch1) childName).getD [])).flatMap
          (fun ch => childName ++ lit ":" ++ ch.2 ++ lit "|")
       else ((GoMap.get (hashGroups lib ch1) childName).getD []).flatMap
          (fun ch => childName ++ lit ":" ++ ch.2 ++ lit "|")) =
      (if ((GoMap.get (hashGroups lib ch2) childName).getD []).length > 1 then
        (lib.sortSlice (Node × GoString) (fun a b => strLess a.2 b.2)
          ((GoMap.get (hashGroups lib ch2) childName).getD [])).flatMap
          (fun ch => childName ++ lit ":" ++ ch.2 ++ lit "|")
       else ((GoMap.get (hashGroups lib ch2) childName).getD []).flatMap
          (fun ch => childName ++ lit ":" ++ ch.2 ++ lit "|")) := by
    intro childName
    rw [get_hashGroups_getD, get_hashGroups_getD]
    exact childPart_eq lib hs childName _ _
      (by rw [hashNodes_snd, hashNodes_snd]; exact hhash childName)
  have hempty : ∀ (ch : List (GoString × List Node)) (childName : GoString),
      childName ∉ sortStrings (GoMap.keys ch) →
      (if ((GoMap.get (hashGroups lib ch) childName).getD []).length > 1 then
        (lib.sortSlice (Node × GoString) (fun a b => strLess a.2 b.2)
          ((GoMap.get (hashGroups lib ch) childName).getD [])).flatMap
          (fun c => childName ++ lit ":" ++ c.2 ++ lit "|")
       else ((GoMap.get (hashGroups lib ch) childName).getD []).flatMap
          (fun c => childName ++ lit ":" ++ c.2 ++ lit "|")) = [] := by
    intro ch childName hmem
    have hk : childName ∉ GoMap.keys ch := fun h => hmem ((sortStrings_perm _).mem_iff.2 h)
    rw [get_hashGroups, GoMap.get_eq_none_of_not_mem ch childName hk]
    rfl
  simp only [nodeHashString]
  rw [sortStrings_of_perm _ _ hkeys]
  congr 1
  · congr 1
    apply congrArg
    funext attrName
    rw [hmatch attrName]
  · rw [flatMap_sorted_support _ (sortStrings (GoMap.keys ch1)) (sortStrings (GoMap.keys ch2))
      (sortStrings_strict _ hnd1) (sortStrings_strict _ hnd2)
      (fun k _ hk2 => by rw [hsame k]; exact hempty ch2 k hk2)
      (fun k _ hk1 => hempty ch1 k hk1)]
    apply congrArg
    funext childName
    exact hsame childName

theorem map_eq_of_forall₂ {α β : Type} (R : α → α → Prop) (f : α → β)
    (hR : ∀ a b, R a b → f a = f b) (l1 l2 : List α) (h : List.Forall₂ R l1 l2) :
    l1.map f = l2.map f := by
  induction h with
  | nil => rfl
  | cons hab _ ih => rw [List.map_cons, List.map_cons, hR _ _ hab, ih]

theorem nodeHashString_reordered (lib : Lib) (hs : SortSliceSpec lib.sortSlice) :
    ∀ (d : Nat) (n1 n2 : Node), Reordered d n1 n2 →
      nodeHashString lib n1 = nodeHashString lib n2 := by
  intro d
  induction d with
  | zero =>
    intro n1 n2 h
    simp only [Reordered] at h
  | succ d ih =>
    intro n1 n2 h
    simp only [Reordered] at h
    obtain ⟨_, hkey, hnd, hattrs, hgroups, hmem⟩ := h
    refine nodeHashString_congr lib hs n1 n2 hkey hnd (hattrs.map _) hgroups (fun name => ?_)
    obtain ⟨l, hl, hf⟩ := hmem name
    rw [← map_eq_of_forall₂ (Reordered d) (nodeHashString lib) ih _ _ hf]
    exact (hl.map _).symm

/-- C28: when `sort.Slice` keeps its contract, `nodeHashString` is the same for two nodes that
differ only in how they are stored, at any depth: the entries of attribute maps and of
child-group maps in another iteration order, the same-named siblings of child groups in
another stored order.  More generally, for nodes whose maps hold each key once, the hash is
determined by the key attribute, the set of (attribute name, rendered value) pairs and, for
every child-group name, the multiset of the hashes of the members (an absent group counting
as an empty one). -/
theorem nodeHashString_order_independent (lib : Lib) (hs : SortSliceSpec lib.sortSlice) :
    (∀ (d : Nat) (n1 n2 : Node), Reordered d n1 n2 →
      nodeHashString lib n1 = nodeHashString lib n2) ∧
    (∀ n1 n2 : Node, n1.KeyAttribute = n2.KeyAttribute →
      (GoMap.keys n1.Attributes).Nodup →
      (n1.Attributes.map (fun e => (e.1, attributeValueToString lib e.2))).Perm
        (n2.Attributes.map (fun e => (e.1, attributeValueToString lib e.2))) →
      (GoMap.keys n1.Children).Nodup → (GoMap.keys n2.Children).Nodup →
      (∀ name,
        (((GoMap.get n1.Children name).getD []).map (nodeHashString lib)).Perm
          (((GoMap.get n2.Children name).getD []).map (nodeHashString lib))) →
      nodeHashString lib n1 = nodeHashString lib n2) :=
  ⟨nodeHashString_reordered lib hs, nodeHashString_determined lib hs⟩

theorem reordered_leaf (name key : GoString) (attrs : GoMap NodeAttribute)
    (hnd : (GoMap.keys attrs).Nodup) :
    Reordered 1 (.mk name key attrs []) (.mk name key attrs []) := by
  unfold Reordered
  exact ⟨rfl, rfl, hnd, List.Perm.refl _, List.Perm.refl _,
    fun _ => ⟨[], List.Perm.refl _, List.Forall₂.nil⟩⟩

theorem family_reordered : Reordered 2 familyStoredOneWay familyStoredOtherWay := by
  unfold Reordered
  refine ⟨rfl, rfl, by decide, List.Perm.swap _ _ _, List.Perm.refl _, fun name => ?_⟩
  by_cases hname : lit "Object" = name
  · subst hname
    refine ⟨[.mk (lit "Object") [] [(lit "v", ⟨AttrByte, .uint8 1⟩)] [],
      .mk (lit "Object") [] [(lit "v", ⟨AttrByte, .uint8 2⟩)] []], List.Perm.swap _ _ _, ?_⟩
    exact List.Forall₂.cons
      (reordered_leaf (lit "Object") [] [(lit "v", ⟨AttrByte, .uint8 1⟩)] (by decide))
      (List.Forall₂.cons
        (reordered_leaf (lit "Object") [] [(lit "v", ⟨AttrByte, .uint8 2⟩)] (by decide))
        List.Forall₂.nil)
  · refine ⟨[], ?_, ?_⟩
    · simp [familyStoredOneWay, Node.Children, GoMap.get, hname]
    · simp [familyStoredOtherWay, Node.Children, GoMap.get, hname]

/-- C28, witness: a node with two attributes and two same-named children, stored in two
orders, has one hash. -/
theorem nodeHashString_order_independent_witness :
    nodeHashString refLib familyStoredOneWay = nodeHashString refLib familyStoredOtherWay :=
  (nodeHashString_order_independent refLib insertionSortLessFunc_spec).1 2 familyStoredOneWay
    familyStoredOtherWay family_reordered


/-! ### Linking of children, revisited: the attribute loops -/

theorem buildNodes_ok_attrs (r : LSFReader) (valueReader : Reader) (fuel : Nat)
    (rest : List LSFNodeInfo) : ∀ (i : Nat) (res res2 : Arena.Resource),
      buildNodes r valueReader fuel rest i res = .ok res2 →
      ∀ c ∈ rest, ∃ attrs,
        readNodeAttributes r valueReader fuel fuel c.FirstAttributeIndex [] = .ok attrs := by
  induction rest with
  | nil =>
    intro i res res2 _ c hc
    cases hc
  | cons nd rest ih =>
    intro i res res2 h c hc
    simp only [buildNodes] at h
    split at h
    · cases h
    · rename_i res1 h1
      rcases List.mem_cons.mp hc with heq | hin
      · subst heq
        exact (buildNode_ok_inv _ _ _ _ _ _ _ h1).2.2.1
      · exact ih _ _ _ h c hin

/-- C2, counterexample: in the two-record table (Root with parent -1, Child with parent 0)
whose Root record names a first attribute that the attribute table does not hold, every
parent index is -1 or a smaller record index and every name reference is valid, yet
`buildResource` panics on the index in the attribute loop of record 0 and returns no
Resource: the record "Child" is never linked. -/
theorem unreadable_attributes_leave_child_unlinked :
    (∀ (j : Nat) (c : LSFNodeInfo), unreadableAttributeTables.nodes[j]? = some c →
      c.ParentIndex = -1 ∨ (0 ≤ c.ParentIndex ∧ c.ParentIndex < (j : Int))) ∧
    (∀ c ∈ unreadableAttributeTables.nodes, ∃ name,
      lookupName unreadableAttributeTables.names c.NameIndex c.NameOffset = .ok name) ∧
    (∀ fuel, buildResource (fuel + 1) unreadableAttributeTables = .error .indexOutOfRange) ∧
    (∀ fuel res, buildResource fuel unreadableAttributeTables ≠ .ok res) := by
  refine ⟨?_, ?_, ?_, ?_⟩
  · intro j c h
    match j, h with
    | 0, h => cases h; exact Or.inl rfl
    | 1, h => cases h; exact Or.inr ⟨by decide, by decide⟩
    | j + 2, h => cases h
  · intro c hc
    simp only [unreadableAttributeTables, List.mem_cons, List.mem_singleton, List.not_mem_nil,
      or_false] at hc
    rcases hc with rfl | rfl
    · exact ⟨lit "Root", rfl⟩
    · exact ⟨lit "Child", rfl⟩
  · intro fuel
    rfl
  · intro fuel res
    cases fuel with
    | zero => exact fun h => by cases h
    | succ fuel => exact fun h => by cases h

/-- C2, amended: when every parent index is -1 or a smaller record index and every node name
resolves, `buildResource` returns a Resource exactly when the attribute loop of every record
completes.  When they complete, the node of record `i` carries the resolved name; if its
parent index `p` is not -1, its Parent pointer is the node of record `p` and `i` is listed
among that node's children under its name; and the children listed by a node under a name are
exactly the records with that parent and that name, in ascending table order.  For the
two-record table (Root with parent -1, Child with parent 0) the result is one region "Root"
whose only child is a node "Child" with no attributes and no children. -/
theorem buildResource_links_children (r : LSFReader) (fuel : Nat) (md : LSFMetadataV6)
    (hmd : r.metadata = some md)
    (hpar : ∀ (j : Nat) (c : LSFNodeInfo), r.nodes[j]? = some c →
      c.ParentIndex = -1 ∨ (0 ≤ c.ParentIndex ∧ c.ParentIndex < (j : Int)))
    (hname : ∀ c ∈ r.nodes, ∃ name, lookupName r.names c.NameIndex c.NameOffset = .ok name) :
    ((∀ c ∈ r.nodes, ∃ attrs,
        readNodeAttributes r (newBinaryReaderFromBytes r.values) fuel fuel
          c.FirstAttributeIndex [] = .ok attrs) →
      ∃ res, buildResource fuel r = .ok res ∧
        ∀ (i : Nat) (nd : LSFNodeInfo), r.nodes[i]? = some nd →
          ∃ cell, res.nodeInstances[i]? = some (some cell) ∧
            cell.Name = resolveName r.names nd.NameIndex nd.NameOffset ∧
            (nd.ParentIndex ≠ -1 →
              cell.Parent = some nd.ParentIndex.toNat ∧
              ∃ parent, res.nodeInstances[nd.ParentIndex.toNat]? = some (some parent) ∧
                i ∈ (GoMap.get parent.Children cell.Name).getD []) ∧
            ∀ name, (GoMap.get cell.Children name).getD [] =
              childRecords r r.nodes.length i name) ∧
    ((∃ res, buildResource fuel r = .ok res) →
      ∀ c ∈ r.nodes, ∃ attrs,
        readNodeAttributes r (newBinaryReaderFromBytes r.values) fuel fuel
          c.FirstAttributeIndex [] = .ok attrs) ∧
    (buildResource 0 twoRecordTables).toOption.bind (fun res => materializeResource res 2) =
      some ⟨⟨0, 0, 0, 0, 0⟩,
        [(lit "Root",
          ⟨.mk (lit "Root") [] [] [(lit "Child", [.mk (lit "Child") [] [] []])], lit "Root"⟩)]⟩ := by
  refine ⟨?_, ?_, rfl⟩
  · intro hattr
    obtain ⟨res, hres, hlen, hreg, hcells, hnil⟩ :=
      buildResource_spec r fuel md hmd hpar hname hattr
    refine ⟨res, hres, ?_⟩
    intro i nd hnd
    have hi : i < r.nodes.length := (List.getElem?_eq_some_iff.1 hnd).1
    obtain ⟨cell, h1, h2, h3, h4, h5, h6⟩ := hcells i nd hi hnd
    refine ⟨cell, h1, h2, ?_, h6⟩
    intro hp
    rcases hpar i nd hnd with hp2 | ⟨hp0, hpi⟩
    · exact absurd hp2 hp
    · have hplt : nd.ParentIndex.toNat < r.nodes.length := by omega
      obtain ⟨ndp, hndp⟩ : ∃ ndp, r.nodes[nd.ParentIndex.toNat]? = some ndp :=
        ⟨r.nodes[nd.ParentIndex.toNat], List.getElem?_eq_getElem hplt⟩
      obtain ⟨parent, g1, g2, g3, g4, g5, g6⟩ := hcells _ ndp hplt hndp
      refine ⟨by rw [h4, if_neg hp], parent, g1, ?_⟩
      rw [g6]
      unfold childRecords
      rw [List.mem_filter]
      refine ⟨List.mem_range.2 hi, ?_⟩
      rw [hnd]
      simp only [decide_eq_true_eq]
      exact ⟨by omega, h2.symm⟩
  · rintro ⟨res, hres⟩
    unfold buildResource at hres
    simp only [hmd] at hres
    exact buildNodes_ok_attrs _ _ _ _ _ _ _ hres

/-- C2, witness: the two-record table, whose records have no attributes. -/
theorem buildResource_links_children_witness :
    ∃ res, buildResource 0 twoRecordTables = .ok res ∧
      ∀ (i : Nat) (nd : LSFNodeInfo), twoRecordTables.nodes[i]? = some nd →
        ∃ cell, res.nodeInstances[i]? = some (some cell) ∧
          cell.Name = resolveName twoRecordTables.names nd.NameIndex nd.NameOffset ∧
          (nd.ParentIndex ≠ -1 →
            cell.Parent = some nd.ParentIndex.toNat ∧
            ∃ parent, res.nodeInstances[nd.ParentIndex.toNat]? = some (some parent) ∧
              i ∈ (GoMap.get parent.Children cell.Name).getD []) ∧
          ∀ name, (GoMap.get cell.Children name).getD [] =
            childRecords twoRecordTables twoRecordTables.nodes.length i name :=
  (buildResource_links_children twoRecordTables 0 (decodeMetadata []) rfl
    (by
      intro j c h
      match j, h with
      | 0, h => cases h; exact Or.inl rfl
      | 1, h => cases h; exact Or.inr ⟨by decide, by decide⟩
      | j + 2, h => cases h)
    (by
      intro c hc
      simp only [twoRecordTables, List.mem_cons, List.mem_singleton, List.not_mem_nil,
        or_false] at hc
      rcases hc with rfl | rfl
      · exact ⟨lit "Root", rfl⟩
      · exact ⟨lit "Child", rfl⟩)).1
    (by
      intro c hc
      simp only [twoRecordTables, List.mem_cons, List.mem_singleton, List.not_mem_nil,
        or_false] at hc
      rcases hc with rfl | rfl
      · exact ⟨[], rfl⟩
      · exact ⟨[], rfl⟩)

theorem Nested.append {p : GoString → Prop} {a b : List Token} (ha : Nested p a)
    (hb : Nested p b) : Nested p (a ++ b) := by
  induction ha with
  | nil => exact hb
  | element name attrs inner rest hp _ _ _ ih2 =>
    have := Nested.element name attrs inner (rest ++ b) hp (by assumption) ih2
    simpa using this

theorem Nested.wrap {p : GoString → Prop} (name : GoString)
    (attrs : List (GoString × GoString)) {inner : List Token} (hp : p name)
    (h : Nested p inner) :
    Nested p (Token.StartElement name attrs :: (inner ++ [Token.EndElement name])) :=
  Nested.element name attrs inner [] hp h Nested.nil

theorem Nested.mono {p q : GoString → Prop} (hpq : ∀ n, p n → q n) {ts : List Token}
    (h : Nested p ts) : Nested q ts := by
  induction h with
  | nil => exact Nested.nil
  | element name attrs inner rest hp _ _ ih1 ih2 =>
    exact Nested.element name attrs inner rest (hpq _ hp) ih1 ih2

theorem elementsAt_append {p : GoString → Prop} {ts : List Token} (h : Nested p ts) :
    ∀ (want d : Nat) (rest : List Token),
      elementsAt want d (ts ++ rest) = elementsAt want d ts ++ elementsAt want d rest := by
  induction h with
  | nil =>
    intro want d rest
    simp [elementsAt]
  | element name attrs inner r hp _ _ ih1 ih2 =>
    intro want d rest
    rw [List.cons_append, List.append_assoc, List.cons_append]
    simp only [elementsAt]
    rw [ih1 want (d + 1) (Token.EndElement name :: (r ++ rest)),
      ih1 want (d + 1) (Token.EndElement name :: r)]
    simp only [elementsAt, Nat.add_sub_cancel]
    rw [ih2 want d rest]
    simp only [List.append_assoc]

theorem elementsAt_deeper {p : GoString → Prop} {ts : List Token} (h : Nested p ts) :
    ∀ (want d : Nat), want < d → elementsAt want d ts = [] := by
  induction h with
  | nil =>
    intro want d _
    simp [elementsAt]
  | element name attrs inner r hp hin _ ih1 ih2 =>
    intro want d hd
    simp only [elementsAt]
    rw [elementsAt_append hin, ih1 want (d + 1) (by omega)]
    simp only [elementsAt, Nat.add_sub_cancel]
    rw [ih2 want d hd, if_neg (by omega)]
    rfl

theorem elementsAt_names {p : GoString → Prop} {ts : List Token} (h : Nested p ts) :
    ∀ (want d : Nat), ∀ e ∈ elementsAt want d ts, p e.1 := by
  induction h with
  | nil =>
    intro want d e he
    simp [elementsAt] at he
  | element name attrs inner r hp hin _ ih1 ih2 =>
    intro want d e he
    simp only [elementsAt] at he
    rw [elementsAt_append hin] at he
    simp only [elementsAt, Nat.add_sub_cancel, List.mem_append] at he
    rcases he with he | he | he
    · split_ifs at he
      · simp only [List.mem_singleton] at he
        rw [he]
        exact hp
      · cases he
    · exact ih1 _ _ e he
    · exact ih2 _ _ e he

theorem elementsAt_element {p : GoString → Prop} (name : GoString)
    (attrs : List (GoString × GoString)) {inner : List Token} (h : Nested p inner)
    (d : Nat) :
    elementsAt d d (Token.StartElement name attrs :: (inner ++ [Token.EndElement name])) =
      [(name, idOf attrs)] := by
  simp only [elementsAt]
  rw [elementsAt_append h, elementsAt_deeper h d (d + 1) (by omega)]
  simp [elementsAt]

mutual
theorem writeTranslatedFSString_nested :
    ∀ fs, Nested (fun name => name ≠ lit "node") (writeTranslatedFSString fs)
  | .mk _ handle value args => by
    rw [writeTranslatedFSString]
    by_cases h : args.length > 0
    · rw [if_pos h]
      have h1 := Nested.wrap (lit "arguments") [] (by decide)
        (writeTranslatedFSStringArguments_nested args)
      have h2 := Nested.wrap (lit "string")
        [(lit "value", value), (lit "handle", handle), (lit "arguments", formatInt args.length)]
        (by decide) h1
      simpa using h2
    · rw [if_neg h]
      exact Nested.wrap (p := fun name => name ≠ lit "node") (lit "string") _ (by decide)
        Nested.nil
theorem writeTranslatedFSStringArguments_nested :
    ∀ args, Nested (fun name => name ≠ lit "node") (writeTranslatedFSStringArguments args)
  | [] => by
    rw [writeTranslatedFSStringArguments]
    exact Nested.nil
  | arg :: rest => by
    rw [writeTranslatedFSStringArguments]
    exact (writeTranslatedFSStringArgument_nested arg).append
      (writeTranslatedFSStringArguments_nested rest)
theorem writeTranslatedFSStringArgument_nested :
    ∀ arg, Nested (fun name => name ≠ lit "node") (writeTranslatedFSStringArgument arg)
  | .mk key value str => by
    rw [writeTranslatedFSStringArgument]
    have h := Nested.wrap (lit "argument") [(lit "key", key), (lit "value", value)]
      (by decide) (writeTranslatedFSString_nested str)
    simpa using h
end

theorem writeAttribute_shape (lib : Lib) (attrName : GoString) (attr : NodeAttribute)
    (ts : List Token) (h : writeAttribute lib attrName attr = .ok ts) :
    ∃ attrs inner, ts = Token.StartElement (lit "attribute") attrs ::
        (inner ++ [Token.EndElement (lit "attribute")]) ∧
      idOf attrs = attrName ∧ Nested (fun name => name ≠ lit "node") inner := by
  unfold writeAttribute at h
  simp only at h
  split_ifs at h with h1 h2
  · split at h
    · cases h
      exact ⟨_, [], rfl, by simp [idOf, GoMap.get], Nested.nil⟩
    · cases h
  · split at h
    · rename_i version handle value args hv
      cases h
      by_cases hl : args.length > 0
      · refine ⟨[(lit "id", attrName), (lit "type", attributeTypeToString attr.type),
          (lit "value", value), (lit "handle", handle),
          (lit "arguments", formatInt args.length)],
          [Token.StartElement (lit "arguments") []] ++
          writeTranslatedFSStringArguments args ++ [Token.EndElement (lit "arguments")],
          by simp [hl], by simp [idOf, GoMap.get], ?_⟩
        have := Nested.wrap (lit "arguments") [] (by decide)
          (writeTranslatedFSStringArguments_nested args)
        simpa using this
      · exact ⟨[(lit "id", attrName), (lit "type", attributeTypeToString attr.type),
          (lit "value", value), (lit "handle", handle),
          (lit "arguments", formatInt args.length)],
          [], by simp [hl], by simp [idOf, GoMap.get], Nested.nil⟩
    · cases h
  · cases h
    exact ⟨_, [], rfl, by simp [idOf, GoMap.get], Nested.nil⟩

theorem writeAttribute_nested (lib : Lib) (attrName : GoString) (attr : NodeAttribute)
    (ts : List Token) (h : writeAttribute lib attrName attr = .ok ts) :
    Nested (fun name => name ≠ lit "node") ts ∧
    ∀ d, elementsAt d d ts = [(lit "attribute", attrName)] := by
  obtain ⟨attrs, inner, rfl, hid, hin⟩ := writeAttribute_shape lib attrName attr ts h
  refine ⟨Nested.wrap _ _ (by decide) hin, fun d => ?_⟩
  rw [elementsAt_element _ _ hin, hid]

theorem elementsAt_collect {α : Type} (p : GoString → Prop)
    (f : α → Except Fault (List Token)) (g : α → List (GoString × GoString)) (want d : Nat)
    (l : List α)
    (hf : ∀ a ∈ l, ∀ us, f a = .ok us → Nested p us ∧ elementsAt want d us = g a) :
    ∀ ts, collect f l = .ok ts → Nested p ts ∧ elementsAt want d ts = l.flatMap g := by
  induction l with
  | nil =>
    intro ts h
    simp only [collect, Except.ok.injEq] at h
    subst h
    exact ⟨Nested.nil, rfl⟩
  | cons a rest ih =>
    intro ts h
    simp only [collect] at h
    split at h
    · cases h
    · rename_i us hus
      split at h
      · cases h
      · rename_i vs hvs
        cases h
        obtain ⟨n1, e1⟩ := hf a (List.mem_cons_self _ _) us hus
        obtain ⟨n2, e2⟩ := ih (fun b hb => hf b (List.mem_cons_of_mem _ hb)) vs hvs
        refine ⟨n1.append n2, ?_⟩
        rw [elementsAt_append n1, e1, e2, List.flatMap_cons]

theorem flatMap_singleton {α β : Type} (f : α → β) (l : List α) :
    l.flatMap (fun a => [f a]) = l.map f := by
  induction l with
  | nil => rfl
  | cons a rest ih => rw [List.flatMap_cons, ih]; rfl

theorem writeNode_ok_inv (lib : Lib) (fuel : Nat) (node : Node) (ts : List Token)
    (h : writeNode lib (fuel + 1) node = .ok ts) :
    ∃ attrTokens childrenTokens,
      collect (fun attrName =>
        match GoMap.get node.Attributes attrName with
        | some attr => writeAttribute lib attrName attr
        | none => .error .nilDereference) (sortStrings (GoMap.keys node.Attributes)) =
        .ok attrTokens ∧
      ((node.Children.length > 0 ∧ ∃ childTokens,
          collect (fun childName =>
            collect (writeNode lib fuel)
              (sortChildren lib ((GoMap.get node.Children childName).getD [])))
            (sortStrings (GoMap.keys node.Children)) = .ok childTokens ∧
          childrenTokens = Token.StartElement (lit "children") [] ::
            (childTokens ++ [Token.EndElement (lit "children")])) ∨
        (¬ node.Children.length > 0 ∧ childrenTokens = [])) ∧
      ts = Token.StartElement (lit "node")
          ([(lit "id", node.Name)] ++
            (if node.KeyAttribute ≠ [] then [(lit "key", node.KeyAttribute)] else [])) ::
        ((attrTokens ++ childrenTokens) ++ [Token.EndElement (lit "node")]) := by
  rw [writeNode] at h
  simp only at h
  split at h
  · cases h
  · rename_i attrTokens hattrs
    by_cases hc : node.Children.length > 0
    · simp only [hc, if_true] at h
      split at h
      · cases h
      · rename_i childTokens hchildren
        cases h
        exact ⟨attrTokens, _, hattrs, Or.inl ⟨hc, childTokens, hchildren, rfl⟩, by simp⟩
    · simp only [hc, if_false] at h
      cases h
      exact ⟨attrTokens, [], hattrs, Or.inr ⟨hc, rfl⟩, by simp⟩

theorem attrTokens_nested (lib : Lib) (node : Node) (attrTokens : List Token)
    (h : collect (fun attrName =>
        match GoMap.get node.Attributes attrName with
        | some attr => writeAttribute lib attrName attr
        | none => .error .nilDereference) (sortStrings (GoMap.keys node.Attributes)) =
        .ok attrTokens) (d : Nat) :
    Nested (fun name => name ≠ lit "node") attrTokens ∧
    elementsAt d d attrTokens =
      (sortStrings (GoMap.keys node.Attributes)).map (fun a => (lit "attribute", a)) := by
  have := elementsAt_collect (fun name => name ≠ lit "node") _
    (fun a => [(lit "attribute", a)]) d d (sortStrings (GoMap.keys node.Attributes))
    (fun a _ us hus => by
      cases hg : GoMap.get node.Attributes a with
      | none => simp only [hg] at hus; cases hus
      | some attr =>
        simp only [hg] at hus
        exact ⟨(writeAttribute_nested lib a attr us hus).1,
          (writeAttribute_nested lib a attr us hus).2 d⟩) attrTokens h
  refine ⟨this.1, ?_⟩
  rw [this.2, flatMap_singleton]

theorem writeNode_nested (lib : Lib) (fuel : Nat) : ∀ (node : Node) (ts : List Token),
    writeNode lib fuel node = .ok ts →
    Nested (fun _ => True) ts ∧ ∀ d, elementsAt d d ts = [(lit "node", node.Name)] := by
  induction fuel with
  | zero =>
    intro node ts h
    simp [writeNode] at h
  | succ fuel ih =>
    intro node ts h
    obtain ⟨attrTokens, childrenTokens, hattrs, hchildren, rfl⟩ :=
      writeNode_ok_inv lib fuel node ts h
    have hA : Nested (fun _ => True) attrTokens :=
      (attrTokens_nested lib node attrTokens hattrs 0).1.mono (fun _ _ => trivial)
    have hC : Nested (fun _ => True) childrenTokens := by
      rcases hchildren with ⟨_, childTokens, hct, rfl⟩ | ⟨_, rfl⟩
      · refine Nested.wrap _ _ trivial ?_
        exact (elementsAt_collect (fun _ => True) _ (fun _ => []) 0 1 _
          (fun g _ us hus =>
            ⟨(elementsAt_collect (fun _ => True) _ (fun _ => []) 0 1 _
              (fun c _ vs hvs =>
                ⟨(ih c vs hvs).1, elementsAt_deeper (ih c vs hvs).1 0 1 (by omega)⟩)
              us hus).1,
             elementsAt_deeper ((elementsAt_collect (fun _ => True) _ (fun _ => []) 0 1 _
              (fun c _ vs hvs =>
                ⟨(ih c vs hvs).1, elementsAt_deeper (ih c vs hvs).1 0 1 (by omega)⟩)
              us hus).1) 0 1 (by omega)⟩)
          childTokens hct).1
      · exact Nested.nil
    have hin := hA.append hC
    refine ⟨Nested.wrap _ _ trivial hin, fun d => ?_⟩
    rw [elementsAt_element _ _ hin]
    simp [idOf, GoMap.get]

theorem childTokens_nested (lib : Lib) (fuel : Nat) (node : Node) (childTokens : List Token)
    (h : collect (fun childName =>
        collect (writeNode lib fuel)
          (sortChildren lib ((GoMap.get node.Children childName).getD [])))
        (sortStrings (GoMap.keys node.Children)) = .ok childTokens) (d : Nat) :
    Nested (fun _ => True) childTokens ∧
    elementsAt d d childTokens =
      (sortStrings (GoMap.keys node.Children)).flatMap (fun g =>
        (sortChildren lib ((GoMap.get node.Children g).getD [])).map
          (fun c => (lit "node", c.Name))) := by
  refine elementsAt_collect (fun _ => True) _ _ d d _ (fun g _ us hus => ?_) childTokens h
  have := elementsAt_collect (fun _ => True) (writeNode lib fuel)
    (fun c => [(lit "node", c.Name)]) d d _
    (fun c _ vs hvs => ⟨(writeNode_nested lib fuel c vs hvs).1,
      (writeNode_nested lib fuel c vs hvs).2 d⟩) us hus
  refine ⟨this.1, ?_⟩
  rw [this.2, flatMap_singleton]

theorem writeNode_elements (lib : Lib) (fuel : Nat) (node : Node) (ts : List Token)
    (h : writeNode lib (fuel + 1) node = .ok ts) :
    elementsAt 1 0 ts =
      (sortStrings (GoMap.keys node.Attributes)).map (fun a => (lit "attribute", a)) ++
        (if node.Children.length > 0 then [(lit "children", [])] else []) ∧
    (elementsAt 2 0 ts).filter (fun e => decide (e.1 = lit "node")) =
      (sortStrings (GoMap.keys node.Children)).flatMap (fun g =>
        (sortChildren lib ((GoMap.get node.Children g).getD [])).map
          (fun c => (lit "node", c.Name))) := by
  obtain ⟨attrTokens, childrenTokens, hattrs, hchildren, rfl⟩ :=
    writeNode_ok_inv lib fuel node ts h
  have hA1 := attrTokens_nested lib node attrTokens hattrs 1
  have hA := hA1.1
  have hnone : (elementsAt 2 1 attrTokens).filter (fun e => decide (e.1 = lit "node")) = [] := by
    rw [List.filter_eq_nil_iff]
    intro e he
    have := elementsAt_names hA 2 1 e he
    simpa using this
  rcases hchildren with ⟨hc, childTokens, hct, rfl⟩ | ⟨hc, rfl⟩
  · have hC := childTokens_nested lib fuel node childTokens hct 2
    have hW : Nested (fun _ => True)
        (Token.StartElement (lit "children") [] ::
          (childTokens ++ [Token.EndElement (lit "children")])) :=
      Nested.wrap _ _ trivial hC.1
    have hAW := (hA.mono (q := fun _ => True) (fun _ _ => trivial)).append hW
    constructor
    · simp only [elementsAt]
      rw [elementsAt_append hAW, elementsAt_append hA, hA1.2, elementsAt_element _ _ hC.1,
        if_pos hc]
      simp [elementsAt, idOf, GoMap.get]
    · simp only [elementsAt]
      rw [elementsAt_append hAW, elementsAt_append hA]
      simp only [elementsAt]
      rw [elementsAt_append hC.1, hC.2]
      simp only [elementsAt, List.filter_append, hnone]
      simp only [Nat.reduceEqDiff, if_false, List.nil_append, List.append_nil,
        List.filter_nil]
      rw [List.filter_eq_self]
      intro e he
      simp only [List.mem_flatMap, List.mem_map] at he
      obtain ⟨g, _, c, _, rfl⟩ := he
      simp
  · constructor
    · simp only [elementsAt, List.append_nil]
      rw [elementsAt_append hA, hA1.2, if_neg hc]
      simp [elementsAt]
    · simp only [elementsAt, List.append_nil]
      rw [elementsAt_append hA]
      simp only [elementsAt, List.filter_append, hnone]
      have : node.Children = [] := by
        cases hcc : node.Children with
        | nil => rfl
        | cons _ _ => rw [hcc] at hc; simp at hc
      simp [this, GoMap.keys, sortStrings]

theorem writeRegions_elements (lib : Lib) (fuel : Nat) (resource : Resource) (ts : List Token)
    (h : writeRegions lib fuel resource = .ok ts) :
    elementsAt 0 0 ts =
      (sortStrings (GoMap.keys resource.Regions)).map (fun n => (lit "region", n)) := by
  unfold writeRegions at h
  simp only at h
  have := elementsAt_collect (fun _ => True) _ (fun n => [(lit "region", n)]) 0 0 _
    (fun regionName _ us hus => by
      cases hg : GoMap.get resource.Regions regionName with
      | none => simp only [hg] at hus; cases hus
      | some region =>
        simp only [hg] at hus
        cases hw : writeNode lib fuel region.Node with
        | error e => simp only [hw] at hus; cases hus
        | ok vs =>
          simp only [hw, Except.ok.injEq] at hus
          subst hus
          have hn := (writeNode_nested lib fuel region.Node vs hw).1
          have h1 := Nested.wrap (lit "region") [(lit "id", regionName)] trivial hn
          have h2 := elementsAt_element (lit "region") [(lit "id", regionName)] hn 0
          simp only [List.singleton_append, List.cons_append, List.nil_append]
          refine ⟨h1, ?_⟩
          rw [h2]
          simp [idOf, GoMap.get]) ts h
  rw [this.2, flatMap_singleton]

theorem writeRegions_ok (lib : Lib) (hs : SortSliceSpec lib.sortSlice) (fuel : Nat)
    (resource : Resource)
    (h : ∀ e ∈ resource.Regions, e.2.Node.depth ≤ fuel ∧ e.2.Node.assertable) :
    ∃ ts, writeRegions lib fuel resource = .ok ts := by
  unfold writeRegions
  simp only
  refine collect_ok _ _ (fun regionName hmem => ?_)
  have hk : regionName ∈ GoMap.keys resource.Regions := (sortStrings_perm _).subset hmem
  obtain ⟨region, hg⟩ := GoMap.get_of_mem_keys _ _ hk
  obtain ⟨hd, ha⟩ := h _ (GoMap.mem_of_get _ _ _ hg)
  obtain ⟨vs, hvs⟩ := writeNode_ok lib hs fuel region.Node hd ha
  simp only [hg, hvs]
  exact ⟨_, rfl⟩

theorem idsAt_of_elements (want : Nat) (name : GoString) (ts : List Token)
    (names : List GoString) (extra : List (GoString × GoString))
    (hextra : ∀ e ∈ extra, e.1 ≠ name)
    (h : elementsAt want 0 ts = names.map (fun n => (name, n)) ++ extra) :
    idsAt want name ts = names := by
  unfold idsAt
  rw [h, List.filter_append]
  have h1 : (names.map (fun n => (name, n))).filter (fun e => decide (e.1 = name)) =
      names.map (fun n => (name, n)) := by
    rw [List.filter_eq_self]
    intro e he
    simp only [List.mem_map] at he
    obtain ⟨n, _, rfl⟩ := he
    simp
  have h2 : extra.filter (fun e => decide (e.1 = name)) = [] := by
    rw [List.filter_eq_nil_iff]
    intro e he
    simpa using hextra e he
  rw [h1, h2, List.append_nil, List.map_map]
  exact List.map_id _

/-- C8: the ids of the `region` elements in the tokens of `writeRegions`, in the order
written, are the region names in strictly ascending byte-wise order, each name of the map
once; in the tokens of `writeNode` the ids of the node's own `attribute` elements are its
attribute names in strictly ascending order, each once, and the ids of its child `node`
elements are, group name after group name in strictly ascending order, the names of the
members of the group (one run of the group name per group when the members carry the name
of their group and `sort.Slice` keeps its contract).  Both functions do deliver tokens when
the depth bound covers the tree and the translated-string attributes hold values of their
type.  The names walked are the keys of the maps, and storing the entries of the region map,
the attribute map or the child-group map in another order does not change the output. -/
theorem names_emitted_in_order (lib : Lib) (fuel : Nat) (resource : Resource) (node : Node)
    (hr : (GoMap.keys resource.Regions).Nodup) (ha : (GoMap.keys node.Attributes).Nodup)
    (hc : (GoMap.keys node.Children).Nodup) :
    (∀ ts, writeRegions lib fuel resource = .ok ts →
      idsAt 0 (lit "region") ts = sortStrings (GoMap.keys resource.Regions)) ∧
    (∀ ts, writeNode lib (fuel + 1) node = .ok ts →
      idsAt 1 (lit "attribute") ts = sortStrings (GoMap.keys node.Attributes) ∧
      idsAt 2 (lit "node") ts =
        (sortStrings (GoMap.keys node.Children)).flatMap (fun g =>
          (sortChildren lib ((GoMap.get node.Children g).getD [])).map Node.Name) ∧
      (SortSliceSpec lib.sortSlice →
        (∀ g, ∀ c ∈ (GoMap.get node.Children g).getD [], c.Name = g) →
        idsAt 2 (lit "node") ts =
          (sortStrings (GoMap.keys node.Children)).flatMap (fun g =>
            List.replicate ((GoMap.get node.Children g).getD []).length g))) ∧
    (SortSliceSpec lib.sortSlice →
      (∀ e ∈ resource.Regions, e.2.Node.depth ≤ fuel ∧ e.2.Node.assertable) →
      ∃ ts, writeRegions lib fuel resource = .ok ts) ∧
    (SortSliceSpec lib.sortSlice → node.depth ≤ fuel + 1 → node.assertable →
      ∃ ts, writeNode lib (fuel + 1) node = .ok ts) ∧
    ((sortStrings (GoMap.keys resource.Regions)).Pairwise (fun a b => strLess a b = true) ∧
      (sortStrings (GoMap.keys resource.Regions)).Perm (GoMap.keys resource.Regions)) ∧
    ((sortStrings (GoMap.keys node.Attributes)).Pairwise (fun a b => strLess a b = true) ∧
      (sortStrings (GoMap.keys node.Attributes)).Perm (GoMap.keys node.Attributes)) ∧
    ((sortStrings (GoMap.keys node.Children)).Pairwise (fun a b => strLess a b = true) ∧
      (sortStrings (GoMap.keys node.Children)).Perm (GoMap.keys node.Children)) ∧
    (∀ regions2 : GoMap Region, regions2.Perm resource.Regions →
      writeRegions lib fuel ⟨resource.Metadata, regions2⟩ = writeRegions lib fuel resource) ∧
    (∀ (attrs2 : GoMap NodeAttribute) (children2 : List (GoString × List Node)),
      attrs2.Perm node.Attributes → children2.Perm node.Children →
      writeNode lib (fuel + 1) (.mk node.Name node.KeyAttribute attrs2 children2) =
        writeNode lib (fuel + 1) node) := by
  have hw := writer_walks_sorted_names lib fuel resource node hr ha hc
  have hnode : ∀ ts, writeNode lib (fuel + 1) node = .ok ts →
      idsAt 2 (lit "node") ts =
        (sortStrings (GoMap.keys node.Children)).flatMap (fun g =>
          (sortChildren lib ((GoMap.get node.Children g).getD [])).map Node.Name) := by
    intro ts h
    unfold idsAt
    rw [(writeNode_elements lib fuel node ts h).2, List.map_flatMap]
    simp only [List.map_map]
    rfl
  refine ⟨?_, ?_, fun hs => writeRegions_ok lib hs fuel resource,
    fun hs => writeNode_ok lib hs (fuel + 1) node, hw.1, hw.2.1, hw.2.2.1, hw.2.2.2.2.2.1, hw.2.2.2.2.2.2⟩
  · intro ts h
    exact idsAt_of_elements 0 _ ts _ [] (fun _ he => by cases he)
      (by rw [writeRegions_elements lib fuel resource ts h, List.append_nil])
  · intro ts h
    refine ⟨?_, hnode ts h, ?_⟩
    · refine idsAt_of_elements 1 _ ts _ _ ?_ (writeNode_elements lib fuel node ts h).1
      intro e he
      split_ifs at he
      · simp only [List.mem_singleton] at he
        rw [he]
        decide
      · cases he
    · intro hs hnamed
      rw [hnode ts h]
      congr 1
      funext g
      have hp := sortChildren_perm lib hs ((GoMap.get node.Children g).getD [])
      rw [← hp.length_eq]
      apply List.eq_replicate_iff.2
      refine ⟨by simp, ?_⟩
      intro b hb
      simp only [List.mem_map] at hb
      obtain ⟨c, hcm, rfl⟩ := hb
      exact hnamed g c (hp.subset hcm)

/-- C8, witness: a resource and a node whose maps are stored out of name order; the ids
written are in name order. -/
theorem names_emitted_in_order_witness :
    (∃ ts, writeRegions refLib 2 unorderedResource = .ok ts ∧
      idsAt 0 (lit "region") ts = [lit "Alpha", lit "Zeta"]) ∧
    (∃ ts, writeNode refLib 3 unorderedNode = .ok ts ∧
      idsAt 1 (lit "attribute") ts = [lit "a", lit "b"] ∧
      idsAt 2 (lit "node") ts = [lit "X", lit "Y"]) := by
  have T := names_emitted_in_order refLib 2 unorderedResource unorderedNode
    (by decide) (by decide) (by decide)
  obtain ⟨ts1, h1⟩ : ∃ ts, writeRegions refLib 2 unorderedResource = .ok ts := ⟨_, rfl⟩
  obtain ⟨ts2, h2⟩ : ∃ ts, writeNode refLib 3 unorderedNode = .ok ts := ⟨_, rfl⟩
  exact ⟨⟨ts1, h1, (T.1 ts1 h1).trans (by decide)⟩,
    ⟨ts2, h2, (T.2.1 ts2 h2).1.trans (by decide), (T.2.1 ts2 h2).2.1.trans (by decide)⟩⟩

end Lsf2lsx
